import Mathlib

/-!
SistemTreceri: window generation, in-place FFT and bin phase extraction.

A shallow embedding of the C sources

* `calculatePhaseFromFFT_TEST_ME.c`
* `PhaseComputationTests/calculatePhaseFromFFT/calculatePhaseFromFFT.c`
* `treceriTestPhaseComputing/treceriTestPhaseComputing.c`

The C `float`/`double` values are read as elements of an ordered field `α`
(the theorems take `α = ℝ`), the C arrays as lists with checked accesses
(`none` is an access outside the array), and the `unsigned long` loop counters
as natural numbers: for a buffer of `2 * nn` floats that exists in memory the
counters of `real_fft` stay below `4 * nn`, far from the word size.  Loops are
structural recursions on a fuel argument; running out of fuel is `none`.

In window generation and in `myfftPhase` the roundings of the C arithmetic are
explicit: `toDouble` is applied to the result of every operation done in
`double` and to the decimal constants (`0.0`, `0.5`, `360.0` and the integers,
which are binary fractions, are written as they are), `toFloat` where a value is
converted to `float`.  Both are fields of `Libm`: the identity in exact
arithmetic, the roundings `binary64` and `binary32` in IEEE 754 arithmetic.  The
transform `real_fft` and `apply_flattop_window` are written in exact arithmetic.
-/

namespace SistemTreceri

/-! ## The C library and the macros standing for irrational constants -/

/-- The arithmetic the sources run on: the part of `math.h` they call, the
macros that stand for irrational numbers, `PI`
(`3.1415926535897932384626433832795`), `M_PI` of `math.h` and `RAD2DEG`
(`57.295779513082320876798154814105  // 180/PI`), and the two roundings of the C
floating types. -/
structure Libm (α : Type) where
  /-- The macro `PI`. -/
  PI : α
  /-- The constant `M_PI` of `math.h`. -/
  M_PI : α
  /-- The macro `RAD2DEG`, commented `180/PI` in the sources. -/
  RAD2DEG : α
  /-- The function `sin` of `math.h`. -/
  sin : α → α
  /-- The function `cos` of `math.h`. -/
  cos : α → α
  /-- The function `atan2` of `math.h`, called as `atan2 y x`. -/
  atan2 : α → α → α
  /-- The conversion to `float`, made where a value is stored in a `float` object
  or is the result of an operation on `float` operands. -/
  toFloat : α → α
  /-- The value as a `double`: the rounding of a decimal constant and of the
  exact result of an operation done in `double`. -/
  toDouble : α → α

/-- The macro `EPSILON`: `1e-8`. -/
def EPSILON {α : Type} [LinearOrderedField α] : α := 1e-8

/-- Width in bits of `unsigned long` on the LP64 hosts the tests are run on. -/
def ULONG_BITS : Nat := 64

/-- Conversion of an `int` to `unsigned long`, as the usual arithmetic
conversions do in `k >= nn / 2`. -/
def toULong (k : Int) : Nat := (k % (2 : Int) ^ ULONG_BITS).toNat

/-! ## Rounding to the floating types -/

section Rounding

variable {α : Type} [LinearOrderedField α] [FloorRing α]

/-- Rounding to the nearest integer, a tie going to the even one. -/
def roundHalfEven (x : α) : Int :=
  let f : Int := ⌊x⌋
  if x - (f : α) < 1 / 2 then f
  else if 1 / 2 < x - (f : α) then f + 1
  else if f % 2 = 0 then f else f + 1

/-- Rounding to the nearest binary floating-point number with `p` significant
bits whose least exponent of a unit in the last place is `emin` (IEEE 754,
round to nearest, ties to even).  The unit in the last place of `x` is `2 ^ e`
with `e = max (⌊log₂ |x|⌋ - (p - 1)) emin`.  The largest finite number is not
modelled: no overflow to an infinity. -/
def roundBinary (p : Nat) (emin : Int) (x : α) : α :=
  let e : Int := max (Int.log 2 |x| - ((p : Int) - 1)) emin
  (roundHalfEven (x / (2 : α) ^ e) : α) * (2 : α) ^ e

/-- Rounding to `float` (binary32): 24 significant bits, least unit `2 ^ -149`. -/
def binary32 (x : α) : α := roundBinary 24 (-149) x

/-- Rounding to `double` (binary64): 53 significant bits, least unit `2 ^ -1074`. -/
def binary64 (x : α) : α := roundBinary 53 (-1074) x

end Rounding

/-! ## Checked array accesses -/

/-- Read of `data[i]`; `none` outside the array. -/
def readAt {α : Type} (data : List α) (i : Nat) : Option α := data[i]?

/-- Read of `data[i]` for an index computed in `int`; `none` outside the array. -/
def readAtInt {α : Type} (data : List α) (i : Int) : Option α :=
  if i < 0 then none else data[i.toNat]?

/-- Store `data[i] = v`; `none` outside the array. -/
def writeAt {α : Type} (data : List α) (i : Nat) (v : α) : Option (List α) :=
  if i < data.length then some (data.set i v) else none

/-- The macro `SWAP(a, b) { float temp = (a); (a) = (b); (b) = temp; }` on the
array cells `data[a]` and `data[b]`. -/
def SWAP {α : Type} (data : List α) (a b : Nat) : Option (List α) := do
  let temp ← readAt data a
  let vb ← readAt data b
  let data ← writeAt data a vb
  writeAt data b temp

/-! ## Window generation -/

section Windows

variable {α : Type} [LinearOrderedField α]

/-- Body of the loop of `generate_flat_top_window`: the coefficient stored in
`flattop_window[n]`.  The constants are `const float` objects initialised from
decimal constants; `factor` is a `float` computed in `double`; `2 * factor`,
`3 * factor` and `4 * factor` are products of `float` operands; the sum is
computed in `double`, from left to right, and converted to `float` by the store.
The body runs only for `n < num_points`, so the `size_t` subtraction
`num_points - 1` does not wrap.  For `num_points = 1` the divisor is `0`: C then
stores a NaN, which no element of `α` stands for (the quotient here is the
field's `x / 0`), so nothing is stated about that value. -/
def flat_top_coefficient (L : Libm α) (num_points n : Nat) : α :=
  let a0 : α := L.toFloat (L.toDouble 1.0)
  let a1 : α := L.toFloat (L.toDouble 1.93)
  let a2 : α := L.toFloat (L.toDouble 1.29)
  let a3 : α := L.toFloat (L.toDouble 0.388)
  let a4 : α := L.toFloat (L.toDouble 0.028)
  let factor : α := L.toFloat (L.toDouble
    (L.toDouble (L.toDouble (2 * L.PI) * (n : α)) / ((num_points - 1 : Nat) : α)))
  L.toFloat (L.toDouble (L.toDouble (L.toDouble (L.toDouble
    (a0 - L.toDouble (a1 * L.cos factor))
      + L.toDouble (a2 * L.cos (L.toFloat (2 * factor))))
      - L.toDouble (a3 * L.cos (L.toFloat (3 * factor))))
      + L.toDouble (a4 * L.cos (L.toFloat (4 * factor)))))

/-- The loop `for (size_t n = 0; n < num_points; n++)` of
`generate_flat_top_window`, from index `n`, writing into `flattop_window`. -/
def flat_top_loop (L : Libm α) (num_points : Nat) :
    Nat → Nat → List α → Option (List α)
  | 0, _, _ => none
  | fuel + 1, n, flattop_window =>
    if n < num_points then do
      let w ← writeAt flattop_window n (flat_top_coefficient L num_points n)
      flat_top_loop L num_points fuel (n + 1) w
    else some flattop_window

/-- The function `generate_flat_top_window(float *flattop_window, size_t num_points)`:
the array after the call. -/
def generate_flat_top_window (L : Libm α) (flattop_window : List α)
    (num_points : Nat) : Option (List α) :=
  flat_top_loop L num_points (num_points + 1) 0 flattop_window

/-- Body of the loop of `generate_hanning_window`: the coefficient stored in
`window[n]`, computed in `double` and converted to `float` by the store.  For
`num_points = 1` the divisor is `0`: C then stores a NaN, which no element of `α`
stands for, so nothing is stated about that value. -/
def hanning_coefficient (L : Libm α) (num_points n : Nat) : α :=
  L.toFloat (L.toDouble (0.5 * L.toDouble (1 - L.cos (L.toDouble
    (L.toDouble (L.toDouble (2 * L.M_PI) * (n : α)) / ((num_points - 1 : Nat) : α))))))

/-- The loop `for (size_t n = 0; n < num_points; n++)` of
`generate_hanning_window`, from index `n`. -/
def hanning_loop (L : Libm α) (num_points : Nat) :
    Nat → Nat → List α → Option (List α)
  | 0, _, _ => none
  | fuel + 1, n, window =>
    if n < num_points then do
      let w ← writeAt window n (hanning_coefficient L num_points n)
      hanning_loop L num_points fuel (n + 1) w
    else some window

/-- The function `generate_hanning_window(float *window, size_t num_points)`:
the array after the call. -/
def generate_hanning_window (L : Libm α) (window : List α)
    (num_points : Nat) : Option (List α) :=
  hanning_loop L num_points (num_points + 1) 0 window

/-- The loop `for (size_t n = 0; n < num_points; n++)` of `apply_flattop_window`,
from the state `(n, signal)`; the `int` `num_points` is converted to `size_t` in
the comparison. -/
def apply_flattop_loop (flattop_window : List α) (num_points : Int) :
    Nat → Nat → List α → Option (List α)
  | 0, _, _ => none
  | fuel + 1, n, signal =>
    if n < toULong num_points then do
      let s ← readAt signal (n * 2)
      let w ← readAt flattop_window n
      let signal ← writeAt signal (n * 2) (s * w)
      apply_flattop_loop flattop_window num_points fuel (n + 1) signal
    else some signal

/-- The function
`apply_flattop_window(float *signal, const float *flattop_window, int num_points)`:
the array `signal` after the call. -/
def apply_flattop_window (signal flattop_window : List α) (num_points : Int) :
    Option (List α) :=
  apply_flattop_loop flattop_window num_points (toULong num_points + 1) 0 signal

end Windows

/-! ## Phase extraction -/

section Phase

variable {α : Type} [LinearOrderedField α]

/-- The function `myfftPhase` of `calculatePhaseFromFFT_TEST_ME.c` (the copy in
`treceriTestPhaseComputing.c` has the same statements): offset `+ 137.1126`, one
conditional `+ 360.0`.  In `k >= nn / 2` the `int` `k` is converted to
`unsigned long`.  The indices `2 * k` and `2 * k + 1` are computed in `int`; they
are taken in the integers, which is the C value for `k < 2 ^ 30` (from `2 ^ 30`
on the `int` product overflows, which C leaves undefined).  `angle_rad` and
`angle_deg` are `float` objects: each assignment converts a `double` result. -/
def myfftPhase (L : Libm α) (data : List α) (nn : Nat) (k : Int) : Option α :=
  if toULong k ≥ nn / 2 then
    some 0.0
  else do
    let real_part ← readAtInt data (2 * k)
    let imag_part ← readAtInt data (2 * k + 1)
    if |real_part| < L.toDouble EPSILON ∧ |imag_part| < L.toDouble EPSILON then
      some 0.0
    else
      let angle_rad := L.toFloat (L.atan2 imag_part real_part)
      let angle_deg := L.toFloat (L.toDouble (angle_rad * L.RAD2DEG))
      let angle_deg := L.toFloat (L.toDouble (angle_deg + L.toDouble 137.1126))
      let angle_deg :=
        if angle_deg < 0.0 then L.toFloat (L.toDouble (angle_deg + 360.0)) else angle_deg
      some angle_deg

/-- The function `myfftPhase` of `calculatePhaseFromFFT.c`: offset
`- 222.884444`, two conditional `+ 360.0`; indices and conversions as in the
other copy. -/
def CalculatePhaseFromFFT.myfftPhase (L : Libm α) (data : List α) (nn : Nat) (k : Int) : Option α :=
  if toULong k ≥ nn / 2 then
    some 0.0
  else do
    let real_part ← readAtInt data (2 * k)
    let imag_part ← readAtInt data (2 * k + 1)
    if |real_part| < L.toDouble EPSILON ∧ |imag_part| < L.toDouble EPSILON then
      some 0.0
    else
      let angle_rad := L.toFloat (L.atan2 imag_part real_part)
      let angle_deg := L.toFloat (L.toDouble (angle_rad * L.RAD2DEG))
      let angle_deg := L.toFloat (L.toDouble (angle_deg - L.toDouble 222.884444))
      let angle_deg :=
        if angle_deg < 0 then L.toFloat (L.toDouble (angle_deg + 360.0)) else angle_deg
      let angle_deg :=
        if angle_deg < 0 then L.toFloat (L.toDouble (angle_deg + 360.0)) else angle_deg
      some angle_deg

end Phase

/-! ## The transform -/

section Transform

variable {α : Type} [Field α]

/-- The loop `while (m >= 2 && j > m) { j -= m; m >>= 1; }` of the bit-reversal
section; returns the final `(m, j)`. -/
def bitrev_while : Nat → Nat → Nat → Option (Nat × Nat)
  | 0, _, _ => none
  | fuel + 1, m, j =>
    if m ≥ 2 ∧ j > m then bitrev_while fuel (m >>> 1) (j - m) else some (m, j)

/-- The statement `if (j > i) { SWAP(data[j-1], data[i-1]); SWAP(data[j], data[i]); }`
of the bit-reversal section. -/
def bitrev_swap (i j : Nat) (data : List α) : Option (List α) :=
  if j > i then do
    let data ← SWAP data (j - 1) (i - 1)
    SWAP data j i
  else some data

/-- The loop `for (i = 1; i < n; i += 2)` of the bit-reversal section, from the
state `(i, j, data)`. -/
def bitrev_for (n : Nat) : Nat → Nat → Nat → List α → Option (List α)
  | 0, _, _, _ => none
  | fuel + 1, i, j, data =>
    if i < n then do
      let data ← bitrev_swap i j data
      let m := n >>> 1
      let (m, j) ← bitrev_while (n + 1) m j
      let j := j + m
      bitrev_for n fuel (i + 2) j data
    else some data

/-- The body of the loop `for (i = m; i <= n; i += istep)`: the butterfly on the
pairs at `i` and `j = i + mmax`. -/
def butterfly (mmax : Nat) (wr wi : α) (i : Nat) (data : List α) : Option (List α) := do
  let j := i + mmax
  let dj1 ← readAt data (j - 1)
  let dj ← readAt data j
  let tempr := wr * dj1 - wi * dj
  let tempi := wr * dj + wi * dj1
  let di1 ← readAt data (i - 1)
  let data ← writeAt data (j - 1) (di1 - tempr)
  let di ← readAt data i
  let data ← writeAt data j (di - tempi)
  let di1 ← readAt data (i - 1)
  let data ← writeAt data (i - 1) (di1 + tempr)
  let di ← readAt data i
  writeAt data i (di + tempi)

/-- The loop `for (i = m; i <= n; i += istep)` of the Danielson-Lanczos section,
from the state `(i, data)`. -/
def butterfly_for (n mmax istep : Nat) (wr wi : α) :
    Nat → Nat → List α → Option (List α)
  | 0, _, _ => none
  | fuel + 1, i, data =>
    if i ≤ n then do
      let data ← butterfly mmax wr wi i data
      butterfly_for n mmax istep wr wi fuel (i + istep) data
    else some data

/-- The loop `for (m = 1; m < mmax; m += 2)` of the Danielson-Lanczos section,
from the state `(m, wr, wi, data)`. -/
def twiddle_for (n mmax istep : Nat) (wpr wpi : α) :
    Nat → Nat → α → α → List α → Option (List α)
  | 0, _, _, _, _ => none
  | fuel + 1, m, wr, wi, data =>
    if m < mmax then do
      let data ← butterfly_for n mmax istep wr wi (n + 1) m data
      let wtemp := wr
      let wr := wr * wpr - wi * wpi + wr
      let wi := wi * wpr + wtemp * wpi + wi
      twiddle_for n mmax istep wpr wpi fuel (m + 2) wr wi data
    else some data

/-- The loop `while (n > mmax)` of the Danielson-Lanczos section, from the state
`(mmax, data)`.  The argument `c` is the numerator of `theta = c / mmax`:
`-2.0 * PI` in `real_fft`, and the same with `+` for the inverse transform. -/
def danielson_lanczos (sin : α → α) (c : α) (n : Nat) :
    Nat → Nat → List α → Option (List α)
  | 0, _, _ => none
  | fuel + 1, mmax, data =>
    if n > mmax then do
      let istep := mmax <<< 1
      let theta := c / (mmax : α)
      let wtemp := sin (0.5 * theta)
      let wpr := -2.0 * wtemp * wtemp
      let wpi := sin theta
      let wr : α := 1.0
      let wi : α := 0.0
      let data ← twiddle_for n mmax istep wpr wpi (mmax + 1) 1 wr wi data
      let mmax := istep
      danielson_lanczos sin c n fuel mmax data
    else some data

/-- The body shared by `real_fft` and its inverse: bit-reversal reordering, then
the Danielson-Lanczos passes with `theta = c / mmax`. -/
def fft_body (sin : α → α) (c : α) (data : List α) (nn : Nat) : Option (List α) := do
  let n := nn <<< 1
  let j := 1
  let data ← bitrev_for n (n + 1) 1 j data
  let mmax := 2
  danielson_lanczos sin c n (n + 1) mmax data

/-- The function `real_fft(float data[], unsigned long nn)`, with
`theta = -2.0 * PI / mmax`. -/
def real_fft (L : Libm α) (data : List α) (nn : Nat) : Option (List α) :=
  fft_body L.sin (-2.0 * L.PI) data nn

/-- The inverse transform: `real_fft` with the sign of `theta` made positive, as
the comment `the above line should be + for inverse FFT` of
`calculatePhaseFromFFT.c` prescribes. -/
def inverse_real_fft (L : Libm α) (data : List α) (nn : Nat) : Option (List α) :=
  fft_body L.sin (2.0 * L.PI) data nn

/-- The bit-reversal section of `real_fft`: the statements `n = nn << 1; j = 1;`
and the first loop. -/
def bit_reversal_section (data : List α) (nn : Nat) : Option (List α) :=
  let n := nn <<< 1
  let j := 1
  bitrev_for n (n + 1) 1 j data

/-- The update of the twiddle pair at the end of the loop on `m`:
`wtemp = wr; wr = wr * wpr - wi * wpi + wr; wi = wi * wpr + wtemp * wpi + wi;`. -/
def twiddle_step (wpr wpi : α) (w : α × α) : α × α :=
  let wr := w.1
  let wi := w.2
  let wtemp := wr
  let wr := wr * wpr - wi * wpi + wr
  let wi := wi * wpr + wtemp * wpi + wi
  (wr, wi)

/-- The loop `while (n > mmax)` of the Danielson-Lanczos section with its counter
made visible: besides the array it returns the values `mmax` had at the passes
executed, in order, and the value of `mmax` on exit. -/
def danielson_lanczos_trace (sin : α → α) (c : α) (n : Nat) :
    Nat → Nat → List α → Option (List α × List Nat × Nat)
  | 0, _, _ => none
  | fuel + 1, mmax, data =>
    if n > mmax then do
      let istep := mmax <<< 1
      let theta := c / (mmax : α)
      let wtemp := sin (0.5 * theta)
      let wpr := -2.0 * wtemp * wtemp
      let wpi := sin theta
      let wr : α := 1.0
      let wi : α := 0.0
      let data ← twiddle_for n mmax istep wpr wpi (mmax + 1) 1 wr wi data
      let (data, passes, last) ← danielson_lanczos_trace sin c n fuel istep data
      some (data, mmax :: passes, last)
    else some (data, [], mmax)

/-- The value of the macro `PI` in the three sources. -/
def PI_MACRO : α := 3.1415926535897932384626433832795

/-- The function `real_fft` of `calculatePhaseFromFFT.c`: the same statements with
`theta = -6.283185307179586476925286766559 / mmax`. -/
def CalculatePhaseFromFFT.real_fft (L : Libm α) (data : List α) (nn : Nat) :
    Option (List α) :=
  fft_body L.sin (-6.283185307179586476925286766559) data nn

/-- The function `real_fft` of `treceriTestPhaseComputing.c`: the same statements
as in `calculatePhaseFromFFT_TEST_ME.c`, with `theta = -2.0 * PI / mmax`. -/
def TreceriTestPhaseComputing.real_fft (L : Libm α) (data : List α) (nn : Nat) :
    Option (List α) :=
  fft_body L.sin (-2.0 * L.PI) data nn

end Transform

/-! ## The deployment of `treceriTestPhaseComputing.c` and its phase correction -/

section Deployment

variable {α : Type} [LinearOrderedField α]

/-- The constant `const size_t num_points = 2048;`. -/
def TreceriTestPhaseComputing.num_points : Nat := 2048

/-- The constant `const float frequency = 50.0;`. -/
def TreceriTestPhaseComputing.frequency : α := 50.0

/-- The constant `const float sample_rate = 11718.75;`. -/
def TreceriTestPhaseComputing.sample_rate : α := 11718.75

/-- The frequency of bin `k` in the header comment of `treceriTestPhaseComputing.c`
(`51.4984130859375 Hz` for bin 9): `k * sample_rate / num_points`. -/
def TreceriTestPhaseComputing.bin_frequency (k : Nat) : α :=
  (k : α) * TreceriTestPhaseComputing.sample_rate
    / (TreceriTestPhaseComputing.num_points : α)

/-- The phase shift of the header comment of `treceriTestPhaseComputing.c`, in
degrees: `Δϕ = Δω × T` with `Δω = 2π × (fbin − fsignal)` and
`T = num_points / sample_rate`, a turn of `2π` counted as 360 degrees. -/
def TreceriTestPhaseComputing.phase_shift_deg (k : Nat) : α :=
  360 * (TreceriTestPhaseComputing.bin_frequency k - TreceriTestPhaseComputing.frequency)
    * ((TreceriTestPhaseComputing.num_points : α) / TreceriTestPhaseComputing.sample_rate)

end Deployment

/-! ## Serial output (`TestFFTPhaseComputation/USART3.h`) -/

/-- Conversion of an `int` to `unsigned char`. -/
def toUChar (x : Int) : Nat := (x % 256).toNat

/-- The function `USART3_Putch(unsigned char ch)`: the byte `ch` is transmitted,
that is appended to the bytes `tx` transmitted so far (`USART_SendData` and the
wait on the flag `USART_FLAG_TC` belong to the peripheral library). -/
def USART3_Putch (tx : List Nat) (ch : Int) : List Nat := tx ++ [toUChar ch]

/-- The loop `while( i < 64)` of `USART3_Print`, from the state `(i, tx)`; the
characters of `s` are given by their codes. -/
def USART3_Print_while (s : List Nat) : Nat → Nat → List Nat → Option (List Nat)
  | 0, _, _ => none
  | fuel + 1, i, tx =>
    if i < 64 then do
      let c ← readAt s i
      if c = 0 then some tx
      else do
        let c ← readAt s i
        USART3_Print_while s fuel (i + 1) (USART3_Putch tx c)
    else some tx

/-- The function `USART3_Print(char s[])`: the bytes transmitted. -/
def USART3_Print (s : List Nat) : Option (List Nat) :=
  let i := 0
  USART3_Print_while s 65 i []

/-- The loop `while( number >= 10) { s[i++] = number % 10; number /= 10; }` of
`USART3_Print_Int`, from the state `(number, i, s)`; returns the final state. -/
def USART3_Print_Int_while : Nat → Int → Nat → List Nat → Option (Int × Nat × List Nat)
  | 0, _, _, _ => none
  | fuel + 1, number, i, s =>
    if number ≥ 10 then do
      let s ← writeAt s i (toUChar (number.tmod 10))
      USART3_Print_Int_while fuel (number.tdiv 10) (i + 1) s
    else some (number, i, s)

/-- The first part of `USART3_Print_Int(int number)`, up to `j = i;`: the sign, the
loop storing the digits and the store `s[i] = number;`.  The argument `s` is the
local array `unsigned char s[5]` with its indeterminate initial contents.
Returns the bytes transmitted, `j` and the array.  The counter `i`, an
`unsigned char`, stays far below 256 for an `int`; `number = -number` is taken in
the integers, which is the C value except at `INT_MIN`, where C leaves it
undefined. -/
def USART3_Print_Int_store (s : List Nat) (number : Int) :
    Option (List Nat × Nat × List Nat) := do
  let i := 1
  let (tx, number) :=
    if number < 0 then (USART3_Putch [] 45, -number) else (([] : List Nat), number)
  let (number, i, s) ← USART3_Print_Int_while (number.toNat + 1) number i s
  let s ← writeAt s i (toUChar number)
  let j := i
  some (tx, j, s)

/-- The loop `for( i=j; i>0; i--) USART3_Putch( '0' + s[i]);` of `USART3_Print_Int`,
from the state `(i, tx)`. -/
def USART3_Print_Int_for (s : List Nat) : Nat → Nat → List Nat → Option (List Nat)
  | 0, _, _ => none
  | fuel + 1, i, tx =>
    if i > 0 then do
      let c ← readAt s i
      USART3_Print_Int_for s fuel (i - 1) (USART3_Putch tx (48 + (c : Int)))
    else some tx

/-- The function `USART3_Print_Int(int number)`: the bytes transmitted, for the
local array `s`. -/
def USART3_Print_Int (s : List Nat) (number : Int) : Option (List Nat) := do
  let (tx, j, s) ← USART3_Print_Int_store s number
  USART3_Print_Int_for s (j + 1) j tx

/-! ## Definitions used by the statements and the proofs -/

open Finset

/-- The complex number stored in the pair `data[2q], data[2q+1]`; `0` outside
the array. -/
def cbuf (d : List ℝ) (q : ℕ) : ℂ := ⟨d.getD (2 * q) 0, d.getD (2 * q + 1) 0⟩

/-- The number whose `p`-bit binary representation is that of `q` reversed. -/
def bitrev : ℕ → ℕ → ℕ
  | 0, _ => 0
  | p + 1, q => (q % 2) * 2 ^ p + bitrev p (q / 2)

/-- The butterfly of a pass with half block size `h` and twiddle factor `w`, at
position `q`. -/
noncomputable def bflyF (h : ℕ) (w : ℂ) (f : ℕ → ℂ) (q : ℕ) : ℂ :=
  if (q / h) % 2 = 0 then f q + w * f (q + h) else f (q - h) - w * f q

/-- One pass of the Danielson-Lanczos section with half block size `h` and
twiddle factors `W0 ^ k`. -/
noncomputable def passF (h : ℕ) (W0 : ℂ) (f : ℕ → ℂ) (q : ℕ) : ℂ :=
  bflyF h (W0 ^ (q % h)) f q

/-- The content of the buffer after the passes of block size up to `2 ^ s`, for a
transform on `2 ^ (s + k)` points of `x`: block `q / 2 ^ s` holds the transform
on `2 ^ s` points of the samples of `x` at stride `2 ^ k` from the offset
`bitrev k (q / 2 ^ s)`.  The number `om s` is the root of unity of the blocks
of size `2 ^ s`. -/
noncomputable def stage (om : ℕ → ℂ) (s k : ℕ) (x : ℕ → ℂ) (q : ℕ) : ℂ :=
  ∑ u in range (2 ^ s), x (u * 2 ^ k + bitrev k (q / 2 ^ s)) * om s ^ ((q % 2 ^ s) * u)

/-- The root of unity of the blocks of size `2 ^ s`, for `theta = c / mmax`. -/
noncomputable def om (c : ℝ) (s : ℕ) : ℂ := Complex.exp (((c / 2 ^ s : ℝ) : ℂ) * Complex.I)

/-- The C library over the real numbers, in exact arithmetic: `PI = M_PI = π`,
`RAD2DEG = 180 / π`, the functions of `math.h` are the real functions and no
conversion rounds. -/
noncomputable def realLibm : Libm ℝ where
  PI := Real.pi
  M_PI := Real.pi
  RAD2DEG := 180 / Real.pi
  sin := Real.sin
  cos := Real.cos
  atan2 := fun y x => Complex.arg ⟨x, y⟩
  toFloat := fun x => x
  toDouble := fun x => x

/-- The C library in IEEE 754 arithmetic, operations evaluated in the type of
their operands: `float` is binary32 and `double` is binary64, the macros are the
doubles nearest to their decimals (`M_PI` is `3.14159265358979323846` in
`math.h`), and the functions of `math.h` are taken to return the double nearest
to the real value. -/
noncomputable def ieeeLibm : Libm ℝ where
  PI := binary64 PI_MACRO
  M_PI := binary64 3.14159265358979323846
  RAD2DEG := binary64 57.295779513082320876798154814105
  sin := fun x => binary64 (Real.sin x)
  cos := fun x => binary64 (Real.cos x)
  atan2 := fun y x => binary64 (Complex.arg ⟨x, y⟩)
  toFloat := binary32
  toDouble := binary64

/-- The discrete Fourier transform `X[k] = ∑ x[n] * exp(-2πi k n / N)`. -/
noncomputable def dft (N : ℕ) (x : ℕ → ℂ) (k : ℕ) : ℂ :=
  ∑ n in range N, x n * Complex.exp (-2 * Real.pi * Complex.I * k * n / N)

/-- Reduction of an angle in degrees modulo 360 into `[0, 360)`. -/
noncomputable def mod360 (x : ℝ) : ℝ := x - 360 * (⌊x / 360⌋ : ℝ)

/-- The normalisation `if (angle_deg < 0.0) angle_deg += 360.0;`. -/
noncomputable def add360_if_negative (x : ℝ) : ℝ := if x < 0 then x + 360 else x

/-- The calibration offset of the specification, in degrees: `-Δφ` for
`Δφ = 2π (fbin - ftrue) T` radians, `fbin = k * sampleRate / N`,
`T = N / sampleRate`. -/
noncomputable def spec_calibration_offset_deg (N sampleRate k ftrue : ℝ) : ℝ :=
  -(2 * Real.pi * (k * sampleRate / N - ftrue) * (N / sampleRate)) * (180 / Real.pi)

/-- The decimal digits of `n`, least significant first; the single digit `0`
for `n = 0`. -/
def decimal_digits (n : Nat) : List Nat := if n = 0 then [0] else Nat.digits 10 n

/-- The decimal representation of `number` as character codes: `'-'` (45) when
`number < 0`, then the digits of `|number|`, most significant first, as the codes
`'0' + d`. -/
def spec_decimal_representation (number : Int) : List Nat :=
  (if number < 0 then [45] else []) ++
    (decimal_digits number.natAbs).reverse.map (fun d => 48 + d)

/-! ## Lemmas and theorems -/

/-! ## Arrays of reals read as arrays of complex numbers -/

theorem readAt_of_lt {α : Type} [Zero α] {d : List α} {i : ℕ} (h : i < d.length) :
    readAt d i = some (d.getD i 0) := by
  simp [readAt, List.getD, List.getElem?_eq_getElem h]

theorem writeAt_of_lt {α : Type} {d : List α} {i : ℕ} (v : α) (h : i < d.length) :
    writeAt d i v = some (d.set i v) := by
  simp [writeAt, h]

theorem getD_set_eq {α : Type} [Zero α] (d : List α) (i j : ℕ) (v : α) :
    (d.set i v).getD j 0 = if i = j ∧ i < d.length then v else d.getD j 0 := by
  by_cases hij : i = j
  · subst hij
    by_cases hi : i < d.length
    · simp [List.getD, hi]
    · have h1 : d.length ≤ i := Nat.le_of_not_lt hi
      have h2 : (d.set i v).length ≤ i := by simpa using h1
      simp [List.getD, hi, List.getElem?_eq_none h1, List.getElem?_eq_none h2]
  · simp [List.getD, hij, List.getElem?_set_ne hij]

theorem SWAP_of_lt {α : Type} [Zero α] {d : List α} {a b : ℕ} (ha : a < d.length)
    (hb : b < d.length) :
    SWAP d a b = some ((d.set a (d.getD b 0)).set b (d.getD a 0)) := by
  have hb2 : b < (d.set a (d.getD b 0)).length := by simpa using hb
  unfold SWAP
  rw [readAt_of_lt ha, readAt_of_lt hb]
  simp only [Option.bind_eq_bind, Option.some_bind]
  rw [writeAt_of_lt _ ha]
  simp only [Option.some_bind]
  rw [writeAt_of_lt _ hb2]

theorem bitrev_swap_spec (d : List ℝ) (a b N : ℕ) (hlen : d.length = 2 * N)
    (ha : a < N) (hb : b < N) :
    ∃ d', bitrev_swap (2 * a + 1) (2 * b + 1) d = some d' ∧ d'.length = 2 * N ∧
      ∀ q, cbuf d' q =
        if a < b then (if q = a then cbuf d b else if q = b then cbuf d a else cbuf d q)
        else cbuf d q := by
  unfold bitrev_swap
  by_cases hab : a < b
  · have h1 : 2 * b + 1 > 2 * a + 1 := by omega
    have e1 : 2 * b + 1 - 1 = 2 * b := by omega
    have e2 : 2 * a + 1 - 1 = 2 * a := by omega
    rw [if_pos h1, e1, e2, SWAP_of_lt (by omega) (by omega)]
    simp only [Option.bind_eq_bind, Option.some_bind]
    rw [SWAP_of_lt (by simp; omega) (by simp; omega)]
    refine ⟨_, rfl, by simp [hlen], ?_⟩
    intro q
    simp only [if_pos hab, cbuf, getD_set_eq, List.length_set, hlen]
    apply Complex.ext
    · simp only
      split_ifs <;> first | rfl | (exfalso; omega)
    · simp only
      split_ifs <;> first | rfl | (exfalso; omega)
  · have h1 : ¬ (2 * b + 1 > 2 * a + 1) := by omega
    rw [if_neg h1]
    exact ⟨d, rfl, hlen, fun q => by simp [hab]⟩

theorem butterfly_spec (d : List ℝ) (wr wi : ℝ) (a h N : ℕ) (hlen : d.length = 2 * N)
    (hh : 0 < h) (hb : a + h < N) :
    ∃ d', butterfly (2 * h) wr wi (2 * a + 1) d = some d' ∧ d'.length = 2 * N ∧
      ∀ q, cbuf d' q =
        if q = a then cbuf d a + (⟨wr, wi⟩ : ℂ) * cbuf d (a + h)
        else if q = a + h then cbuf d a - (⟨wr, wi⟩ : ℂ) * cbuf d (a + h)
        else cbuf d q := by
  unfold butterfly
  have e1 : 2 * a + 1 + 2 * h - 1 = 2 * (a + h) := by omega
  have e2 : 2 * a + 1 + 2 * h = 2 * (a + h) + 1 := by omega
  have e3 : 2 * a + 1 - 1 = 2 * a := by omega
  simp only [e2, e3, Nat.add_sub_cancel, Option.bind_eq_bind]
  rw [readAt_of_lt (show 2 * (a + h) < d.length by omega),
    readAt_of_lt (show 2 * (a + h) + 1 < d.length by omega),
    readAt_of_lt (show 2 * a < d.length by omega)]
  simp only [Option.some_bind]
  rw [writeAt_of_lt _ (show 2 * (a + h) < d.length by omega)]
  simp only [Option.some_bind]
  rw [readAt_of_lt (by simp; omega)]
  simp only [Option.some_bind]
  rw [writeAt_of_lt _ (by simp; omega)]
  simp only [Option.some_bind]
  rw [readAt_of_lt (by simp; omega)]
  simp only [Option.some_bind]
  rw [writeAt_of_lt _ (by simp; omega)]
  simp only [Option.some_bind]
  rw [readAt_of_lt (by simp; omega)]
  simp only [Option.some_bind]
  rw [writeAt_of_lt _ (by simp; omega)]
  refine ⟨_, rfl, by simp [hlen], ?_⟩
  intro q
  simp only [cbuf, getD_set_eq, List.length_set, hlen]
  apply Complex.ext
  · simp only [Complex.add_re, Complex.sub_re, Complex.mul_re]
    split_ifs <;> first | rfl | (exfalso; omega)
  · simp only [Complex.add_im, Complex.sub_im, Complex.mul_im]
    split_ifs <;> first | rfl | (exfalso; omega)

/-! ## Bit reversal -/

theorem bitrev_lt (p q : ℕ) : bitrev p q < 2 ^ p := by
  induction p generalizing q with
  | zero => simp [bitrev]
  | succ p ih =>
    have h1 := ih (q / 2)
    have h2 : q % 2 < 2 := Nat.mod_lt _ (by norm_num)
    have h3 : (q % 2) * 2 ^ p ≤ 1 * 2 ^ p := Nat.mul_le_mul_right _ (by omega)
    simp only [bitrev, pow_succ]
    omega

theorem bitrev_high (p q : ℕ) :
    bitrev (p + 1) q = 2 * bitrev p (q % 2 ^ p) + (q / 2 ^ p) % 2 := by
  induction p generalizing q with
  | zero => simp [bitrev, Nat.mod_one]
  | succ p ih =>
    have e1 : q % 2 ^ (p + 1) % 2 = q % 2 :=
      Nat.mod_mod_of_dvd q (Dvd.intro_left (2 ^ p) rfl)
    have e2 : q % 2 ^ (p + 1) / 2 = q / 2 % 2 ^ p := by
      rw [pow_succ, mul_comm, Nat.mod_mul_right_div_self]
    have e3 : q / 2 / 2 ^ p = q / 2 ^ (p + 1) := by
      rw [Nat.div_div_eq_div_mul, pow_succ, mul_comm]
    rw [bitrev, ih (q / 2), bitrev, e1, e2, e3, pow_succ]
    ring

theorem bitrev_bitrev (p q : ℕ) (hq : q < 2 ^ p) : bitrev p (bitrev p q) = q := by
  induction p generalizing q with
  | zero => simp at hq; simp [bitrev, hq]
  | succ p ih =>
    have hlt := bitrev_lt p (q / 2)
    have h2 : q % 2 < 2 := Nat.mod_lt _ (by norm_num)
    have hq2 : q / 2 < 2 ^ p := by
      rw [pow_succ] at hq; omega
    have hpos : 0 < 2 ^ p := by positivity
    rw [bitrev_high, bitrev]
    have e1 : (q % 2 * 2 ^ p + bitrev p (q / 2)) % 2 ^ p = bitrev p (q / 2) := by
      rw [add_comm, Nat.add_mul_mod_self_right, Nat.mod_eq_of_lt hlt]
    have e2 : (q % 2 * 2 ^ p + bitrev p (q / 2)) / 2 ^ p = q % 2 := by
      rw [add_comm, Nat.add_mul_div_right _ _ hpos, Nat.div_eq_of_lt hlt, zero_add]
    rw [e1, e2, ih _ hq2]
    omega

theorem bitrev_injOn (p a b : ℕ) (ha : a < 2 ^ p) (hb : b < 2 ^ p)
    (h : bitrev p a = bitrev p b) : a = b := by
  rw [← bitrev_bitrev p a ha, ← bitrev_bitrev p b hb, h]

theorem bitrev_while_isSome (fuel m j : ℕ) (h : m < fuel) :
    ∃ r, bitrev_while fuel m j = some r := by
  induction fuel generalizing m j with
  | zero => omega
  | succ fuel ih =>
    unfold bitrev_while
    by_cases hc : m ≥ 2 ∧ j > m
    · rw [if_pos hc]
      apply ih
      have : m >>> 1 = m / 2 := by simp [Nat.shiftRight_eq_div_pow]
      omega
    · rw [if_neg hc]; exact ⟨_, rfl⟩

theorem bitrev_while_spec (p k fuel : ℕ) (hk : k + 1 < 2 ^ p) (hf : p < fuel) :
    ∃ m j, bitrev_while fuel (2 ^ p) (2 * bitrev p k + 1) = some (m, j) ∧
      j + m = 2 * bitrev p (k + 1) + 1 := by
  induction p generalizing k fuel with
  | zero => simp at hk
  | succ p ih =>
    obtain ⟨fuel, rfl⟩ : ∃ f, fuel = f + 1 := ⟨fuel - 1, by omega⟩
    have hlt := bitrev_lt p (k / 2)
    have hpos : 0 < 2 ^ p := by positivity
    have hpow : 2 ^ (p + 1) = 2 * 2 ^ p := by rw [pow_succ]; ring
    unfold bitrev_while
    rcases Nat.mod_two_eq_zero_or_one k with h0 | h1
    · have hc : ¬ (2 ^ (p + 1) ≥ 2 ∧ 2 * bitrev (p + 1) k + 1 > 2 ^ (p + 1)) := by
        simp only [bitrev, h0, hpow]; omega
      rw [if_neg hc]
      refine ⟨_, _, rfl, ?_⟩
      have e1 : (k + 1) % 2 = 1 := by omega
      have e2 : (k + 1) / 2 = k / 2 := by omega
      simp only [bitrev, h0, e1, e2, hpow]; omega
    · have hc : 2 ^ (p + 1) ≥ 2 ∧ 2 * bitrev (p + 1) k + 1 > 2 ^ (p + 1) := by
        simp only [bitrev, h1, hpow]; omega
      rw [if_pos hc]
      have e0 : 2 ^ (p + 1) >>> 1 = 2 ^ p := by
        simp [Nat.shiftRight_eq_div_pow, hpow]
      have e1 : (k + 1) % 2 = 0 := by omega
      have e2 : (k + 1) / 2 = k / 2 + 1 := by omega
      have e3 : 2 * bitrev (p + 1) k + 1 - 2 ^ (p + 1) = 2 * bitrev p (k / 2) + 1 := by
        simp only [bitrev, h1, hpow]; omega
      rw [e0, e3]
      have hk2 : k / 2 + 1 < 2 ^ p := by rw [hpow] at hk; omega
      obtain ⟨m, j, h1', h2'⟩ := ih (k / 2) fuel hk2 (by omega)
      refine ⟨m, j, h1', ?_⟩
      simp only [bitrev, e1, e2]; omega

theorem bitrev_for_spec (p r : ℕ) : ∀ (k fuel j : ℕ) (d : List ℝ), k + r = 2 ^ p → r < fuel →
    d.length = 2 * 2 ^ p → (k < 2 ^ p → j = 2 * bitrev p k + 1) →
    ∃ d', bitrev_for (2 * 2 ^ p) fuel (2 * k + 1) j d = some d' ∧ d'.length = 2 * 2 ^ p ∧
      ∀ q, cbuf d' q =
        if q < 2 ^ p ∧ k ≤ q ∧ k ≤ bitrev p q then cbuf d (bitrev p q) else cbuf d q := by
  induction r with
  | zero =>
    intro k fuel j d hk hf hlen _
    obtain ⟨fuel, rfl⟩ : ∃ f, fuel = f + 1 := ⟨fuel - 1, by omega⟩
    unfold bitrev_for
    have hc : ¬ (2 * k + 1 < 2 * 2 ^ p) := by omega
    rw [if_neg hc]
    refine ⟨d, rfl, hlen, fun q => ?_⟩
    rw [if_neg]; omega
  | succ r ih =>
    intro k fuel j d hk hf hlen hj
    obtain ⟨fuel, rfl⟩ : ∃ f, fuel = f + 1 := ⟨fuel - 1, by omega⟩
    have hkN : k < 2 ^ p := by omega
    have hjk := hj hkN
    subst hjk
    have hrk := bitrev_lt p k
    unfold bitrev_for
    have hc : 2 * k + 1 < 2 * 2 ^ p := by omega
    rw [if_pos hc]
    obtain ⟨d1, hd1, hlen1, hv1⟩ := bitrev_swap_spec d k (bitrev p k) (2 ^ p) hlen hkN hrk
    have hsh : (2 * 2 ^ p) >>> 1 = 2 ^ p := by
      simp [Nat.shiftRight_eq_div_pow]
    have hplt : p < 2 * 2 ^ p + 1 := by
      have := Nat.lt_two_pow p
      omega
    have hw : ∃ m j', bitrev_while (2 * 2 ^ p + 1) (2 ^ p) (2 * bitrev p k + 1) = some (m, j') ∧
        (k + 1 < 2 ^ p → j' + m = 2 * bitrev p (k + 1) + 1) := by
      by_cases hk1 : k + 1 < 2 ^ p
      · obtain ⟨m, j', h1, h2⟩ := bitrev_while_spec p k (2 * 2 ^ p + 1) hk1 hplt
        exact ⟨m, j', h1, fun _ => h2⟩
      · obtain ⟨⟨m, j'⟩, h1⟩ := bitrev_while_isSome (2 * 2 ^ p + 1) (2 ^ p)
          (2 * bitrev p k + 1) (by omega)
        exact ⟨m, j', h1, fun h => absurd h hk1⟩
    obtain ⟨m, j', hw1, hw2⟩ := hw
    obtain ⟨d', hd', hlen', hv'⟩ := ih (k + 1) fuel (j' + m) d1 (by omega) (by omega) hlen1 hw2
    simp only [Option.bind_eq_bind, hd1, Option.some_bind, hsh, hw1]
    have e : 2 * k + 1 + 2 = 2 * (k + 1) + 1 := by ring
    rw [e, hd']
    refine ⟨d', rfl, hlen', fun q => ?_⟩
    rw [hv']
    by_cases hq : q < 2 ^ p
    · have hrq := bitrev_lt p q
      have hinv := bitrev_bitrev p q hq
      have hinvk := bitrev_bitrev p k hkN
      by_cases hqk : q = k
      · subst hqk
        have c1 : ¬ (q < 2 ^ p ∧ q + 1 ≤ q ∧ q + 1 ≤ bitrev p q) := by omega
        rw [if_neg c1, hv1]
        by_cases h3 : q < bitrev p q
        · rw [if_pos h3, if_pos rfl, if_pos]; omega
        · rw [if_neg h3]
          by_cases h4 : q ≤ bitrev p q
          · have : bitrev p q = q := by omega
            rw [if_pos ⟨hq, le_refl _, h4⟩, this]
          · rw [if_neg]; omega
      · by_cases hqr : bitrev p q = k
        · have hqe : q = bitrev p k := by rw [← hqr, hinv]
          have c1 : ¬ (q < 2 ^ p ∧ k + 1 ≤ q ∧ k + 1 ≤ bitrev p q) := by omega
          rw [if_neg c1, hv1]
          by_cases h3 : k < bitrev p k
          · rw [if_pos h3, if_neg hqk, if_pos hqe, if_pos, hqr]
            omega
          · rw [if_neg h3, if_neg]; omega
        · have hne : bitrev p q ≠ bitrev p k := fun h => hqk (bitrev_injOn p q k hq hkN h)
          have hne2 : q ≠ bitrev p k := fun h => hqr (by rw [h, hinvk])
          by_cases h5 : k + 1 ≤ q ∧ k + 1 ≤ bitrev p q
          · rw [if_pos ⟨hq, h5⟩, if_pos ⟨hq, by omega, by omega⟩, hv1]
            split_ifs <;> rfl
          · have c1 : ¬ (q < 2 ^ p ∧ k + 1 ≤ q ∧ k + 1 ≤ bitrev p q) := fun h => h5 h.2
            have c2 : ¬ (q < 2 ^ p ∧ k ≤ q ∧ k ≤ bitrev p q) := by omega
            rw [if_neg c1, if_neg c2, hv1]
            split_ifs <;> rfl
    · have c1 : ¬ (q < 2 ^ p ∧ k + 1 ≤ q ∧ k + 1 ≤ bitrev p q) := fun h => hq h.1
      have c2 : ¬ (q < 2 ^ p ∧ k ≤ q ∧ k ≤ bitrev p q) := fun h => hq h.1
      rw [if_neg c1, if_neg c2, hv1]
      split_ifs <;> first | rfl | (exfalso; omega)

theorem bitrev_zero (p : ℕ) : bitrev p 0 = 0 := by
  induction p with
  | zero => rfl
  | succ p ih => simp [bitrev, ih]

theorem bit_reversal_spec (p : ℕ) (d : List ℝ) (hlen : d.length = 2 * 2 ^ p) :
    ∃ d', bitrev_for (2 * 2 ^ p) (2 * 2 ^ p + 1) 1 1 d = some d' ∧ d'.length = 2 * 2 ^ p ∧
      ∀ q, q < 2 ^ p → cbuf d' q = cbuf d (bitrev p q) := by
  have hb0 : bitrev p 0 = 0 := bitrev_zero p
  have hpos : 0 < 2 ^ p := by positivity
  obtain ⟨d', h1, h2, h3⟩ := bitrev_for_spec p (2 ^ p) 0 (2 * 2 ^ p + 1) 1 d (by simp)
    (by omega) hlen (fun _ => by simp [hb0])
  refine ⟨d', by simpa using h1, h2, fun q hq => ?_⟩
  rw [h3, if_pos ⟨hq, Nat.zero_le _, Nat.zero_le _⟩]

/-! ## Positions inside the blocks of a pass -/

theorem decomp_div {h : ℕ} (u : ℕ) {r : ℕ} (hr : r < h) : (h * u + r) / h = u := by
  have hh : 0 < h := by omega
  rw [add_comm, Nat.add_mul_div_left _ _ hh, Nat.div_eq_of_lt hr, zero_add]

theorem decomp_mod {h : ℕ} (u : ℕ) {r : ℕ} (hr : r < h) : (h * u + r) % h = r := by
  rw [add_comm, Nat.add_mul_mod_self_left, Nat.mod_eq_of_lt hr]

theorem decomp_exists {h : ℕ} (hh : 0 < h) (q : ℕ) : ∃ u r, r < h ∧ q = h * u + r :=
  ⟨q / h, q % h, Nat.mod_lt _ hh, (Nat.div_add_mod q h).symm⟩

theorem decomp_inj {h u r u' r' : ℕ} (hr : r < h) (hr' : r' < h)
    (e : h * u + r = h * u' + r') : u = u' ∧ r = r' := by
  have h1 := decomp_div u hr
  have h2 := decomp_mod u hr
  rw [e, decomp_div u' hr'] at h1
  rw [e, decomp_mod u' hr'] at h2
  exact ⟨h1.symm, h2.symm⟩

theorem butterfly_for_spec (h T : ℕ) (wr wi : ℝ) (m' : ℕ) (hm : m' < h) (r : ℕ) :
    ∀ (t fuel : ℕ) (d : List ℝ), t + r = T → r < fuel → d.length = 2 * (h * (2 * T)) →
    ∃ d', butterfly_for (2 * (h * (2 * T))) (2 * h) (2 * (2 * h)) wr wi fuel
        (2 * (h * (2 * t) + m') + 1) d = some d' ∧ d'.length = 2 * (h * (2 * T)) ∧
      ∀ q, cbuf d' q =
        if q % h = m' ∧ 2 * t ≤ q / h ∧ q / h < 2 * T then bflyF h ⟨wr, wi⟩ (cbuf d) q
        else cbuf d q := by
  have hh : 0 < h := by omega
  induction r with
  | zero =>
    intro t fuel d ht hf hlen
    obtain ⟨fuel, rfl⟩ : ∃ f, fuel = f + 1 := ⟨fuel - 1, by omega⟩
    have htT : t = T := by omega
    subst htT
    unfold butterfly_for
    have hc : ¬ (2 * (h * (2 * t) + m') + 1 ≤ 2 * (h * (2 * t))) := by omega
    rw [if_neg hc]
    refine ⟨d, rfl, hlen, fun q => ?_⟩
    rw [if_neg]; omega
  | succ r ih =>
    intro t fuel d ht hf hlen
    obtain ⟨fuel, rfl⟩ : ∃ f, fuel = f + 1 := ⟨fuel - 1, by omega⟩
    have hT : T = t + 1 + r := by omega
    have hmul : h * (2 * T) = h * (2 * t) + 2 * h + h * (2 * r) := by
      rw [hT]; ring
    unfold butterfly_for
    have hc : 2 * (h * (2 * t) + m') + 1 ≤ 2 * (h * (2 * T)) := by omega
    rw [if_pos hc]
    obtain ⟨d1, hd1, hlen1, hv1⟩ := butterfly_spec d wr wi (h * (2 * t) + m') h (h * (2 * T))
      hlen hh (by omega)
    have e : 2 * (h * (2 * t) + m') + 1 + 2 * (2 * h) = 2 * (h * (2 * (t + 1)) + m') + 1 := by
      ring
    obtain ⟨d', hd', hlen', hv'⟩ := ih (t + 1) fuel d1 (by omega) (by omega) hlen1
    simp only [Option.bind_eq_bind, hd1, Option.some_bind, e, hd']
    refine ⟨d', rfl, hlen', fun q => ?_⟩
    rw [hv']
    obtain ⟨u, s, hs, rfl⟩ := decomp_exists hh q
    have ea : h * (2 * t) + m' + h = h * (2 * t + 1) + m' := by ring
    simp only [decomp_div u hs, decomp_mod u hs]
    by_cases hsm : s = m'
    · subst hsm
      by_cases h1 : u = 2 * t
      · subst h1
        rw [if_neg (by omega), if_pos ⟨rfl, le_refl _, by omega⟩, hv1, if_pos rfl]
        simp only [bflyF, decomp_div _ hs]
        rw [if_pos (by omega)]
      · by_cases h2 : u = 2 * t + 1
        · subst h2
          rw [if_neg (by omega), if_pos ⟨rfl, by omega, by omega⟩, hv1]
          have hne : h * (2 * t + 1) + s ≠ h * (2 * t) + s := by
            intro hcon; have := (decomp_inj hs hs hcon).1; omega
          rw [if_neg hne, if_pos ea.symm]
          simp only [bflyF, decomp_div _ hs]
          rw [if_neg (by omega)]
          have : h * (2 * t + 1) + s - h = h * (2 * t) + s := by
            rw [← ea]; omega
          rw [this, ea]
        · by_cases h3 : 2 * (t + 1) ≤ u ∧ u < 2 * T
          · rw [if_pos ⟨rfl, h3⟩, if_pos ⟨rfl, by omega, h3.2⟩]
            simp only [bflyF, decomp_div _ hs]
            have hq1 : ∀ v, 2 * (t + 1) ≤ v → cbuf d1 (h * v + s) = cbuf d (h * v + s) := by
              intro v hv
              rw [hv1, if_neg, if_neg]
              · rw [ea]; intro hcon; have := (decomp_inj hs hs hcon).1; omega
              · intro hcon; have := (decomp_inj hs hs hcon).1; omega
            by_cases hpar : u % 2 = 0
            · rw [if_pos hpar, if_pos hpar, hq1 u h3.1]
              have : h * u + s + h = h * (u + 1) + s := by ring
              rw [this, hq1 (u + 1) (by omega)]
            · rw [if_neg hpar, if_neg hpar, hq1 u h3.1]
              have : h * u + s - h = h * (u - 1) + s := by
                obtain ⟨v, rfl⟩ : ∃ v, u = v + 1 := ⟨u - 1, by omega⟩
                have : h * (v + 1) + s = h * v + s + h := by ring
                rw [this]; simp
              rw [this, hq1 (u - 1) (by omega)]
          · rw [if_neg (by omega), if_neg (by omega), hv1, if_neg, if_neg]
            · rw [ea]; intro hcon; have := (decomp_inj hs hs hcon).1; omega
            · intro hcon; have := (decomp_inj hs hs hcon).1; omega
    · rw [if_neg (fun hcon => hsm hcon.1), if_neg (fun hcon => hsm hcon.1), hv1, if_neg, if_neg]
      · rw [ea]; intro hcon; exact hsm (decomp_inj hs hm hcon).2
      · intro hcon; exact hsm (decomp_inj hs hm hcon).2

theorem twiddle_for_spec (h T : ℕ) (hh : 0 < h) (W0 : ℂ) (wpr wpi : ℝ)
    (hwpr : wpr = W0.re - 1) (hwpi : wpi = W0.im) (r : ℕ) :
    ∀ (m' fuel : ℕ) (wr wi : ℝ) (d : List ℝ), m' + r = h → r < fuel →
    d.length = 2 * (h * (2 * T)) → (⟨wr, wi⟩ : ℂ) = W0 ^ m' →
    ∃ d', twiddle_for (2 * (h * (2 * T))) (2 * h) (2 * (2 * h)) wpr wpi fuel
        (2 * m' + 1) wr wi d = some d' ∧ d'.length = 2 * (h * (2 * T)) ∧
      ∀ q, cbuf d' q =
        if m' ≤ q % h ∧ q / h < 2 * T then bflyF h (W0 ^ (q % h)) (cbuf d) q
        else cbuf d q := by
  induction r with
  | zero =>
    intro m' fuel wr wi d hm hf hlen _
    obtain ⟨fuel, rfl⟩ : ∃ f, fuel = f + 1 := ⟨fuel - 1, by omega⟩
    unfold twiddle_for
    rw [if_neg (by omega)]
    refine ⟨d, rfl, hlen, fun q => ?_⟩
    have := Nat.mod_lt q hh
    rw [if_neg]; omega
  | succ r ih =>
    intro m' fuel wr wi d hm hf hlen hw
    obtain ⟨fuel, rfl⟩ : ∃ f, fuel = f + 1 := ⟨fuel - 1, by omega⟩
    have hm' : m' < h := by omega
    unfold twiddle_for
    rw [if_pos (by omega)]
    have hTle : T ≤ h * (2 * T) := by
      calc T ≤ 2 * T := by omega
        _ ≤ h * (2 * T) := Nat.le_mul_of_pos_left _ hh
    have e0 : 2 * m' + 1 = 2 * (h * (2 * 0) + m') + 1 := by simp
    obtain ⟨d1, hd1, hlen1, hv1⟩ := butterfly_for_spec h T wr wi m' hm' T 0
      (2 * (h * (2 * T)) + 1) d (by omega) (by omega) hlen
    rw [← e0] at hd1
    have hw' : (⟨wr * wpr - wi * wpi + wr, wi * wpr + wr * wpi + wi⟩ : ℂ) = W0 ^ (m' + 1) := by
      rw [pow_succ, ← hw, hwpr, hwpi]
      apply Complex.ext <;> simp <;> ring
    obtain ⟨d', hd', hlen', hv'⟩ := ih (m' + 1) fuel _ _ d1 (by omega) (by omega) hlen1 hw'
    have e : 2 * m' + 1 + 2 = 2 * (m' + 1) + 1 := by ring
    simp only [Option.bind_eq_bind, hd1, Option.some_bind, e, hd']
    refine ⟨d', rfl, hlen', fun q => ?_⟩
    rw [hv']
    obtain ⟨u, s, hs, rfl⟩ := decomp_exists hh q
    simp only [decomp_div u hs, decomp_mod u hs]
    have hq1 : ∀ v, s ≠ m' → cbuf d1 (h * v + s) = cbuf d (h * v + s) := by
      intro v hv
      rw [hv1, decomp_mod v hs, if_neg (fun hcon => hv hcon.1)]
    by_cases h1 : s = m'
    · subst h1
      rw [if_neg (by omega), hv1]
      simp only [decomp_div u hs, decomp_mod u hs]
      by_cases h2 : u < 2 * T
      · rw [if_pos ⟨trivial, by omega, h2⟩, if_pos ⟨le_refl _, h2⟩, hw]
      · rw [if_neg (fun hcon => h2 hcon.2.2), if_neg (fun hcon => h2 hcon.2)]
    · by_cases h2 : m' + 1 ≤ s ∧ u < 2 * T
      · rw [if_pos h2, if_pos ⟨by omega, h2.2⟩]
        simp only [bflyF, decomp_div _ hs]
        by_cases hpar : u % 2 = 0
        · rw [if_pos hpar, if_pos hpar, hq1 u h1]
          have : h * u + s + h = h * (u + 1) + s := by ring
          rw [this, hq1 (u + 1) h1]
        · rw [if_neg hpar, if_neg hpar, hq1 u h1]
          have : h * u + s - h = h * (u - 1) + s := by
            obtain ⟨v, rfl⟩ : ∃ v, u = v + 1 := ⟨u - 1, by omega⟩
            have : h * (v + 1) + s = h * v + s + h := by ring
            rw [this]; simp
          rw [this, hq1 (u - 1) h1]
      · rw [if_neg h2, if_neg (by omega), hq1 u h1]

theorem pass_spec (h T : ℕ) (hh : 0 < h) (W0 : ℂ) (wpr wpi : ℝ)
    (hwpr : wpr = W0.re - 1) (hwpi : wpi = W0.im) (d : List ℝ)
    (hlen : d.length = 2 * (h * (2 * T))) :
    ∃ d', twiddle_for (2 * (h * (2 * T))) (2 * h) (2 * (2 * h)) wpr wpi (2 * h + 1) 1 1 0 d
        = some d' ∧ d'.length = 2 * (h * (2 * T)) ∧
      ∀ q, q < h * (2 * T) → cbuf d' q = passF h W0 (cbuf d) q := by
  obtain ⟨d', h1, h2, h3⟩ := twiddle_for_spec h T hh W0 wpr wpi hwpr hwpi h 0 (2 * h + 1) 1 0 d
    (by omega) (by omega) hlen (by simp; rfl)
  refine ⟨d', by simpa using h1, h2, fun q hq => ?_⟩
  have hq' : q / h < 2 * T := (Nat.div_lt_iff_lt_mul hh).2 (by rw [mul_comm]; exact hq)
  rw [h3, if_pos ⟨Nat.zero_le _, hq'⟩, passF]

/-! ## The passes compute the discrete Fourier transform -/

theorem sum_range_even_odd (g : ℕ → ℂ) (h : ℕ) :
    ∑ u in range (2 * h), g u = ∑ u in range h, g (2 * u) + ∑ u in range h, g (2 * u + 1) := by
  induction h with
  | zero => simp
  | succ h ih =>
    have e : 2 * (h + 1) = 2 * h + 1 + 1 := by ring
    rw [e, sum_range_succ, sum_range_succ, ih, sum_range_succ, sum_range_succ]
    ring

theorem stage_zero (om : ℕ → ℂ) (k : ℕ) (x : ℕ → ℂ) (q : ℕ) :
    stage om 0 k x q = x (bitrev k q) := by
  simp [stage]

theorem stage_last (om : ℕ → ℂ) (p : ℕ) (x : ℕ → ℂ) (q : ℕ) (hq : q < 2 ^ p) :
    stage om p 0 x q = ∑ u in range (2 ^ p), x u * om p ^ (q * u) := by
  simp [stage, bitrev, Nat.mod_eq_of_lt hq]

theorem stage_succ (om : ℕ → ℂ) (s k : ℕ) (x : ℕ → ℂ) (q : ℕ)
    (h2 : om (s + 1) ^ 2 = om s) (hneg : om (s + 1) ^ (2 ^ s) = -1) :
    stage om (s + 1) k x q = passF (2 ^ s) (om (s + 1)) (stage om s (k + 1) x) q := by
  have hh : 0 < 2 ^ s := by positivity
  obtain ⟨v, r, hr, rfl⟩ := decomp_exists hh q
  have hone : om s ^ (2 ^ s) = 1 := by
    rw [← h2, ← pow_mul, mul_comm, pow_mul, hneg]; norm_num
  have hpow : (2:ℕ) ^ (s + 1) = 2 * 2 ^ s := by rw [pow_succ]; ring
  have hpowk : (2:ℕ) ^ (k + 1) = 2 * 2 ^ k := by rw [pow_succ]; ring
  -- coordinates of the position in the block of size `2 ^ (s + 1)`
  have hdiv2 : (2 ^ s * v + r) / 2 ^ (s + 1) = v / 2 := by
    rw [hpow, mul_comm 2 (2 ^ s), ← Nat.div_div_eq_div_mul, decomp_div v hr]
  have hmod2 : (2 ^ s * v + r) % 2 ^ (s + 1) = 2 ^ s * (v % 2) + r := by
    have hv := Nat.div_add_mod v 2
    have e1 : 2 ^ s * v + r = 2 ^ (s + 1) * (v / 2) + (2 ^ s * (v % 2) + r) := by
      rw [hpow]; conv_lhs => rw [← hv]
      ring
    have hlt : 2 ^ s * (v % 2) + r < 2 ^ (s + 1) := by
      have : v % 2 < 2 := Nat.mod_lt _ (by norm_num)
      have : 2 ^ s * (v % 2) ≤ 2 ^ s * 1 := Nat.mul_le_mul_left _ (by omega)
      rw [hpow]; omega
    rw [e1, decomp_mod _ hlt]
  -- the twiddle factors on even and odd samples
  have heven : ∀ e u : ℕ, om (s + 1) ^ ((2 ^ s * e + r) * (2 * u)) = om s ^ (r * u) := by
    intro e u
    have : (2 ^ s * e + r) * (2 * u) = 2 * (2 ^ s * (e * u) + r * u) := by ring
    rw [this, pow_mul, h2, pow_add, pow_mul, hone, one_pow, one_mul]
  have hodd : ∀ e u : ℕ, om (s + 1) ^ ((2 ^ s * e + r) * (2 * u + 1)) =
      (-1) ^ e * om (s + 1) ^ r * om s ^ (r * u) := by
    intro e u
    have : (2 ^ s * e + r) * (2 * u + 1) = (2 ^ s * e + r) * (2 * u) + (2 ^ s * e + r) := by ring
    rw [this, pow_add, heven, pow_add, pow_mul (om (s + 1)) (2 ^ s) e, hneg]; ring
  have hL : stage om (s + 1) k x (2 ^ s * v + r) =
      ∑ u in range (2 ^ s), x (u * 2 ^ (k + 1) + bitrev k (v / 2)) * om s ^ (r * u) +
      (-1) ^ (v % 2) * om (s + 1) ^ r *
        ∑ u in range (2 ^ s), x (u * 2 ^ (k + 1) + 2 ^ k + bitrev k (v / 2)) * om s ^ (r * u) := by
    unfold stage
    rw [hdiv2, hmod2, hpow, sum_range_even_odd, mul_sum]
    congr 1
    · apply sum_congr rfl; intro u _
      rw [heven, hpowk]; congr 2; ring
    · apply sum_congr rfl; intro u _
      rw [hodd, hpowk]
      have : (2 * u + 1) * 2 ^ k + bitrev k (v / 2) = u * (2 * 2 ^ k) + 2 ^ k + bitrev k (v / 2) := by
        ring
      rw [this]; ring
  have hS : ∀ w, stage om s (k + 1) x (2 ^ s * w + r) =
      ∑ u in range (2 ^ s), x (u * 2 ^ (k + 1) + ((w % 2) * 2 ^ k + bitrev k (w / 2))) *
        om s ^ (r * u) := by
    intro w
    unfold stage
    rw [decomp_div w hr, decomp_mod w hr]
    rfl
  rw [hL, passF, bflyF, decomp_div v hr, decomp_mod v hr]
  rcases Nat.mod_two_eq_zero_or_one v with h0 | h1
  · rw [if_pos h0]
    have e1 : 2 ^ s * v + r + 2 ^ s = 2 ^ s * (v + 1) + r := by ring
    have e2 : (v + 1) % 2 = 1 := by omega
    have e3 : (v + 1) / 2 = v / 2 := by omega
    rw [e1, hS, hS, h0, e2, e3]
    simp only [zero_mul, zero_add, one_mul, pow_zero, add_assoc]
  · rw [if_neg (by omega)]
    obtain ⟨w, rfl⟩ : ∃ w, v = w + 1 := ⟨v - 1, by omega⟩
    have e1 : 2 ^ s * (w + 1) + r - 2 ^ s = 2 ^ s * w + r := by
      have : 2 ^ s * (w + 1) + r = 2 ^ s * w + r + 2 ^ s := by ring
      rw [this]; simp
    have e2 : w % 2 = 0 := by omega
    have e3 : (w + 1) / 2 = w / 2 := by omega
    rw [e1, hS, hS, h1, e2, e3]
    simp only [zero_mul, zero_add, one_mul, pow_one, add_assoc]
    ring

theorem passF_congr (h T : ℕ) (hh : 0 < h) (W0 : ℂ) (f g : ℕ → ℂ)
    (hfg : ∀ q, q < h * (2 * T) → f q = g q) (q : ℕ) (hq : q < h * (2 * T)) :
    passF h W0 f q = passF h W0 g q := by
  obtain ⟨u, r, hr, rfl⟩ := decomp_exists hh q
  have hu : u < 2 * T := by
    have := (Nat.div_lt_iff_lt_mul hh).2 (by rw [Nat.mul_comm (2 * T) h]; exact hq)
    rwa [decomp_div u hr] at this
  have hlt : ∀ v, v < 2 * T → h * v + r < h * (2 * T) := by
    intro v hv
    have := (@Nat.div_lt_iff_lt_mul h (h * v + r) (2 * T) hh).1
      (by rw [decomp_div v hr]; exact hv)
    rwa [Nat.mul_comm (2 * T) h] at this
  unfold passF bflyF
  rw [decomp_div u hr]
  by_cases hpar : u % 2 = 0
  · rw [if_pos hpar, if_pos hpar, hfg _ hq]
    have e1 : h * u + r + h = h * (u + 1) + r := by ring
    rw [e1, hfg _ (hlt (u + 1) (by omega))]
  · rw [if_neg hpar, if_neg hpar, hfg _ hq]
    have e1 : h * u + r - h = h * (u - 1) + r := by
      obtain ⟨v, rfl⟩ : ∃ v, u = v + 1 := ⟨u - 1, by omega⟩
      have : h * (v + 1) + r = h * v + r + h := by ring
      rw [this]; simp
    rw [e1, hfg _ (hlt (u - 1) (by omega))]

theorem om_sq (c : ℝ) (s : ℕ) : om c (s + 1) ^ 2 = om c s := by
  unfold om
  rw [← Complex.exp_nat_mul]
  congr 1
  push_cast
  field_simp
  ring

theorem om_pow_half (c : ℝ) (hc : Complex.exp (((c / 2 : ℝ) : ℂ) * Complex.I) = -1) (s : ℕ) :
    om c (s + 1) ^ (2 ^ s) = -1 := by
  unfold om
  rw [← Complex.exp_nat_mul, ← hc]
  congr 1
  push_cast
  field_simp
  ring

theorem om_re_im (c : ℝ) (s : ℕ) :
    -2.0 * Real.sin (0.5 * (c / ((2 * 2 ^ s : ℕ) : ℝ))) * Real.sin (0.5 * (c / ((2 * 2 ^ s : ℕ) : ℝ)))
        = (om c (s + 1)).re - 1 ∧
      Real.sin (c / ((2 * 2 ^ s : ℕ) : ℝ)) = (om c (s + 1)).im := by
  have e : ((2 * 2 ^ s : ℕ) : ℝ) = 2 ^ (s + 1) := by push_cast; ring
  rw [e]
  unfold om
  rw [Complex.exp_ofReal_mul_I_re, Complex.exp_ofReal_mul_I_im]
  refine ⟨?_, rfl⟩
  have h1 : c / 2 ^ (s + 1) = 2 * (0.5 * (c / 2 ^ (s + 1))) := by norm_num; ring
  have h2 := Real.cos_two_mul (0.5 * (c / 2 ^ (s + 1)))
  have h3 := Real.cos_sq' (0.5 * (c / 2 ^ (s + 1)))
  rw [← h1] at h2
  rw [h2, h3]
  norm_num
  ring

theorem danielson_lanczos_spec (c : ℝ) (hc : Complex.exp (((c / 2 : ℝ) : ℂ) * Complex.I) = -1)
    (p : ℕ) (x : ℕ → ℂ) (r : ℕ) :
    ∀ (s fuel : ℕ) (d : List ℝ), s + r = p → r < fuel → d.length = 2 * 2 ^ p →
    (∀ q, q < 2 ^ p → cbuf d q = stage (om c) s r x q) →
    ∃ d', danielson_lanczos Real.sin c (2 * 2 ^ p) fuel (2 * 2 ^ s) d = some d' ∧
      d'.length = 2 * 2 ^ p ∧ ∀ q, q < 2 ^ p → cbuf d' q = stage (om c) p 0 x q := by
  induction r with
  | zero =>
    intro s fuel d hs hf hlen hinv
    obtain ⟨fuel, rfl⟩ : ∃ f, fuel = f + 1 := ⟨fuel - 1, by omega⟩
    have hsp : s = p := by omega
    subst hsp
    unfold danielson_lanczos
    rw [if_neg (by omega)]
    exact ⟨d, rfl, hlen, hinv⟩
  | succ r ih =>
    intro s fuel d hs hf hlen hinv
    obtain ⟨fuel, rfl⟩ : ∃ f, fuel = f + 1 := ⟨fuel - 1, by omega⟩
    have hp : 2 ^ p = 2 ^ s * (2 * 2 ^ r) := by
      rw [← hs, pow_add, pow_succ]; ring
    have hh : 0 < 2 ^ s := by positivity
    have hlt : 2 * 2 ^ p > 2 * 2 ^ s := by
      have : 0 < 2 ^ r := by positivity
      have : 2 ^ s * 1 < 2 ^ s * (2 * 2 ^ r) := Nat.mul_lt_mul_of_pos_left (by omega) hh
      omega
    obtain ⟨hwpr, hwpi⟩ := om_re_im c s
    obtain ⟨d1, hd1, hlen1, hv1⟩ := pass_spec (2 ^ s) (2 ^ r) hh (om c (s + 1)) _ _ hwpr hwpi d
      (by rw [← hp]; exact hlen)
    rw [← hp] at hd1 hlen1 hv1
    have hstep : ∀ q, q < 2 ^ p → cbuf d1 q = stage (om c) (s + 1) r x q := by
      intro q hq
      rw [hv1 q hq, stage_succ (om c) s r x q (om_sq c s) (om_pow_half c hc s)]
      apply passF_congr (2 ^ s) (2 ^ r) hh
      · intro q' hq'
        exact hinv q' (by rw [hp]; exact hq')
      · rw [← hp]; exact hq
    obtain ⟨d', hd', hlen', hv'⟩ := ih (s + 1) fuel d1 (by omega) (by omega) hlen1 hstep
    unfold danielson_lanczos
    rw [if_pos hlt]
    have esh : (2 * 2 ^ s) <<< 1 = 2 * (2 * 2 ^ s) := by
      simp [Nat.shiftLeft_eq]; ring
    have e10 : (1.0 : ℝ) = 1 := by norm_num
    have e00 : (0.0 : ℝ) = 0 := by norm_num
    simp only [Option.bind_eq_bind, esh, e10, e00, hd1, Option.some_bind]
    have e2 : 2 * (2 * 2 ^ s) = 2 * 2 ^ (s + 1) := by rw [pow_succ]; ring
    rw [e2, hd']
    exact ⟨d', rfl, hlen', hv'⟩

theorem fft_body_spec (c : ℝ) (hc : Complex.exp (((c / 2 : ℝ) : ℂ) * Complex.I) = -1)
    (p : ℕ) (d : List ℝ) (hlen : d.length = 2 * 2 ^ p) :
    ∃ d', fft_body Real.sin c d (2 ^ p) = some d' ∧ d'.length = 2 * 2 ^ p ∧
      ∀ q, q < 2 ^ p → cbuf d' q = ∑ u in range (2 ^ p), cbuf d u * om c p ^ (q * u) := by
  obtain ⟨d1, hd1, hlen1, hv1⟩ := bit_reversal_spec p d hlen
  obtain ⟨d2, hd2, hlen2, hv2⟩ := danielson_lanczos_spec c hc p (cbuf d) p 0 (2 * 2 ^ p + 1) d1
    (by omega) (by have := Nat.lt_two_pow p; omega) hlen1
    (fun q hq => by rw [stage_zero, hv1 q hq])
  have esh : 2 ^ p <<< 1 = 2 * 2 ^ p := by
    simp [Nat.shiftLeft_eq]; ring
  refine ⟨d2, ?_, hlen2, fun q hq => ?_⟩
  · unfold fft_body
    simp only [Option.bind_eq_bind, esh, hd1, Option.some_bind]
    simpa using hd2
  · rw [hv2 q hq, stage_last _ _ _ _ hq]

theorem exp_neg_pi_half : Complex.exp ((((-2.0 * Real.pi) / 2 : ℝ) : ℂ) * Complex.I) = -1 := by
  have e : (((-2.0 * Real.pi) / 2 : ℝ) : ℂ) * Complex.I = -(Real.pi * Complex.I) := by
    push_cast; norm_num; ring
  rw [e, Complex.exp_neg, Complex.exp_pi_mul_I]; norm_num

theorem exp_pos_pi_half : Complex.exp ((((2.0 * Real.pi) / 2 : ℝ) : ℂ) * Complex.I) = -1 := by
  have e : (((2.0 * Real.pi) / 2 : ℝ) : ℂ) * Complex.I = Real.pi * Complex.I := by
    push_cast; norm_num
  rw [e, Complex.exp_pi_mul_I]

theorem om_pow_eq_exp (c : ℝ) (p k : ℕ) :
    om c p ^ k = Complex.exp (((c * k / 2 ^ p : ℝ) : ℂ) * Complex.I) := by
  unfold om
  rw [← Complex.exp_nat_mul]
  congr 1
  push_cast
  ring

theorem realLibm_toFloat (x : ℝ) : realLibm.toFloat x = x := rfl

theorem realLibm_toDouble (x : ℝ) : realLibm.toDouble x = x := rfl

theorem getElem?_eq_getD {d : List ℝ} {i : ℕ} (h : i < d.length) : d[i]? = some (d.getD i 0) := by
  simp [List.getD, List.getElem?_eq_getElem h]

theorem real_fft_spec (p : ℕ) (d : List ℝ) (hlen : d.length = 2 * 2 ^ p) :
    ∃ d', real_fft realLibm d (2 ^ p) = some d' ∧ d'.length = 2 * 2 ^ p ∧
      ∀ q, q < 2 ^ p → cbuf d' q = dft (2 ^ p) (cbuf d) q := by
  obtain ⟨d', h1, h2, h3⟩ := fft_body_spec (-2.0 * Real.pi) exp_neg_pi_half p d hlen
  refine ⟨d', h1, h2, fun q hq => ?_⟩
  rw [h3 q hq, dft]
  apply sum_congr rfl
  intro u _
  rw [om_pow_eq_exp]
  congr 2
  push_cast
  norm_num
  ring

theorem cbuf_re (d : List ℝ) (q : ℕ) : (cbuf d q).re = d.getD (2 * q) 0 := rfl

theorem cbuf_im (d : List ℝ) (q : ℕ) : (cbuf d q).im = d.getD (2 * q + 1) 0 := rfl

/-- Claim C1. For `N = 2 ^ p` and a buffer of `2 * N` reals whose imaginary slots
`buffer[2n+1]` are all `0`, `real_fft` (over the reals, `PI = π`) returns, and
afterwards `buffer[2k]` and `buffer[2k+1]` are the real and imaginary parts of
`X[k] = ∑ x[n] * exp(-2πi k n / N)`, `x[n]` the original `buffer[2n]`, for every
`k < N`. -/
theorem real_fft_computes_dft (N p : ℕ) (hN : N = 2 ^ p) (buffer : List ℝ)
    (hlen : buffer.length = 2 * N) (himag : ∀ n, n < N → buffer[2 * n + 1]? = some 0) :
    ∃ out, real_fft realLibm buffer N = some out ∧ out.length = 2 * N ∧
      ∀ k, k < N →
        out[2 * k]? = some (dft N (fun n => ((buffer.getD (2 * n) 0 : ℝ) : ℂ)) k).re ∧
        out[2 * k + 1]? = some (dft N (fun n => ((buffer.getD (2 * n) 0 : ℝ) : ℂ)) k).im := by
  subst hN
  obtain ⟨out, h1, h2, h3⟩ := real_fft_spec p buffer hlen
  refine ⟨out, h1, h2, fun k hk => ?_⟩
  have hd : dft (2 ^ p) (fun n => ((buffer.getD (2 * n) 0 : ℝ) : ℂ)) k
      = dft (2 ^ p) (cbuf buffer) k := by
    unfold dft
    apply sum_congr rfl
    intro n hn
    have hn' : n < 2 ^ p := mem_range.1 hn
    have hi := himag n hn'
    rw [getElem?_eq_getD (by omega)] at hi
    have hz : buffer.getD (2 * n + 1) 0 = 0 := Option.some.inj hi
    congr 1
    apply Complex.ext
    · rw [cbuf_re]; rfl
    · rw [cbuf_im, hz]; rfl
  rw [hd, ← h3 k hk, getElem?_eq_getD (by omega), getElem?_eq_getD (by omega)]
  exact ⟨rfl, rfl⟩

/-- Claim C1 at `N = 2`, buffer `[1, 0, 2, 0]`. -/
theorem real_fft_computes_dft_witness :
    ∃ out, real_fft realLibm [1, 0, 2, 0] 2 = some out ∧ out.length = 2 * 2 ∧
      ∀ k, k < 2 →
        out[2 * k]? = some (dft 2 (fun n => ((([1, 0, 2, 0] : List ℝ).getD (2 * n) 0 : ℝ) : ℂ)) k).re ∧
        out[2 * k + 1]? = some (dft 2 (fun n => ((([1, 0, 2, 0] : List ℝ).getD (2 * n) 0 : ℝ) : ℂ)) k).im :=
  real_fft_computes_dft 2 1 (by norm_num) [1, 0, 2, 0] (by simp)
    (fun n hn => by interval_cases n <;> simp)

theorem om_mul_om (p : ℕ) : om (-2.0 * Real.pi) p * om (2.0 * Real.pi) p = 1 := by
  unfold om
  rw [← Complex.exp_add]
  have : ((-2.0 * Real.pi / 2 ^ p : ℝ) : ℂ) * Complex.I + ((2.0 * Real.pi / 2 ^ p : ℝ) : ℂ) * Complex.I
      = 0 := by
    push_cast; ring
  rw [this, Complex.exp_zero]

theorem om_primitive (p : ℕ) : IsPrimitiveRoot (om (2.0 * Real.pi) p) (2 ^ p) := by
  have h := Complex.isPrimitiveRoot_exp (2 ^ p) (by positivity)
  have e : om (2.0 * Real.pi) p = Complex.exp (2 * Real.pi * Complex.I / ((2 ^ p : ℕ) : ℂ)) := by
    unfold om
    congr 1
    push_cast
    norm_num
    ring
  rw [e]; exact h

theorem twiddle_orthogonal (p n m : ℕ) (hn : n < 2 ^ p) (hm : m < 2 ^ p) :
    ∑ k in range (2 ^ p), om (-2.0 * Real.pi) p ^ (k * n) * om (2.0 * Real.pi) p ^ (m * k)
      = if n = m then ((2 ^ p : ℕ) : ℂ) else 0 := by
  set a := om (-2.0 * Real.pi) p with ha
  set b := om (2.0 * Real.pi) p with hb
  have hab : a * b = 1 := om_mul_om p
  have hprim : IsPrimitiveRoot b (2 ^ p) := om_primitive p
  have hbN : b ^ (2 ^ p) = 1 := hprim.pow_eq_one
  have haN : a ^ (2 ^ p) = 1 := by
    have : (a * b) ^ (2 ^ p) = 1 := by rw [hab, one_pow]
    rw [mul_pow, hbN, mul_one] at this
    exact this
  have hterm : ∀ k, a ^ (k * n) * b ^ (m * k) = (a ^ n * b ^ m) ^ k := by
    intro k
    rw [mul_pow, ← pow_mul, ← pow_mul, mul_comm k n]
  simp only [hterm]
  by_cases hnm : n = m
  · subst hnm
    rw [if_pos rfl, ← mul_pow, hab, one_pow]
    simp
  · rw [if_neg hnm]
    have hne : a ^ n * b ^ m ≠ 1 := by
      intro hcon
      have h1 : b ^ m = b ^ n := by
        calc b ^ m = (a * b) ^ n * b ^ m := by rw [hab, one_pow, one_mul]
          _ = b ^ n * (a ^ n * b ^ m) := by rw [mul_pow]; ring
          _ = b ^ n := by rw [hcon, mul_one]
      exact hnm (hprim.pow_inj hm hn h1).symm
    have hpow : (a ^ n * b ^ m) ^ (2 ^ p) = 1 := by
      rw [mul_pow, ← pow_mul, ← pow_mul, mul_comm n, mul_comm m, pow_mul, pow_mul, haN, hbN]
      simp
    have hg := geom_sum_mul (a ^ n * b ^ m) (2 ^ p)
    rw [hpow, sub_self] at hg
    rcases mul_eq_zero.1 hg with h0 | h0
    · exact h0
    · exact absurd (sub_eq_zero.1 h0) hne

theorem inverse_real_fft_spec (p : ℕ) (d : List ℝ) (hlen : d.length = 2 * 2 ^ p) :
    ∃ d', inverse_real_fft realLibm d (2 ^ p) = some d' ∧ d'.length = 2 * 2 ^ p ∧
      ∀ q, q < 2 ^ p →
        cbuf d' q = ∑ u in range (2 ^ p), cbuf d u * om (2.0 * Real.pi) p ^ (q * u) :=
  fft_body_spec (2.0 * Real.pi) exp_pos_pi_half p d hlen

theorem round_trip_cbuf (p : ℕ) (x : List ℝ) (hlen : x.length = 2 * 2 ^ p) :
    ∃ y z, real_fft realLibm x (2 ^ p) = some y ∧ inverse_real_fft realLibm y (2 ^ p) = some z ∧
      z.length = 2 * 2 ^ p ∧ ∀ m, m < 2 ^ p → cbuf z m = ((2 ^ p : ℕ) : ℂ) * cbuf x m := by
  obtain ⟨y, hy, hleny, hvy⟩ := fft_body_spec (-2.0 * Real.pi) exp_neg_pi_half p x hlen
  obtain ⟨z, hz, hlenz, hvz⟩ := inverse_real_fft_spec p y hleny
  refine ⟨y, z, hy, hz, hlenz, fun m hm => ?_⟩
  rw [hvz m hm]
  have h1 : ∀ k ∈ range (2 ^ p), cbuf y k * om (2.0 * Real.pi) p ^ (m * k)
      = ∑ n in range (2 ^ p), cbuf x n *
          (om (-2.0 * Real.pi) p ^ (k * n) * om (2.0 * Real.pi) p ^ (m * k)) := by
    intro k hk
    rw [hvy k (mem_range.1 hk), sum_mul]
    apply sum_congr rfl
    intro n _
    ring
  rw [sum_congr rfl h1, sum_comm]
  have h2 : ∀ n ∈ range (2 ^ p), ∑ k in range (2 ^ p), cbuf x n *
      (om (-2.0 * Real.pi) p ^ (k * n) * om (2.0 * Real.pi) p ^ (m * k))
      = if n = m then ((2 ^ p : ℕ) : ℂ) * cbuf x m else 0 := by
    intro n hn
    rw [← mul_sum, twiddle_orthogonal p n m (mem_range.1 hn) hm]
    by_cases hnm : n = m
    · subst hnm; rw [if_pos rfl, if_pos rfl]; ring
    · rw [if_neg hnm, if_neg hnm, mul_zero]
  rw [sum_congr rfl h2, sum_ite_eq' (range (2 ^ p)) m, if_pos (mem_range.2 hm)]

/-- Claim C10. For `N = 2 ^ p` and every buffer `x` of `2 * N` reals, `real_fft`
returns a buffer `y`, and the inverse transform (the same routine with
`theta = +2π / mmax`) applied to `y` returns `N * x` element by element. -/
theorem inverse_real_fft_real_fft (N p : ℕ) (hN : N = 2 ^ p) (x : List ℝ)
    (hlen : x.length = 2 * N) :
    ∃ y, real_fft realLibm x N = some y ∧
      inverse_real_fft realLibm y N = some (x.map (fun v => (N : ℝ) * v)) := by
  subst hN
  obtain ⟨y, z, hy, hz, hlenz, hv⟩ := round_trip_cbuf p x hlen
  refine ⟨y, hy, ?_⟩
  rw [hz]
  congr 1
  apply List.ext_getElem?
  intro i
  by_cases hi : i < 2 * 2 ^ p
  · rw [getElem?_eq_getD (by omega), List.getElem?_map, getElem?_eq_getD (by omega)]
    simp only [Option.map_some']
    congr 1
    have hm : i / 2 < 2 ^ p := by omega
    have hc := hv (i / 2) hm
    have hcast : ((2 ^ p : ℕ) : ℂ) = (((2 ^ p : ℕ) : ℝ) : ℂ) := by push_cast; rfl
    rw [hcast] at hc
    rcases Nat.mod_two_eq_zero_or_one i with h0 | h1
    · have e : i = 2 * (i / 2) := by omega
      have := congrArg Complex.re hc
      rw [Complex.re_ofReal_mul, cbuf_re, cbuf_re, ← e] at this
      exact this
    · have e : i = 2 * (i / 2) + 1 := by omega
      have := congrArg Complex.im hc
      rw [Complex.im_ofReal_mul, cbuf_im, cbuf_im, ← e] at this
      exact this
  · rw [List.getElem?_eq_none (by omega), List.getElem?_eq_none (by simp; omega)]

/-- Claim C10 at `N = 2`, buffer `[1, 5, 2, 7]`. -/
theorem inverse_real_fft_real_fft_witness :
    ∃ y, real_fft realLibm [1, 5, 2, 7] 2 = some y ∧
      inverse_real_fft realLibm y 2 = some (([1, 5, 2, 7] : List ℝ).map (fun v => ((2 : ℕ) : ℝ) * v)) :=
  inverse_real_fft_real_fft 2 1 (by norm_num) [1, 5, 2, 7] (by simp)

theorem toULong_le_of_nonneg (k : ℕ) : toULong (k : Int) ≤ k := by
  unfold toULong ULONG_BITS
  omega

theorem real_fft_zero (p : ℕ) :
    real_fft realLibm (List.replicate (2 * 2 ^ p) 0) (2 ^ p) = some (List.replicate (2 * 2 ^ p) 0) := by
  obtain ⟨out, h1, h2, h3⟩ := real_fft_spec p (List.replicate (2 * 2 ^ p) 0) (by simp)
  rw [h1]
  congr 1
  apply List.ext_getElem?
  intro i
  by_cases hi : i < 2 * 2 ^ p
  · rw [getElem?_eq_getD (by omega), getElem?_eq_getD (by simp; omega)]
    congr 1
    have hz : ∀ j, (List.replicate (2 * 2 ^ p) (0 : ℝ)).getD j 0 = 0 := by
      intro j
      by_cases hj : j < 2 * 2 ^ p
      · simp [List.getD, List.getElem?_replicate, hj]
      · simp [List.getD, List.getElem?_replicate, hj]
    rw [hz]
    have hm : i / 2 < 2 ^ p := by omega
    have hc := h3 (i / 2) hm
    have hd : dft (2 ^ p) (cbuf (List.replicate (2 * 2 ^ p) 0)) (i / 2) = 0 := by
      unfold dft
      apply sum_eq_zero
      intro n _
      have : cbuf (List.replicate (2 * 2 ^ p) 0) n = 0 := by
        apply Complex.ext
        · rw [cbuf_re, hz]; rfl
        · rw [cbuf_im, hz]; rfl
      rw [this, zero_mul]
    rw [hd] at hc
    rcases Nat.mod_two_eq_zero_or_one i with h0 | h1
    · have e : i = 2 * (i / 2) := by omega
      have := congrArg Complex.re hc
      rw [cbuf_re, ← e] at this
      exact this
    · have e : i = 2 * (i / 2) + 1 := by omega
      have := congrArg Complex.im hc
      rw [cbuf_im, ← e] at this
      exact this
  · rw [List.getElem?_eq_none (by omega), List.getElem?_eq_none (by simp; omega)]

/-- Claim C9. For `N = 2 ^ p` and `k < N / 2`: `real_fft` on the all-zero buffer of
`2 * N` elements returns the all-zero buffer, on which `myfftPhase` at bin `k`
returns `0`. -/
theorem real_fft_zero_buffer (N p : ℕ) (hN : N = 2 ^ p) (k : ℕ) (hk : k < N / 2) :
    real_fft realLibm (List.replicate (2 * N) 0) N = some (List.replicate (2 * N) 0) ∧
      myfftPhase realLibm (List.replicate (2 * N) 0) N (k : Int) = some 0 := by
  subst hN
  refine ⟨real_fft_zero p, ?_⟩
  have h1 := toULong_le_of_nonneg k
  unfold myfftPhase
  rw [if_neg (by omega)]
  have e1 : readAtInt (List.replicate (2 * 2 ^ p) (0 : ℝ)) (2 * (k : Int)) = some 0 := by
    unfold readAtInt
    rw [if_neg (by omega)]
    have : (2 * (k : Int)).toNat = 2 * k := by omega
    rw [this, List.getElem?_replicate, if_pos (by omega)]
  have e2 : readAtInt (List.replicate (2 * 2 ^ p) (0 : ℝ)) (2 * (k : Int) + 1) = some 0 := by
    unfold readAtInt
    rw [if_neg (by omega)]
    have : (2 * (k : Int) + 1).toNat = 2 * k + 1 := by omega
    rw [this, List.getElem?_replicate, if_pos (by omega)]
  rw [e1, e2]
  simp only [Option.bind_eq_bind, Option.some_bind, EPSILON, abs_zero, realLibm_toDouble]
  rw [if_pos (by norm_num)]
  norm_num

/-- Claim C9 at `N = 4`, `k = 1`. -/
theorem real_fft_zero_buffer_witness :
    real_fft realLibm (List.replicate (2 * 4) 0) 4 = some (List.replicate (2 * 4) 0) ∧
      myfftPhase realLibm (List.replicate (2 * 4) 0) 4 ((1 : ℕ) : Int) = some 0 :=
  real_fft_zero_buffer 4 2 (by norm_num) 1 (by norm_num)

theorem atan2_deg_range (y x : ℝ) :
    -180 < realLibm.atan2 y x * realLibm.RAD2DEG ∧
      realLibm.atan2 y x * realLibm.RAD2DEG ≤ 180 := by
  have hpi := Real.pi_pos
  have h1 := Complex.neg_pi_lt_arg (⟨x, y⟩ : ℂ)
  have h2 := Complex.arg_le_pi (⟨x, y⟩ : ℂ)
  simp only [realLibm]
  constructor
  · rw [← mul_div_assoc, lt_div_iff₀ hpi]; nlinarith
  · rw [← mul_div_assoc, div_le_iff₀ hpi]; nlinarith

theorem toULong_of_nonneg {k : Int} (h0 : 0 ≤ k) (h1 : k < 2 ^ 64) :
    toULong k = k.toNat := by
  unfold toULong ULONG_BITS
  rw [Int.emod_eq_of_lt h0 h1]

theorem toULong_of_neg {k : Int} (h0 : k < 0) (h1 : -2 ^ 31 ≤ k) :
    2 ^ 63 ≤ toULong k := by
  unfold toULong ULONG_BITS
  omega

/-- The value of `myfftPhase` in exact arithmetic once the two reads have
succeeded. -/
theorem myfftPhase_of_reads {α : Type} [LinearOrderedField α] (L : Libm α) (data : List α)
    (nn : ℕ) (k : Int) (re im : α) (hk : ¬ toULong k ≥ nn / 2)
    (hre : readAtInt data (2 * k) = some re) (him : readAtInt data (2 * k + 1) = some im)
    (hF : ∀ x, L.toFloat x = x) (hD : ∀ x, L.toDouble x = x) :
    myfftPhase L data nn k =
      if |re| < EPSILON ∧ |im| < EPSILON then some 0.0
      else some (if L.atan2 im re * L.RAD2DEG + 137.1126 < 0.0
        then L.atan2 im re * L.RAD2DEG + 137.1126 + 360.0
        else L.atan2 im re * L.RAD2DEG + 137.1126) := by
  unfold myfftPhase
  rw [if_neg hk, hre, him]
  simp only [hF, hD]
  rfl

theorem myfftPhase_222_of_reads {α : Type} [LinearOrderedField α] (L : Libm α) (data : List α)
    (nn : ℕ) (k : Int) (re im : α) (hk : ¬ toULong k ≥ nn / 2)
    (hre : readAtInt data (2 * k) = some re) (him : readAtInt data (2 * k + 1) = some im)
    (hF : ∀ x, L.toFloat x = x) (hD : ∀ x, L.toDouble x = x) :
    CalculatePhaseFromFFT.myfftPhase L data nn k =
      if |re| < EPSILON ∧ |im| < EPSILON then some 0.0
      else some (
        if (if L.atan2 im re * L.RAD2DEG - 222.884444 < 0
            then L.atan2 im re * L.RAD2DEG - 222.884444 + 360.0
            else L.atan2 im re * L.RAD2DEG - 222.884444) < 0
        then (if L.atan2 im re * L.RAD2DEG - 222.884444 < 0
            then L.atan2 im re * L.RAD2DEG - 222.884444 + 360.0
            else L.atan2 im re * L.RAD2DEG - 222.884444) + 360.0
        else (if L.atan2 im re * L.RAD2DEG - 222.884444 < 0
            then L.atan2 im re * L.RAD2DEG - 222.884444 + 360.0
            else L.atan2 im re * L.RAD2DEG - 222.884444)) := by
  unfold CalculatePhaseFromFFT.myfftPhase
  rw [if_neg hk, hre, him]
  simp only [hF, hD]
  rfl

theorem readAtInt_eq_some {α : Type} (data : List α) (i : Int) (h0 : 0 ≤ i)
    (h1 : i.toNat < data.length) : ∃ v, readAtInt data i = some v := by
  unfold readAtInt
  rw [if_neg (by omega)]
  exact ⟨data[i.toNat], List.getElem?_eq_getElem h1⟩

theorem norm_137_range (a : ℝ) (h1 : -180 < a) (h2 : a ≤ 180) :
    0 ≤ (if a + 137.1126 < 0.0 then a + 137.1126 + 360.0 else a + 137.1126) ∧
      (if a + 137.1126 < 0.0 then a + 137.1126 + 360.0 else a + 137.1126) < 360 := by
  norm_num
  split_ifs with h
  · constructor <;> linarith
  · constructor <;> linarith

theorem norm_222_range (a : ℝ) (h1 : -180 < a) (h2 : a ≤ 180) :
    0 ≤ (if (if a - 222.884444 < 0 then a - 222.884444 + 360.0 else a - 222.884444) < 0
        then (if a - 222.884444 < 0 then a - 222.884444 + 360.0 else a - 222.884444) + 360.0
        else (if a - 222.884444 < 0 then a - 222.884444 + 360.0 else a - 222.884444)) ∧
      (if (if a - 222.884444 < 0 then a - 222.884444 + 360.0 else a - 222.884444) < 0
        then (if a - 222.884444 < 0 then a - 222.884444 + 360.0 else a - 222.884444) + 360.0
        else (if a - 222.884444 < 0 then a - 222.884444 + 360.0 else a - 222.884444)) < 360 := by
  have hneg : a - 222.884444 < 0 := by norm_num; linarith
  rw [if_pos hneg]
  norm_num
  split_ifs with h
  · constructor <;> linarith
  · constructor <;> linarith

theorem readAtInt_natCast {α : Type} (data : List α) (i : ℕ) :
    readAtInt data (i : Int) = data[i]? := by
  unfold readAtInt
  rw [if_neg (by omega)]
  rfl

theorem readAtInt_two_mul {α : Type} (data : List α) (k : ℕ) :
    readAtInt data (2 * (k : Int)) = data[2 * k]? ∧
      readAtInt data (2 * (k : Int) + 1) = data[2 * k + 1]? := by
  have e1 : (2 * (k : Int)) = ((2 * k : ℕ) : Int) := by push_cast; ring
  have e2 : (2 * (k : Int) + 1) = ((2 * k + 1 : ℕ) : Int) := by push_cast; ring
  constructor
  · rw [e1]; exact readAtInt_natCast _ _
  · rw [e2]; exact readAtInt_natCast _ _

theorem not_guard_of_lt (nn k : ℕ) (hk : k < nn / 2) : ¬ toULong (k : Int) ≥ nn / 2 := by
  have := toULong_le_of_nonneg k
  omega

/-- In exact arithmetic (`realLibm`: no rounding, `RAD2DEG = 180 / π`, `atan2` in
`(-π, π]`) a value returned by `myfftPhase` is `≥ 0` and `< 360`, in the
`+ 137.1126` variant (one conditional `+ 360`) and in the `- 222.884444` variant
(two conditional `+ 360`); and for a buffer of `2 * nn` elements, `nn` an
`unsigned long` and `k` an `int` below `2 ^ 30`, both variants return a value. -/
theorem myfftPhase_exact_range (data : List ℝ) (nn : ℕ) (k : Int) :
    (∀ v, myfftPhase realLibm data nn k = some v → 0 ≤ v ∧ v < 360) ∧
    (∀ v, CalculatePhaseFromFFT.myfftPhase realLibm data nn k = some v → 0 ≤ v ∧ v < 360) ∧
    (data.length = 2 * nn → nn < 2 ^ ULONG_BITS → -2 ^ 31 ≤ k → k < 2 ^ 30 →
      (myfftPhase realLibm data nn k).isSome ∧
        (CalculatePhaseFromFFT.myfftPhase realLibm data nn k).isSome) := by
  have key : ∀ re im, readAtInt data (2 * k) = some re → readAtInt data (2 * k + 1) = some im →
      ¬ toULong k ≥ nn / 2 →
      (∃ v, myfftPhase realLibm data nn k = some v ∧ 0 ≤ v ∧ v < 360) ∧
      (∃ v, CalculatePhaseFromFFT.myfftPhase realLibm data nn k = some v ∧ 0 ≤ v ∧ v < 360) := by
    intro re im hre him hk
    obtain ⟨r1, r2⟩ := atan2_deg_range im re
    have e1 := myfftPhase_of_reads realLibm data nn k re im hk hre him
      (fun _ => rfl) (fun _ => rfl)
    have e2 := myfftPhase_222_of_reads realLibm data nn k re im hk hre him
      (fun _ => rfl) (fun _ => rfl)
    by_cases hd : |re| < EPSILON ∧ |im| < EPSILON
    · rw [if_pos hd] at e1 e2
      exact ⟨⟨_, e1, by norm_num, by norm_num⟩, ⟨_, e2, by norm_num, by norm_num⟩⟩
    · rw [if_neg hd] at e1 e2
      exact ⟨⟨_, e1, norm_137_range _ r1 r2⟩, ⟨_, e2, norm_222_range _ r1 r2⟩⟩
  have hguard : toULong k ≥ nn / 2 →
      myfftPhase realLibm data nn k = some 0.0 ∧
        CalculatePhaseFromFFT.myfftPhase realLibm data nn k = some 0.0 := by
    intro hk
    unfold myfftPhase CalculatePhaseFromFFT.myfftPhase
    rw [if_pos hk, if_pos hk]
    exact ⟨rfl, rfl⟩
  have hnone1 : ¬ toULong k ≥ nn / 2 → readAtInt data (2 * k) = none →
      myfftPhase realLibm data nn k = none ∧
        CalculatePhaseFromFFT.myfftPhase realLibm data nn k = none := by
    intro hk hre
    unfold myfftPhase CalculatePhaseFromFFT.myfftPhase
    rw [if_neg hk, if_neg hk, hre]
    exact ⟨rfl, rfl⟩
  have hnone2 : ∀ re, ¬ toULong k ≥ nn / 2 → readAtInt data (2 * k) = some re →
      readAtInt data (2 * k + 1) = none →
      myfftPhase realLibm data nn k = none ∧
        CalculatePhaseFromFFT.myfftPhase realLibm data nn k = none := by
    intro re hk hre him
    unfold myfftPhase CalculatePhaseFromFFT.myfftPhase
    rw [if_neg hk, if_neg hk, hre, him]
    exact ⟨rfl, rfl⟩
  have hall : ∀ v, (myfftPhase realLibm data nn k = some v → 0 ≤ v ∧ v < 360) ∧
      (CalculatePhaseFromFFT.myfftPhase realLibm data nn k = some v → 0 ≤ v ∧ v < 360) := by
    intro v
    by_cases hk : toULong k ≥ nn / 2
    · obtain ⟨h1, h2⟩ := hguard hk
      rw [h1, h2]
      constructor <;> (intro h; have := Option.some.inj h; rw [← this]; norm_num)
    · rcases hre : readAtInt data (2 * k) with _ | re
      · obtain ⟨h1, h2⟩ := hnone1 hk hre
        rw [h1, h2]
        constructor <;> (intro h; cases h)
      · rcases him : readAtInt data (2 * k + 1) with _ | im
        · obtain ⟨h1, h2⟩ := hnone2 re hk hre him
          rw [h1, h2]
          constructor <;> (intro h; cases h)
        · obtain ⟨⟨v1, e1, b1⟩, ⟨v2, e2, b2⟩⟩ := key re im hre him hk
          rw [e1, e2]
          constructor <;> (intro h; have := Option.some.inj h; rw [← this])
          · exact b1
          · exact b2
  refine ⟨fun v => (hall v).1, fun v => (hall v).2, ?_⟩
  intro hlen hnn hk0 hk1
  by_cases hk : toULong k ≥ nn / 2
  · obtain ⟨h1, h2⟩ := hguard hk
    rw [h1, h2]; exact ⟨rfl, rfl⟩
  · have hnn' : nn < 2 ^ 64 := hnn
    have hkpos : 0 ≤ k := by
      by_contra hneg
      have := toULong_of_neg (not_le.1 hneg) hk0
      omega
    have hu := toULong_of_nonneg hkpos (by omega)
    rw [hu] at hk
    obtain ⟨re, hre⟩ := readAtInt_eq_some data (2 * k) (by omega) (by omega)
    obtain ⟨im, him⟩ := readAtInt_eq_some data (2 * k + 1) (by omega) (by omega)
    have hk' : ¬ toULong k ≥ nn / 2 := by rw [hu]; exact hk
    obtain ⟨⟨v1, e1, _⟩, ⟨v2, e2, _⟩⟩ := key re im hre him hk'
    rw [e1, e2]; exact ⟨rfl, rfl⟩

/-- Claim C3. For every `nn`, every buffer and every `int` `k` with `k ≥ nn / 2`
(integer division), `myfftPhase` returns `0` whatever the buffer holds. -/
theorem myfftPhase_out_of_range {α : Type} [LinearOrderedField α] (L : Libm α) (data : List α)
    (nn : ℕ) (k : Int) (hk : ((nn / 2 : ℕ) : Int) ≤ k) (hint : k < 2 ^ 31) :
    myfftPhase L data nn k = some 0 := by
  have hu := toULong_of_nonneg (k := k) (by omega) (by omega)
  unfold myfftPhase
  rw [if_pos (by rw [hu]; omega)]
  norm_num

/-- Claim C3 at `nn = 2`, `k = 1 = nn / 2`. -/
theorem myfftPhase_out_of_range_witness :
    myfftPhase realLibm [3, 4, 5, 6] 2 1 = some 0 :=
  myfftPhase_out_of_range realLibm [3, 4, 5, 6] 2 1 (by norm_num) (by norm_num)

theorem myfftPhase_of_bin (data : List ℝ) (nn k : ℕ) (hk : k < nn / 2) (re im : ℝ)
    (hre : data[2 * k]? = some re) (him : data[2 * k + 1]? = some im) :
    myfftPhase realLibm data nn (k : Int) =
      if |re| < 1e-8 ∧ |im| < 1e-8 then some 0
      else some (add360_if_negative (realLibm.atan2 im re * realLibm.RAD2DEG + 137.1126)) := by
  obtain ⟨r1, r2⟩ := readAtInt_two_mul data k
  rw [myfftPhase_of_reads realLibm data nn k re im (not_guard_of_lt nn k hk)
    (by rw [r1, hre]) (by rw [r2, him]) (fun _ => rfl) (fun _ => rfl)]
  unfold add360_if_negative EPSILON
  have e0 : (0.0 : ℝ) = 0 := by norm_num
  have e360 : (360.0 : ℝ) = 360 := by norm_num
  rw [e0, e360]

theorem atan2_one_zero : realLibm.atan2 1 0 * realLibm.RAD2DEG = 90 := by
  have h : (⟨0, 1⟩ : ℂ) = Complex.I := rfl
  simp only [realLibm]
  rw [h, Complex.arg_I]
  have := Real.pi_ne_zero
  field_simp
  ring

/-- Claim C4. For `k` in `[0, nn / 2)` with bin `(re, im)`: if `|re| < 1e-8` and
`|im| < 1e-8` then `myfftPhase` returns `0`; otherwise the sentinel branch is not
taken and the result is the normalised `atan2(im, re) * RAD2DEG + 137.1126`; for
`re = 0`, `im = 1` it is `227.1126`. -/
theorem myfftPhase_degenerate (data : List ℝ) (nn k : ℕ) (hk : k < nn / 2) (re im : ℝ)
    (hre : data[2 * k]? = some re) (him : data[2 * k + 1]? = some im) :
    (|re| < 1e-8 ∧ |im| < 1e-8 → myfftPhase realLibm data nn (k : Int) = some 0) ∧
    (¬ (|re| < 1e-8 ∧ |im| < 1e-8) →
      myfftPhase realLibm data nn (k : Int) =
        some (add360_if_negative (realLibm.atan2 im re * realLibm.RAD2DEG + 137.1126))) ∧
    (re = 0 → im = 1 → myfftPhase realLibm data nn (k : Int) = some 227.1126) := by
  have h := myfftPhase_of_bin data nn k hk re im hre him
  refine ⟨fun hd => ?_, fun hd => ?_, fun h0 h1 => ?_⟩
  · rw [h, if_pos hd]
  · rw [h, if_neg hd]
  · subst h0 h1
    rw [h, if_neg (by norm_num), atan2_one_zero]
    unfold add360_if_negative
    norm_num

/-- Claim C4 on a buffer whose bin `1` is `(0, 1)`: the result is `227.1126`. -/
theorem myfftPhase_degenerate_witness :
    myfftPhase realLibm [5, 0, 0, 1, 0, 0, 0, 0] 4 ((1 : ℕ) : Int) = some 227.1126 :=
  (myfftPhase_degenerate [5, 0, 0, 1, 0, 0, 0, 0] 4 1 (by norm_num) 0 1 (by simp)
    (by simp)).2.2 rfl rfl

theorem add360_eq_mod360 (x : ℝ) (h1 : -360 ≤ x) (h2 : x < 360) :
    add360_if_negative x = mod360 x := by
  unfold add360_if_negative mod360
  by_cases hx : x < 0
  · rw [if_pos hx]
    have : ⌊x / 360⌋ = -1 := by
      rw [Int.floor_eq_iff]
      constructor
      · rw [le_div_iff₀ (by norm_num)]; push_cast; linarith
      · rw [div_lt_iff₀ (by norm_num)]; push_cast; linarith
    rw [this]; push_cast; ring
  · rw [if_neg hx]
    have : ⌊x / 360⌋ = 0 := by
      rw [Int.floor_eq_iff]
      constructor
      · rw [le_div_iff₀ (by norm_num)]; push_cast; linarith
      · rw [div_lt_iff₀ (by norm_num)]; push_cast; linarith
    rw [this]; push_cast; ring

theorem mod360_range (x : ℝ) : 0 ≤ mod360 x ∧ mod360 x < 360 := by
  unfold mod360
  have h1 := Int.floor_le (x / 360)
  have h2 := Int.lt_floor_add_one (x / 360)
  rw [le_div_iff₀ (by norm_num)] at h1
  rw [div_lt_iff₀ (by norm_num)] at h2
  constructor <;> linarith

/-- Claim C5, amended. In exact arithmetic (`realLibm`: no rounding,
`RAD2DEG = 180 / π`), for `k` in `[0, nn / 2)` and a bin `(re, im)` that is not
degenerate, `myfftPhase` returns `atan2(im, re) * 180 / π + 137.1126` reduced
modulo 360 into `[0, 360)`: there the single conditional `+ 360` is a modulo-360
normalisation for this offset. -/
theorem myfftPhase_eq_mod360 (data : List ℝ) (nn k : ℕ) (hk : k < nn / 2) (re im : ℝ)
    (hre : data[2 * k]? = some re) (him : data[2 * k + 1]? = some im)
    (hnd : ¬ (|re| < 1e-8 ∧ |im| < 1e-8)) :
    myfftPhase realLibm data nn (k : Int) =
        some (mod360 (realLibm.atan2 im re * (180 / Real.pi) + 137.1126)) ∧
      0 ≤ mod360 (realLibm.atan2 im re * (180 / Real.pi) + 137.1126) ∧
      mod360 (realLibm.atan2 im re * (180 / Real.pi) + 137.1126) < 360 := by
  obtain ⟨r1, r2⟩ := atan2_deg_range im re
  have e : realLibm.RAD2DEG = 180 / Real.pi := rfl
  rw [e] at r1 r2
  refine ⟨?_, mod360_range _⟩
  rw [myfftPhase_of_bin data nn k hk re im hre him, if_neg hnd, e,
    add360_eq_mod360 _ (by linarith) (by linarith)]

/-- Claim C5, amended, on a buffer whose bin `1` is `(0, 1)`. -/
theorem myfftPhase_eq_mod360_witness :
    myfftPhase realLibm [5, 0, 0, 1, 0, 0, 0, 0] 4 ((1 : ℕ) : Int) =
        some (mod360 (realLibm.atan2 1 0 * (180 / Real.pi) + 137.1126)) ∧
      0 ≤ mod360 (realLibm.atan2 1 0 * (180 / Real.pi) + 137.1126) ∧
      mod360 (realLibm.atan2 1 0 * (180 / Real.pi) + 137.1126) < 360 :=
  myfftPhase_eq_mod360 [5, 0, 0, 1, 0, 0, 0, 0] 4 1 (by norm_num) 0 1 (by simp) (by simp)
    (by norm_num)

theorem spec_calibration_offset_value :
    spec_calibration_offset_deg 2048 11718.75 9 50 = -94.272 := by
  unfold spec_calibration_offset_deg
  have := Real.pi_ne_zero
  field_simp
  ring

theorem atan2_zero_one : realLibm.atan2 0 1 * realLibm.RAD2DEG = 0 := by
  have h : (⟨1, 0⟩ : ℂ) = 1 := rfl
  simp only [realLibm]
  rw [h, Complex.arg_one, zero_mul]

/-- Claim C6 fails as stated. For `N = 2048`, `sampleRate = 11718.75`, `k = 9`,
`ftrue = 50` the offset `-Δφ` is `-94.272` degrees, while on a bin of raw angle `0`
(`re = 1`, `im = 0`) `myfftPhase` returns the constant it adds, `137.1126`, which
differs from `-94.272` by no multiple of 360. -/
theorem myfftPhase_offset_not_calibration :
    myfftPhase realLibm (List.replicate 18 0 ++ [1, 0] ++ List.replicate 4076 0) 2048 9
        = some 137.1126 ∧
      spec_calibration_offset_deg 2048 11718.75 9 50 = -94.272 ∧
      ¬ ∃ z : ℤ, (137.1126 : ℝ) = spec_calibration_offset_deg 2048 11718.75 9 50 + 360 * z := by
  refine ⟨?_, spec_calibration_offset_value, ?_⟩
  · have h := myfftPhase_of_bin (List.replicate 18 0 ++ [1, 0] ++ List.replicate 4076 0) 2048 9
      (by norm_num) 1 0
      (by rw [List.getElem?_append_left (by simp)]; simp [List.getElem?_append])
      (by rw [List.getElem?_append_left (by simp)]; simp [List.getElem?_append])
    have e : ((9 : ℕ) : Int) = 9 := rfl
    rw [e] at h
    rw [h, if_neg (by norm_num), atan2_zero_one]
    unfold add360_if_negative
    norm_num
  · rw [spec_calibration_offset_value]
    rintro ⟨z, hz⟩
    have h1 : (z : ℝ) = 231.3846 / 360 := by linarith
    have h2 : (0 : ℝ) < z := by rw [h1]; norm_num
    have h3 : (z : ℝ) < 1 := by rw [h1]; norm_num
    have h4 : 0 < z := by exact_mod_cast h2
    have h5 : z < 1 := by exact_mod_cast h3
    omega

/-- Claim C6, amended. The constant `myfftPhase` adds to the raw bin angle is
`-Δφ` in degrees (`-94.272` for `N = 2048`, `sampleRate = 11718.75`, `k = 9`,
`ftrue = 50`) plus `231.3846` degrees. -/
theorem myfftPhase_offset_amended (data : List ℝ) (nn k : ℕ) (hk : k < nn / 2) (re im : ℝ)
    (hre : data[2 * k]? = some re) (him : data[2 * k + 1]? = some im)
    (hnd : ¬ (|re| < 1e-8 ∧ |im| < 1e-8)) :
    myfftPhase realLibm data nn (k : Int) =
      some (add360_if_negative (realLibm.atan2 im re * realLibm.RAD2DEG +
        (spec_calibration_offset_deg 2048 11718.75 9 50 + 231.3846))) := by
  rw [myfftPhase_of_bin data nn k hk re im hre him, if_neg hnd, spec_calibration_offset_value]
  norm_num

/-- Claim C6, amended, on a buffer whose bin `1` is `(0, 1)`. -/
theorem myfftPhase_offset_amended_witness :
    myfftPhase realLibm [5, 0, 0, 1, 0, 0, 0, 0] 4 ((1 : ℕ) : Int) =
      some (add360_if_negative (realLibm.atan2 1 0 * realLibm.RAD2DEG +
        (spec_calibration_offset_deg 2048 11718.75 9 50 + 231.3846))) :=
  myfftPhase_offset_amended [5, 0, 0, 1, 0, 0, 0, 0] 4 1 (by norm_num) 0 1 (by simp) (by simp)
    (by norm_num)

theorem flat_top_loop_spec {α : Type} [LinearOrderedField α] (L : Libm α) (num_points r : ℕ) :
    ∀ (n fuel : ℕ) (w : List α), n + r = num_points → r < fuel → num_points ≤ w.length →
    ∃ w', flat_top_loop L num_points fuel n w = some w' ∧ w'.length = w.length ∧
      ∀ i, w'[i]? = if n ≤ i ∧ i < num_points then some (flat_top_coefficient L num_points i)
        else w[i]? := by
  induction r with
  | zero =>
    intro n fuel w hn hf _
    obtain ⟨fuel, rfl⟩ : ∃ f, fuel = f + 1 := ⟨fuel - 1, by omega⟩
    unfold flat_top_loop
    rw [if_neg (by omega)]
    refine ⟨w, rfl, rfl, fun i => ?_⟩
    rw [if_neg (by omega)]
  | succ r ih =>
    intro n fuel w hn hf hlen
    obtain ⟨fuel, rfl⟩ : ∃ f, fuel = f + 1 := ⟨fuel - 1, by omega⟩
    unfold flat_top_loop
    rw [if_pos (by omega), writeAt_of_lt _ (by omega)]
    obtain ⟨w', h1, h2, h3⟩ := ih (n + 1) fuel (w.set n (flat_top_coefficient L num_points n))
      (by omega) (by omega) (by simpa using hlen)
    simp only [Option.bind_eq_bind, Option.some_bind, h1]
    refine ⟨w', rfl, by simpa using h2, fun i => ?_⟩
    rw [h3]
    by_cases hi : n = i
    · subst hi
      rw [if_neg (by omega), if_pos ⟨le_refl _, by omega⟩, List.getElem?_set_self (by omega)]
    · rw [List.getElem?_set_ne hi]
      by_cases h4 : n + 1 ≤ i ∧ i < num_points
      · rw [if_pos h4, if_pos ⟨by omega, h4.2⟩]
      · rw [if_neg h4, if_neg (by omega)]

theorem hanning_loop_spec {α : Type} [LinearOrderedField α] (L : Libm α) (num_points r : ℕ) :
    ∀ (n fuel : ℕ) (w : List α), n + r = num_points → r < fuel → num_points ≤ w.length →
    ∃ w', hanning_loop L num_points fuel n w = some w' ∧ w'.length = w.length ∧
      ∀ i, w'[i]? = if n ≤ i ∧ i < num_points then some (hanning_coefficient L num_points i)
        else w[i]? := by
  induction r with
  | zero =>
    intro n fuel w hn hf _
    obtain ⟨fuel, rfl⟩ : ∃ f, fuel = f + 1 := ⟨fuel - 1, by omega⟩
    unfold hanning_loop
    rw [if_neg (by omega)]
    refine ⟨w, rfl, rfl, fun i => ?_⟩
    rw [if_neg (by omega)]
  | succ r ih =>
    intro n fuel w hn hf hlen
    obtain ⟨fuel, rfl⟩ : ∃ f, fuel = f + 1 := ⟨fuel - 1, by omega⟩
    unfold hanning_loop
    rw [if_pos (by omega), writeAt_of_lt _ (by omega)]
    obtain ⟨w', h1, h2, h3⟩ := ih (n + 1) fuel (w.set n (hanning_coefficient L num_points n))
      (by omega) (by omega) (by simpa using hlen)
    simp only [Option.bind_eq_bind, Option.some_bind, h1]
    refine ⟨w', rfl, by simpa using h2, fun i => ?_⟩
    rw [h3]
    by_cases hi : n = i
    · subst hi
      rw [if_neg (by omega), if_pos ⟨le_refl _, by omega⟩, List.getElem?_set_self (by omega)]
    · rw [List.getElem?_set_ne hi]
      by_cases h4 : n + 1 ≤ i ∧ i < num_points
      · rw [if_pos h4, if_pos ⟨by omega, h4.2⟩]
      · rw [if_neg h4, if_neg (by omega)]

theorem generate_flat_top_window_spec {α : Type} [LinearOrderedField α] (L : Libm α)
    (num_points : ℕ) (w : List α) (hlen : num_points ≤ w.length) :
    ∃ w', generate_flat_top_window L w num_points = some w' ∧ w'.length = w.length ∧
      ∀ i, w'[i]? = if i < num_points then some (flat_top_coefficient L num_points i)
        else w[i]? := by
  obtain ⟨w', h1, h2, h3⟩ := flat_top_loop_spec L num_points num_points 0 (num_points + 1) w
    (by omega) (by omega) hlen
  exact ⟨w', h1, h2, fun i => by rw [h3]; simp⟩

theorem generate_hanning_window_spec {α : Type} [LinearOrderedField α] (L : Libm α)
    (num_points : ℕ) (w : List α) (hlen : num_points ≤ w.length) :
    ∃ w', generate_hanning_window L w num_points = some w' ∧ w'.length = w.length ∧
      ∀ i, w'[i]? = if i < num_points then some (hanning_coefficient L num_points i)
        else w[i]? := by
  obtain ⟨w', h1, h2, h3⟩ := hanning_loop_spec L num_points num_points 0 (num_points + 1) w
    (by omega) (by omega) hlen
  exact ⟨w', h1, h2, fun i => by rw [h3]; simp⟩

theorem window_factor_reflect (L n : ℕ) (hL : 2 ≤ L) (hn : n < L) :
    2 * Real.pi * ((L - 1 - n : ℕ) : ℝ) / ((L - 1 : ℕ) : ℝ)
      = 2 * Real.pi - 2 * Real.pi * (n : ℝ) / ((L - 1 : ℕ) : ℝ) := by
  have h1 : ((L - 1 - n : ℕ) : ℝ) = ((L - 1 : ℕ) : ℝ) - n := by
    rw [Nat.cast_sub (by omega)]
  have h2 : ((L - 1 : ℕ) : ℝ) ≠ 0 := by
    have : 0 < L - 1 := by omega
    exact_mod_cast this.ne'
  rw [h1, mul_sub, sub_div, mul_div_assoc, div_self h2, mul_one]

theorem cos_mul_reflect (j : ℕ) (x : ℝ) :
    Real.cos ((j : ℝ) * (2 * Real.pi - x)) = Real.cos ((j : ℝ) * x) := by
  have : (j : ℝ) * (2 * Real.pi - x) = (j : ℝ) * (2 * Real.pi) - (j : ℝ) * x := by ring
  rw [this, Real.cos_nat_mul_two_pi_sub]

theorem flat_top_coefficient_symm (L n : ℕ) (hL : 2 ≤ L) (hn : n < L) :
    flat_top_coefficient realLibm L (L - 1 - n) = flat_top_coefficient realLibm L n := by
  unfold flat_top_coefficient
  simp only [realLibm]
  have e := window_factor_reflect L n hL hn
  have e' : 2 * Real.pi * ((L - 1 - n : ℕ) : ℝ) / ((L - 1 : ℕ) : ℝ)
      = 2 * Real.pi - 2 * Real.pi * (n : ℝ) / ((L - 1 : ℕ) : ℝ) := e
  rw [e']
  have c1 := Real.cos_two_pi_sub (2 * Real.pi * (n : ℝ) / ((L - 1 : ℕ) : ℝ))
  have c2 := cos_mul_reflect 2 (2 * Real.pi * (n : ℝ) / ((L - 1 : ℕ) : ℝ))
  have c3 := cos_mul_reflect 3 (2 * Real.pi * (n : ℝ) / ((L - 1 : ℕ) : ℝ))
  have c4 := cos_mul_reflect 4 (2 * Real.pi * (n : ℝ) / ((L - 1 : ℕ) : ℝ))
  norm_num at c2 c3 c4
  rw [c1, c2, c3, c4]

theorem hanning_coefficient_symm (L n : ℕ) (hL : 2 ≤ L) (hn : n < L) :
    hanning_coefficient realLibm L (L - 1 - n) = hanning_coefficient realLibm L n := by
  unfold hanning_coefficient
  simp only [realLibm]
  rw [window_factor_reflect L n hL hn]
  rw [Real.cos_two_pi_sub]

/-- Claim C7. For every length `L ≥ 2` and every `n < L`, the coefficients stored
by `generate_flat_top_window` and by `generate_hanning_window` (over the reals,
`PI = M_PI = π`) satisfy `w[n] = w[L-1-n]`. -/
theorem window_symmetric (L n : ℕ) (hL : 2 ≤ L) (hn : n < L) (buf : List ℝ)
    (hbuf : L ≤ buf.length) :
    (∃ w v, generate_flat_top_window realLibm buf L = some w ∧
      w[n]? = some v ∧ w[L - 1 - n]? = some v) ∧
    (∃ w v, generate_hanning_window realLibm buf L = some w ∧
      w[n]? = some v ∧ w[L - 1 - n]? = some v) := by
  constructor
  · obtain ⟨w, h1, _, h3⟩ := generate_flat_top_window_spec realLibm L buf hbuf
    refine ⟨w, flat_top_coefficient realLibm L n, h1, ?_, ?_⟩
    · rw [h3, if_pos hn]
    · rw [h3, if_pos (by omega), flat_top_coefficient_symm L n hL hn]
  · obtain ⟨w, h1, _, h3⟩ := generate_hanning_window_spec realLibm L buf hbuf
    refine ⟨w, hanning_coefficient realLibm L n, h1, ?_, ?_⟩
    · rw [h3, if_pos hn]
    · rw [h3, if_pos (by omega), hanning_coefficient_symm L n hL hn]

/-- Claim C7 at `L = 4`, `n = 1`. -/
theorem window_symmetric_witness :
    (∃ w v, generate_flat_top_window realLibm [0, 0, 0, 0] 4 = some w ∧
      w[1]? = some v ∧ w[4 - 1 - 1]? = some v) ∧
    (∃ w v, generate_hanning_window realLibm [0, 0, 0, 0] 4 = some w ∧
      w[1]? = some v ∧ w[4 - 1 - 1]? = some v) :=
  window_symmetric 4 1 (by norm_num) (by norm_num) [0, 0, 0, 0] (by simp)

/-- Window generation returns normally, in any arithmetic, whenever the array
holds `L` cells. -/
theorem generate_window_isSome {α : Type} [LinearOrderedField α] (E : Libm α) (L : ℕ)
    (buf : List α) (hbuf : L ≤ buf.length) :
    (generate_flat_top_window E buf L).isSome = true ∧
      (generate_hanning_window E buf L).isSome = true := by
  obtain ⟨w1, h1, _⟩ := generate_flat_top_window_spec E L buf hbuf
  obtain ⟨w2, h2, _⟩ := generate_hanning_window_spec E L buf hbuf
  rw [h1, h2]
  exact ⟨rfl, rfl⟩

/-- Claim C8, amended. For a length `L < 2` window generation does not fail: in
any arithmetic both generators return normally, with no error condition; for
`L = 0` the array is left as it was, for `L = 1` no cell other than `w[0]` is
written.  (The value stored in `w[0]` for `L = 1` comes from a division by zero,
a NaN in C; nothing is stated about it.) -/
theorem window_generation_short_length {α : Type} [LinearOrderedField α] (E : Libm α)
    (L : ℕ) (hL : L < 2) (buf : List α) (hbuf : L ≤ buf.length) :
    (∃ w, generate_flat_top_window E buf L = some w ∧ w.length = buf.length ∧
      (L = 0 → w = buf) ∧ ∀ i, 1 ≤ i → w[i]? = buf[i]?) ∧
    (∃ w, generate_hanning_window E buf L = some w ∧ w.length = buf.length ∧
      (L = 0 → w = buf) ∧ ∀ i, 1 ≤ i → w[i]? = buf[i]?) := by
  obtain ⟨w1, h1, l1, v1⟩ := generate_flat_top_window_spec E L buf hbuf
  obtain ⟨w2, h2, l2, v2⟩ := generate_hanning_window_spec E L buf hbuf
  refine ⟨⟨w1, h1, l1, fun h0 => ?_, fun i hi => ?_⟩, ⟨w2, h2, l2, fun h0 => ?_, fun i hi => ?_⟩⟩
  · apply List.ext_getElem?
    intro i
    rw [v1, if_neg (by omega)]
  · rw [v1, if_neg (by omega)]
  · apply List.ext_getElem?
    intro i
    rw [v2, if_neg (by omega)]
  · rw [v2, if_neg (by omega)]

/-- Claim C8, amended, at `L = 1` on the array `[7, 8]`, in exact arithmetic. -/
theorem window_generation_short_length_witness :
    (∃ w, generate_flat_top_window realLibm [7, 8] 1 = some w ∧
      w.length = ([7, 8] : List ℝ).length ∧
      (1 = 0 → w = [7, 8]) ∧ ∀ i, 1 ≤ i → w[i]? = ([7, 8] : List ℝ)[i]?) ∧
    (∃ w, generate_hanning_window realLibm [7, 8] 1 = some w ∧
      w.length = ([7, 8] : List ℝ).length ∧
      (1 = 0 → w = [7, 8]) ∧ ∀ i, 1 ≤ i → w[i]? = ([7, 8] : List ℝ)[i]?) :=
  window_generation_short_length realLibm 1 (by norm_num) [7, 8] (by simp)

/-- Claim C8 fails as stated. For the lengths `0` and `1` both generators return
normally (`some`), with no failure, in exact arithmetic and in IEEE 754
arithmetic alike. -/
theorem window_generation_does_not_fail :
    generate_flat_top_window realLibm [] 0 = some [] ∧
      generate_hanning_window realLibm [] 0 = some [] ∧
      (generate_flat_top_window realLibm [7] 1).isSome = true ∧
      (generate_hanning_window realLibm [7] 1).isSome = true ∧
      (generate_flat_top_window ieeeLibm [7] 1).isSome = true ∧
      (generate_hanning_window ieeeLibm [7] 1).isSome = true ∧
      ¬ (generate_flat_top_window ieeeLibm [7] 1 = none) ∧
      ¬ (generate_hanning_window ieeeLibm [7] 1 = none) := by
  obtain ⟨h1, h2⟩ := generate_window_isSome realLibm 1 [7] (by simp)
  obtain ⟨h3, h4⟩ := generate_window_isSome ieeeLibm 1 [7] (by simp)
  refine ⟨rfl, rfl, h1, h2, h3, h4, ?_, ?_⟩
  · intro h
    rw [h] at h3
    exact Bool.noConfusion h3
  · intro h
    rw [h] at h4
    exact Bool.noConfusion h4

/-! ## The transform of a real signal -/

theorem dft_ofReal_re_im (N : ℕ) (r : ℕ → ℝ) (k : ℕ) :
    (dft N (fun n => ((r n : ℝ) : ℂ)) k).re
        = ∑ n in range N, r n * Real.cos (2 * Real.pi * k * n / N) ∧
      (dft N (fun n => ((r n : ℝ) : ℂ)) k).im
        = -∑ n in range N, r n * Real.sin (2 * Real.pi * k * n / N) := by
  have hexp : ∀ n : ℕ, Complex.exp (-2 * Real.pi * Complex.I * k * n / N)
      = Complex.exp (((-(2 * Real.pi * k * n / N) : ℝ) : ℂ) * Complex.I) := by
    intro n
    congr 1
    push_cast
    ring
  unfold dft
  constructor
  · rw [Complex.re_sum]
    apply sum_congr rfl
    intro n _
    rw [hexp, Complex.re_ofReal_mul, Complex.exp_ofReal_mul_I_re, Real.cos_neg]
  · rw [Complex.im_sum, ← sum_neg_distrib]
    apply sum_congr rfl
    intro n _
    rw [hexp, Complex.im_ofReal_mul, Complex.exp_ofReal_mul_I_im, Real.sin_neg]
    ring

theorem real_fft_real_input_spec (p : ℕ) (buffer : List ℝ) (hlen : buffer.length = 2 * 2 ^ p)
    (himag : ∀ n, n < 2 ^ p → buffer[2 * n + 1]? = some 0) :
    ∃ out, real_fft realLibm buffer (2 ^ p) = some out ∧ out.length = 2 * 2 ^ p ∧
      ∀ k, k < 2 ^ p →
        out.getD (2 * k) 0 = ∑ n in range (2 ^ p),
          buffer.getD (2 * n) 0 * Real.cos (2 * Real.pi * k * n / (2 ^ p : ℕ)) ∧
        out.getD (2 * k + 1) 0 = -∑ n in range (2 ^ p),
          buffer.getD (2 * n) 0 * Real.sin (2 * Real.pi * k * n / (2 ^ p : ℕ)) := by
  obtain ⟨out, h1, h2, h3⟩ := real_fft_spec p buffer hlen
  refine ⟨out, h1, h2, fun k hk => ?_⟩
  have hd : dft (2 ^ p) (cbuf buffer) k
      = dft (2 ^ p) (fun n => ((buffer.getD (2 * n) 0 : ℝ) : ℂ)) k := by
    unfold dft
    apply sum_congr rfl
    intro n hn
    have hn' : n < 2 ^ p := mem_range.1 hn
    have hi := himag n hn'
    rw [getElem?_eq_getD (by omega)] at hi
    have hz : buffer.getD (2 * n + 1) 0 = 0 := Option.some.inj hi
    congr 1
    apply Complex.ext
    · rw [cbuf_re]; rfl
    · rw [cbuf_im, hz]; rfl
  have hq := h3 k hk
  rw [hd] at hq
  obtain ⟨e1, e2⟩ := dft_ofReal_re_im (2 ^ p) (fun n => buffer.getD (2 * n) 0) k
  constructor
  · rw [← cbuf_re, hq, e1]
  · rw [← cbuf_im, hq, e2]

/-! ## Sums of roots of unity -/

theorem exp_geom_sum_eq_zero (N : ℕ) (hN : 0 < N) (j : ℤ) (hj : ¬ (N : ℤ) ∣ j) :
    ∑ u in range N, Complex.exp (2 * Real.pi * Complex.I * j * u / N) = 0 := by
  have hN' : (N : ℂ) ≠ 0 := by exact_mod_cast hN.ne'
  set z : ℂ := Complex.exp (2 * Real.pi * Complex.I * j / N) with hz
  have hterm : ∀ u : ℕ, Complex.exp (2 * Real.pi * Complex.I * j * u / N) = z ^ u := by
    intro u
    rw [hz, ← Complex.exp_nat_mul]
    congr 1
    ring
  have hzN : z ^ N = 1 := by
    rw [hz, ← Complex.exp_nat_mul]
    have : (N : ℂ) * (2 * Real.pi * Complex.I * j / N) = j * (2 * Real.pi * Complex.I) := by
      field_simp
      ring
    rw [this]
    exact Complex.exp_int_mul_two_pi_mul_I j
  have hz1 : z ≠ 1 := by
    intro hcon
    rw [hz, Complex.exp_eq_one_iff] at hcon
    obtain ⟨n, hn⟩ := hcon
    have hpi : (2 * Real.pi * Complex.I : ℂ) ≠ 0 := by
      simp [Real.pi_ne_zero]
    have h1 : (j : ℂ) = n * N := by
      field_simp at hn
      have h2 : (2 * Real.pi * Complex.I : ℂ) * j = (2 * Real.pi * Complex.I) * (n * N) := by
        rw [hn]; ring
      exact mul_left_cancel₀ hpi h2
    have h3 : j = n * N := by exact_mod_cast h1
    exact hj ⟨n, by rw [h3]; ring⟩
  simp only [hterm]
  have hg := geom_sum_mul z N
  rw [hzN, sub_self] at hg
  rcases mul_eq_zero.1 hg with h0 | h0
  · exact h0
  · exact absurd (sub_eq_zero.1 h0) hz1

theorem sum_sin_cos_eq_zero (N : ℕ) (hN : 0 < N) (j : ℤ) (hj : ¬ (N : ℤ) ∣ j) (φ : ℝ) :
    ∑ u in range N, Real.sin (2 * Real.pi * j * u / N + φ) = 0 ∧
      ∑ u in range N, Real.cos (2 * Real.pi * j * u / N + φ) = 0 := by
  have h0 := exp_geom_sum_eq_zero N hN j hj
  have hterm : ∀ u : ℕ, Complex.exp (((2 * Real.pi * j * u / N + φ : ℝ) : ℂ) * Complex.I)
      = Complex.exp (φ * Complex.I) * Complex.exp (2 * Real.pi * Complex.I * j * u / N) := by
    intro u
    rw [← Complex.exp_add]
    congr 1
    push_cast
    ring
  have hsum : ∑ u in range N, Complex.exp (((2 * Real.pi * j * u / N + φ : ℝ) : ℂ) * Complex.I)
      = 0 := by
    simp only [hterm]
    rw [← mul_sum, h0, mul_zero]
  constructor
  · have := congrArg Complex.im hsum
    rw [Complex.im_sum] at this
    simp only [Complex.exp_ofReal_mul_I_im, Complex.zero_im] at this
    exact this
  · have := congrArg Complex.re hsum
    rw [Complex.re_sum] at this
    simp only [Complex.exp_ofReal_mul_I_re, Complex.zero_re] at this
    exact this

theorem tone_sums (N k0 k : ℕ) (A φ : ℝ) :
    ∑ n in range N, A * Real.sin (2 * Real.pi * k0 * n / N + φ) * Real.cos (2 * Real.pi * k * n / N)
      = A / 2 * (∑ n in range N, Real.sin (2 * Real.pi * ((k0 : ℤ) + k : ℤ) * n / N + φ)
          + ∑ n in range N, Real.sin (2 * Real.pi * ((k0 : ℤ) - k : ℤ) * n / N + φ)) ∧
    ∑ n in range N, A * Real.sin (2 * Real.pi * k0 * n / N + φ) * Real.sin (2 * Real.pi * k * n / N)
      = A / 2 * (∑ n in range N, Real.cos (2 * Real.pi * ((k0 : ℤ) - k : ℤ) * n / N + φ)
          - ∑ n in range N, Real.cos (2 * Real.pi * ((k0 : ℤ) + k : ℤ) * n / N + φ)) := by
  have e1 : ∀ n : ℕ, 2 * Real.pi * (((k0 : ℤ) + k : ℤ) : ℝ) * n / N + φ
      = (2 * Real.pi * k0 * n / N + φ) + 2 * Real.pi * k * n / N := by
    intro n; push_cast; ring
  have e2 : ∀ n : ℕ, 2 * Real.pi * (((k0 : ℤ) - k : ℤ) : ℝ) * n / N + φ
      = (2 * Real.pi * k0 * n / N + φ) - 2 * Real.pi * k * n / N := by
    intro n; push_cast; ring
  constructor
  · rw [← sum_add_distrib, mul_sum]
    apply sum_congr rfl
    intro n _
    rw [e1, e2, Real.sin_add (2 * Real.pi * k0 * n / N + φ), Real.sin_sub (2 * Real.pi * k0 * n / N + φ)]
    ring
  · rw [← sum_sub_distrib, mul_sum]
    apply sum_congr rfl
    intro n _
    rw [e1, e2, Real.cos_add (2 * Real.pi * k0 * n / N + φ), Real.cos_sub (2 * Real.pi * k0 * n / N + φ)]
    ring

/-- The bins of the transform of the pure tone `A * sin(2π k0 n / N + φ)` away from
`k0` and `N - k0`, and the bin `k0`. -/
theorem tone_bins (N k0 : ℕ) (hk0 : 0 < k0) (hk0' : 2 * k0 < N) (A φ : ℝ) (k : ℕ) (hk : k < N) :
    (k ≠ k0 → k + k0 ≠ N →
      ∑ n in range N, A * Real.sin (2 * Real.pi * k0 * n / N + φ) * Real.cos (2 * Real.pi * k * n / N)
        = 0 ∧
      ∑ n in range N, A * Real.sin (2 * Real.pi * k0 * n / N + φ) * Real.sin (2 * Real.pi * k * n / N)
        = 0) ∧
    (k = k0 →
      ∑ n in range N, A * Real.sin (2 * Real.pi * k0 * n / N + φ) * Real.cos (2 * Real.pi * k * n / N)
        = A * N / 2 * Real.sin φ ∧
      ∑ n in range N, A * Real.sin (2 * Real.pi * k0 * n / N + φ) * Real.sin (2 * Real.pi * k * n / N)
        = A * N / 2 * Real.cos φ) := by
  have hN : 0 < N := by omega
  obtain ⟨t1, t2⟩ := tone_sums N k0 k A φ
  have hplus : ¬ k + k0 = N → ¬ (N : ℤ) ∣ ((k0 : ℤ) + k) := by
    intro h ⟨m, hm⟩
    have hNpos : (0 : ℤ) < N := by omega
    have h1 : m = 1 := by
      by_contra hne
      rcases lt_or_gt_of_ne hne with h' | h'
      · have : (N : ℤ) * m ≤ 0 := by nlinarith
        omega
      · have : (N : ℤ) * m ≥ N * 2 := by nlinarith
        omega
    rw [h1] at hm
    omega
  have hminus : ¬ k = k0 → ¬ (N : ℤ) ∣ ((k0 : ℤ) - k) := by
    intro h ⟨m, hm⟩
    have hNpos : (0 : ℤ) < N := by omega
    have h1 : m = 0 := by
      by_contra hne
      rcases lt_or_gt_of_ne hne with h' | h'
      · have : (N : ℤ) * m ≤ -N := by nlinarith
        omega
      · have : (N : ℤ) * m ≥ N := by nlinarith
        omega
    rw [h1] at hm
    omega
  constructor
  · intro h1 h2
    obtain ⟨s1, c1⟩ := sum_sin_cos_eq_zero N hN _ (hplus h2) φ
    obtain ⟨s2, c2⟩ := sum_sin_cos_eq_zero N hN _ (hminus h1) φ
    rw [t1, t2, s1, s2, c1, c2]
    constructor <;> ring
  · intro h1
    subst h1
    obtain ⟨s1, c1⟩ := sum_sin_cos_eq_zero N hN _ (hplus (by omega)) φ
    have z : ((k : ℤ) - k : ℤ) = 0 := by ring
    rw [t1, t2, s1, c1, z]
    simp only [Int.cast_zero, mul_zero, zero_mul, zero_div, zero_add, sum_const, card_range,
      nsmul_eq_mul, sub_zero]
    constructor <;> ring

theorem arg_pos_mul_exp (R θ : ℝ) (hR : 0 < R) :
    ∃ m : ℤ, Complex.arg ((R : ℂ) * Complex.exp ((θ : ℂ) * Complex.I)) = θ + 2 * Real.pi * m := by
  set w : ℂ := (R : ℂ) * Complex.exp ((θ : ℂ) * Complex.I) with hw
  have habs : Complex.abs w = R := by
    rw [hw, map_mul, Complex.abs_ofReal, Complex.abs_exp_ofReal_mul_I, mul_one, abs_of_pos hR]
  have h1 := Complex.abs_mul_exp_arg_mul_I w
  rw [habs] at h1
  have hR' : (R : ℂ) ≠ 0 := by exact_mod_cast hR.ne'
  have h2 : Complex.exp ((Complex.arg w : ℂ) * Complex.I) = Complex.exp ((θ : ℂ) * Complex.I) :=
    mul_left_cancel₀ hR' h1
  rw [Complex.exp_eq_exp_iff_exists_int] at h2
  obtain ⟨m, hm⟩ := h2
  refine ⟨m, ?_⟩
  have h3 : ((Complex.arg w : ℝ) : ℂ) = ((θ + 2 * Real.pi * m : ℝ) : ℂ) := by
    have hI : Complex.I ≠ 0 := Complex.I_ne_zero
    have : (Complex.arg w : ℂ) * Complex.I = ((θ + 2 * Real.pi * m : ℝ) : ℂ) * Complex.I := by
      rw [hm]; push_cast; ring
    exact mul_right_cancel₀ hI this
  exact_mod_cast h3

/-- The transform of the pure tone `buffer[2n] = A * sin(2π k0 n / N + φ)`,
`buffer[2n+1] = 0`: the bins away from `k0` and `N - k0` are zero, the bin `k0`
is `(A N / 2) (sin φ - i cos φ)`. -/
theorem real_fft_tone_spec (p k0 : ℕ) (hk0 : 0 < k0) (hk0' : k0 < 2 ^ p / 2) (A φ : ℝ)
    (buffer : List ℝ) (hlen : buffer.length = 2 * 2 ^ p)
    (hre : ∀ n : ℕ, n < 2 ^ p →
      buffer[2 * n]? = some (A * Real.sin (2 * Real.pi * k0 * n / (2 ^ p : ℕ) + φ)))
    (himag : ∀ n : ℕ, n < 2 ^ p → buffer[2 * n + 1]? = some 0) :
    ∃ out, real_fft realLibm buffer (2 ^ p) = some out ∧ out.length = 2 * 2 ^ p ∧
      (∀ k : ℕ, k < 2 ^ p → k ≠ k0 → k ≠ 2 ^ p - k0 →
        out.getD (2 * k) 0 = 0 ∧ out.getD (2 * k + 1) 0 = 0) ∧
      out.getD (2 * k0) 0 = A * (2 ^ p : ℕ) / 2 * Real.sin φ ∧
      out.getD (2 * k0 + 1) 0 = -(A * (2 ^ p : ℕ) / 2 * Real.cos φ) := by
  obtain ⟨out, h1, h2, h3⟩ := real_fft_real_input_spec p buffer hlen himag
  have hval : ∀ n ∈ range (2 ^ p),
      buffer.getD (2 * n) 0 = A * Real.sin (2 * Real.pi * k0 * n / (2 ^ p : ℕ) + φ) := by
    intro n hn
    have h := hre n (mem_range.1 hn)
    rw [getElem?_eq_getD (by have := mem_range.1 hn; omega)] at h
    exact Option.some.inj h
  have hcos : ∀ k : ℕ, ∑ n in range (2 ^ p),
      buffer.getD (2 * n) 0 * Real.cos (2 * Real.pi * k * n / (2 ^ p : ℕ))
      = ∑ n in range (2 ^ p), A * Real.sin (2 * Real.pi * k0 * n / (2 ^ p : ℕ) + φ)
          * Real.cos (2 * Real.pi * k * n / (2 ^ p : ℕ)) := by
    intro k
    apply sum_congr rfl
    intro n hn
    rw [hval n hn]
  have hsin : ∀ k : ℕ, ∑ n in range (2 ^ p),
      buffer.getD (2 * n) 0 * Real.sin (2 * Real.pi * k * n / (2 ^ p : ℕ))
      = ∑ n in range (2 ^ p), A * Real.sin (2 * Real.pi * k0 * n / (2 ^ p : ℕ) + φ)
          * Real.sin (2 * Real.pi * k * n / (2 ^ p : ℕ)) := by
    intro k
    apply sum_congr rfl
    intro n hn
    rw [hval n hn]
  have hk0N : k0 < 2 ^ p := by omega
  refine ⟨out, h1, h2, ?_, ?_, ?_⟩
  · intro k hk hne1 hne2
    obtain ⟨b1, b2⟩ := (tone_bins (2 ^ p) k0 hk0 (by omega) A φ k hk).1 hne1 (by omega)
    obtain ⟨e1, e2⟩ := h3 k hk
    rw [e1, e2, hcos, hsin, b1, b2]
    exact ⟨rfl, neg_zero⟩
  · obtain ⟨b1, _⟩ := (tone_bins (2 ^ p) k0 hk0 (by omega) A φ k0 hk0N).2 rfl
    rw [(h3 k0 hk0N).1, hcos, b1]
  · obtain ⟨_, b2⟩ := (tone_bins (2 ^ p) k0 hk0 (by omega) A φ k0 hk0N).2 rfl
    rw [(h3 k0 hk0N).2, hsin, b2]

/-- Claim C11. For `N = 2 ^ p`, `0 < k0 < N / 2` (so `p ≥ 2`), every amplitude `A`
and phase `φ`: if `buffer[2n] = A * sin(2π k0 n / N + φ)` and `buffer[2n+1] = 0`
for all `n < N`, then after `real_fft` every bin `k < N` other than `k0` and
`N - k0` has `buffer[2k] = 0` and `buffer[2k+1] = 0`. -/
theorem real_fft_single_tone_other_bins (N p k0 : ℕ) (hN : N = 2 ^ p) (hk0 : 0 < k0)
    (hk0' : k0 < N / 2) (A φ : ℝ) (buffer : List ℝ) (hlen : buffer.length = 2 * N)
    (hre : ∀ n : ℕ, n < N → buffer[2 * n]? = some (A * Real.sin (2 * Real.pi * k0 * n / N + φ)))
    (himag : ∀ n : ℕ, n < N → buffer[2 * n + 1]? = some 0) :
    ∃ out, real_fft realLibm buffer N = some out ∧
      ∀ k : ℕ, k < N → k ≠ k0 → k ≠ N - k0 → out[2 * k]? = some 0 ∧ out[2 * k + 1]? = some 0 := by
  subst hN
  obtain ⟨out, h1, h2, h3, _, _⟩ := real_fft_tone_spec p k0 hk0 hk0' A φ buffer hlen hre himag
  refine ⟨out, h1, fun k hk hne1 hne2 => ?_⟩
  obtain ⟨e1, e2⟩ := h3 k hk hne1 hne2
  rw [getElem?_eq_getD (by omega), getElem?_eq_getD (by omega), e1, e2]
  exact ⟨rfl, rfl⟩

/-- Claim C11 at `N = 4`, `k0 = 1`, `A = 1`, `φ = 0`: the tone `0, 1, 0, -1`. -/
theorem real_fft_single_tone_other_bins_witness :
    ∃ out, real_fft realLibm
        [1 * Real.sin (2 * Real.pi * (1 : ℕ) * (0 : ℕ) / (4 : ℕ) + 0), 0,
         1 * Real.sin (2 * Real.pi * (1 : ℕ) * (1 : ℕ) / (4 : ℕ) + 0), 0,
         1 * Real.sin (2 * Real.pi * (1 : ℕ) * (2 : ℕ) / (4 : ℕ) + 0), 0,
         1 * Real.sin (2 * Real.pi * (1 : ℕ) * (3 : ℕ) / (4 : ℕ) + 0), 0] 4 = some out ∧
      ∀ k : ℕ, k < 4 → k ≠ 1 → k ≠ 4 - 1 → out[2 * k]? = some 0 ∧ out[2 * k + 1]? = some 0 :=
  real_fft_single_tone_other_bins 4 2 1 (by norm_num) (by norm_num) (by norm_num) 1 0 _
    (by simp) (fun n hn => by interval_cases n <;> simp)
    (fun n hn => by interval_cases n <;> simp)

theorem atan2_polar (R φ : ℝ) (hR : 0 < R) :
    ∃ m : ℤ, realLibm.atan2 (-(R * Real.cos φ)) (R * Real.sin φ)
      = φ - Real.pi / 2 + 2 * Real.pi * m := by
  obtain ⟨m, hm⟩ := arg_pos_mul_exp R (φ - Real.pi / 2) hR
  refine ⟨m, ?_⟩
  have e : (⟨R * Real.sin φ, -(R * Real.cos φ)⟩ : ℂ)
      = (R : ℂ) * Complex.exp (((φ - Real.pi / 2 : ℝ) : ℂ) * Complex.I) := by
    apply Complex.ext
    · rw [Complex.re_ofReal_mul, Complex.exp_ofReal_mul_I_re, Real.cos_sub_pi_div_two]
    · rw [Complex.im_ofReal_mul, Complex.exp_ofReal_mul_I_im, Real.sin_sub_pi_div_two]
      ring
  show Complex.arg ⟨R * Real.sin φ, -(R * Real.cos φ)⟩ = _
  rw [e, hm]

theorem tone_bin_not_degenerate (R φ : ℝ) (hR : 1e-7 ≤ R) :
    ¬ (|R * Real.sin φ| < 1e-8 ∧ |-(R * Real.cos φ)| < 1e-8) := by
  rintro ⟨h1, h2⟩
  have hsc := Real.sin_sq_add_cos_sq φ
  have a1 := abs_lt.1 h1
  have a2 := abs_lt.1 h2
  have s1 : (R * Real.sin φ) ^ 2 < (1e-8) ^ 2 := by
    apply sq_lt_sq'
    · linarith [a1.1]
    · exact a1.2
  have s2 : (R * Real.cos φ) ^ 2 < (1e-8) ^ 2 := by
    apply sq_lt_sq'
    · linarith [a2.2]
    · linarith [a2.1]
  have hsum : R ^ 2 = (R * Real.sin φ) ^ 2 + (R * Real.cos φ) ^ 2 := by
    have : (R * Real.sin φ) ^ 2 + (R * Real.cos φ) ^ 2
        = R ^ 2 * (Real.sin φ ^ 2 + Real.cos φ ^ 2) := by ring
    rw [this, hsc, mul_one]
  have hR2 : (1e-7 : ℝ) ^ 2 ≤ R ^ 2 := by
    exact pow_le_pow_left₀ (by norm_num) hR 2
  norm_num at s1 s2 hR2
  linarith

/-- Claim C12. For `N = 2 ^ p`, `0 < k0 < N / 2` (so `p ≥ 2`), every `φ` and every
amplitude `A` with `A * N / 2 ≥ 1e-7`, for the pure tone
`buffer[2n] = A * sin(2π k0 n / N + φ)`, `buffer[2n+1] = 0`, the value
`myfftPhase(real_fft(buffer), N, k0)` is congruent modulo 360 to
`φ * 180 / π - 90 + 137.1126`. -/
theorem single_tone_phase (N p k0 : ℕ) (hN : N = 2 ^ p) (hk0 : 0 < k0)
    (hk0' : k0 < N / 2) (A φ : ℝ) (hA : A * N / 2 ≥ 1e-7) (buffer : List ℝ)
    (hlen : buffer.length = 2 * N)
    (hre : ∀ n : ℕ, n < N → buffer[2 * n]? = some (A * Real.sin (2 * Real.pi * k0 * n / N + φ)))
    (himag : ∀ n : ℕ, n < N → buffer[2 * n + 1]? = some 0) :
    ∃ out v, real_fft realLibm buffer N = some out ∧
      myfftPhase realLibm out N (k0 : Int) = some v ∧
      ∃ z : ℤ, v = φ * (180 / Real.pi) - 90 + 137.1126 + 360 * z := by
  subst hN
  obtain ⟨out, h1, h2, _, b1, b2⟩ := real_fft_tone_spec p k0 hk0 hk0' A φ buffer hlen hre himag
  set R : ℝ := A * (2 ^ p : ℕ) / 2 with hRdef
  have hR : (1e-7 : ℝ) ≤ R := hA
  have hRpos : 0 < R := lt_of_lt_of_le (by norm_num) hR
  have hnd := tone_bin_not_degenerate R φ hR
  have hbin := myfftPhase_of_bin out (2 ^ p) k0 hk0' (R * Real.sin φ) (-(R * Real.cos φ))
    (by rw [getElem?_eq_getD (by omega), b1]) (by rw [getElem?_eq_getD (by omega), b2])
  rw [if_neg hnd] at hbin
  obtain ⟨m, hm⟩ := atan2_polar R φ hRpos
  refine ⟨out, _, h1, hbin, ?_⟩
  have hpi := Real.pi_ne_zero
  have hdeg : realLibm.atan2 (-(R * Real.cos φ)) (R * Real.sin φ) * realLibm.RAD2DEG
      = φ * (180 / Real.pi) - 90 + 360 * m := by
    rw [hm]
    show (φ - Real.pi / 2 + 2 * Real.pi * m) * (180 / Real.pi) = _
    field_simp
    ring
  rw [hdeg]
  unfold add360_if_negative
  split_ifs
  · exact ⟨m + 1, by push_cast; ring⟩
  · exact ⟨m, by ring⟩

/-- Claim C12 at `N = 4`, `k0 = 1`, `A = 1`, `φ = 0`. -/
theorem single_tone_phase_witness :
    ∃ out v, real_fft realLibm
        [1 * Real.sin (2 * Real.pi * (1 : ℕ) * (0 : ℕ) / (4 : ℕ) + 0), 0,
         1 * Real.sin (2 * Real.pi * (1 : ℕ) * (1 : ℕ) / (4 : ℕ) + 0), 0,
         1 * Real.sin (2 * Real.pi * (1 : ℕ) * (2 : ℕ) / (4 : ℕ) + 0), 0,
         1 * Real.sin (2 * Real.pi * (1 : ℕ) * (3 : ℕ) / (4 : ℕ) + 0), 0] 4 = some out ∧
      myfftPhase realLibm out 4 ((1 : ℕ) : Int) = some v ∧
      ∃ z : ℤ, v = 0 * (180 / Real.pi) - 90 + 137.1126 + 360 * z :=
  single_tone_phase 4 2 1 (by norm_num) (by norm_num) (by norm_num) 1 0 (by norm_num) _
    (by simp) (fun n hn => by interval_cases n <;> simp)
    (fun n hn => by interval_cases n <;> simp)

theorem readAt_eq_none_iff {α : Type} (data : List α) (i : ℕ) :
    readAt data i = none ↔ data.length ≤ i := by
  unfold readAt
  exact List.getElem?_eq_none_iff

theorem writeAt_eq_none_iff {α : Type} (data : List α) (i : ℕ) (v : α) :
    writeAt data i v = none ↔ data.length ≤ i := by
  unfold writeAt
  by_cases h : i < data.length
  · rw [if_pos h]
    constructor
    · intro hc; cases hc
    · intro hc; omega
  · rw [if_neg h]
    constructor
    · intro _; omega
    · intro _; rfl

theorem fft_body_eq_sections {α : Type} [Field α] (sin : α → α) (c : α) (data : List α)
    (nn : ℕ) :
    fft_body sin c data nn
      = (bit_reversal_section data nn).bind
          (fun d => danielson_lanczos sin c (nn <<< 1) (nn <<< 1 + 1) 2 d) := rfl

theorem shiftLeft_one_pow (p : ℕ) : 2 ^ p <<< 1 = 2 * 2 ^ p := by
  simp [Nat.shiftLeft_eq]; ring

theorem real_fft_sections (p : ℕ) (buffer : List ℝ) (hlen : buffer.length = 2 * 2 ^ p) :
    ∃ d1 out, bit_reversal_section buffer (2 ^ p) = some d1 ∧ d1.length = 2 * 2 ^ p ∧
      danielson_lanczos realLibm.sin (-2.0 * realLibm.PI) (2 ^ p <<< 1) (2 ^ p <<< 1 + 1) 2 d1
        = some out ∧ out.length = 2 * 2 ^ p ∧ real_fft realLibm buffer (2 ^ p) = some out := by
  obtain ⟨d1, hd1, hlen1, _⟩ := bit_reversal_spec p buffer hlen
  have hb : bit_reversal_section buffer (2 ^ p) = some d1 := by
    unfold bit_reversal_section
    simp only [shiftLeft_one_pow]
    exact hd1
  obtain ⟨out, h1, h2, _⟩ := real_fft_spec p buffer hlen
  refine ⟨d1, out, hb, hlen1, ?_, h2, h1⟩
  have h := h1
  unfold real_fft at h
  rw [fft_body_eq_sections, hb] at h
  exact h

/-- Claim C14. For `N = 2 ^ p` and a buffer of exactly `2 * N` elements, no array
access of `real_fft` is outside the array: the bit-reversal loop and the
butterfly loops both return normally, where a read or a write returns `none`
exactly when its index is not below the length of the array. -/
theorem real_fft_in_bounds (N p : ℕ) (hN : N = 2 ^ p) (buffer : List ℝ)
    (hlen : buffer.length = 2 * N) :
    (∃ d1 out, bit_reversal_section buffer N = some d1 ∧ d1.length = 2 * N ∧
      danielson_lanczos realLibm.sin (-2.0 * realLibm.PI) (N <<< 1) (N <<< 1 + 1) 2 d1
        = some out ∧ out.length = 2 * N ∧ real_fft realLibm buffer N = some out) ∧
    (∀ (data : List ℝ) (i : ℕ), readAt data i = none ↔ data.length ≤ i) ∧
    (∀ (data : List ℝ) (i : ℕ) (v : ℝ), writeAt data i v = none ↔ data.length ≤ i) := by
  subst hN
  exact ⟨real_fft_sections p buffer hlen, readAt_eq_none_iff, writeAt_eq_none_iff⟩

/-- Claim C14 at `N = 2`, buffer `[1, 5, 2, 7]`: the transform returns. -/
theorem real_fft_in_bounds_witness :
    ∃ d1 out, bit_reversal_section ([1, 5, 2, 7] : List ℝ) 2 = some d1 ∧ d1.length = 2 * 2 ∧
      danielson_lanczos realLibm.sin (-2.0 * realLibm.PI) (2 <<< 1) (2 <<< 1 + 1) 2 d1
        = some out ∧ out.length = 2 * 2 ∧ real_fft realLibm [1, 5, 2, 7] 2 = some out :=
  (real_fft_in_bounds 2 1 (by norm_num) [1, 5, 2, 7] (by simp)).1

theorem apply_flattop_loop_spec {α : Type} [LinearOrderedField α] (window : List α)
    (num_points : Int) (r : ℕ) :
    ∀ (n fuel : ℕ) (signal : List α), n + r = toULong num_points → r < fuel →
    2 * toULong num_points ≤ signal.length → toULong num_points ≤ window.length →
    ∃ out, apply_flattop_loop window num_points fuel n signal = some out ∧
      out.length = signal.length ∧
      ∀ i, out.getD i 0 =
        if i % 2 = 0 ∧ n ≤ i / 2 ∧ i / 2 < toULong num_points
        then signal.getD i 0 * window.getD (i / 2) 0 else signal.getD i 0 := by
  induction r with
  | zero =>
    intro n fuel signal hn hf _ _
    obtain ⟨fuel, rfl⟩ : ∃ f, fuel = f + 1 := ⟨fuel - 1, by omega⟩
    unfold apply_flattop_loop
    rw [if_neg (by omega)]
    refine ⟨signal, rfl, rfl, fun i => ?_⟩
    rw [if_neg (by omega)]
  | succ r ih =>
    intro n fuel signal hn hf hs hw
    obtain ⟨fuel, rfl⟩ : ∃ f, fuel = f + 1 := ⟨fuel - 1, by omega⟩
    unfold apply_flattop_loop
    rw [if_pos (by omega), readAt_of_lt (by omega), readAt_of_lt (by omega)]
    simp only [Option.bind_eq_bind, Option.some_bind]
    rw [writeAt_of_lt _ (by omega)]
    obtain ⟨out, h1, h2, h3⟩ := ih (n + 1) fuel
      (signal.set (n * 2) (signal.getD (n * 2) 0 * window.getD n 0)) (by omega) (by omega)
      (by simpa using hs) hw
    simp only [Option.some_bind, h1]
    refine ⟨out, rfl, by simpa using h2, fun i => ?_⟩
    rw [h3, getD_set_eq]
    by_cases hi : n * 2 = i
    · subst hi
      have e : n * 2 / 2 = n := by omega
      rw [if_neg (by omega), if_pos ⟨rfl, by omega⟩, if_pos ⟨by omega, by omega, by omega⟩, e]
    · have hset : (if n * 2 = i ∧ n * 2 < signal.length
          then signal.getD (n * 2) 0 * window.getD n 0 else signal.getD i 0)
          = signal.getD i 0 := if_neg (fun h => hi h.1)
      rw [hset]
      by_cases hc : i % 2 = 0 ∧ n + 1 ≤ i / 2 ∧ i / 2 < toULong num_points
      · rw [if_pos hc, if_pos ⟨hc.1, by omega, hc.2.2⟩]
      · rw [if_neg hc, if_neg (by omega)]

/-- Claim C15. For every signal buffer of `2 * num_points` elements and every
window of `num_points` coefficients, `apply_flattop_window` leaves every imaginary
slot unchanged (`out[2n+1] = in[2n+1]`) and sets every real slot to
`out[2n] = in[2n] * window[n]`, for all `n < num_points`. -/
theorem apply_flattop_window_spec {α : Type} [LinearOrderedField α] (signal window : List α)
    (num_points : ℕ) (hint : num_points < 2 ^ 31) (hs : signal.length = 2 * num_points)
    (hw : window.length = num_points) :
    ∃ out, apply_flattop_window signal window (num_points : Int) = some out ∧
      out.length = signal.length ∧
      ∀ n : ℕ, n < num_points →
        out[2 * n + 1]? = signal[2 * n + 1]? ∧
        ∃ s w, signal[2 * n]? = some s ∧ window[n]? = some w ∧ out[2 * n]? = some (s * w) := by
  have hu : toULong (num_points : Int) = num_points := by
    rw [toULong_of_nonneg (by omega) (by omega)]; rfl
  obtain ⟨out, h1, h2, h3⟩ := apply_flattop_loop_spec window (num_points : Int)
    (toULong (num_points : Int)) 0 (toULong (num_points : Int) + 1) signal (by omega) (by omega)
    (by omega) (by omega)
  refine ⟨out, h1, h2, fun n hn => ?_⟩
  have g : ∀ (l : List α) (i : ℕ), i < l.length → l[i]? = some (l.getD i 0) := by
    intro l i hi
    simp [List.getD, List.getElem?_eq_getElem hi]
  constructor
  · rw [g out _ (by omega), g signal _ (by omega), h3, if_neg (by omega)]
  · refine ⟨signal.getD (2 * n) 0, window.getD n 0, g signal _ (by omega), g window _ (by omega), ?_⟩
    have e : 2 * n / 2 = n := by omega
    rw [g out _ (by omega), h3, if_pos ⟨by omega, by omega, by omega⟩, e]

/-- Claim C15 on the signal `[1, 5, 2, 6]` and the window `[10, 20]`. -/
theorem apply_flattop_window_spec_witness :
    ∃ out, apply_flattop_window ([1, 5, 2, 6] : List ℚ) [10, 20] ((2 : ℕ) : Int) = some out ∧
      out.length = ([1, 5, 2, 6] : List ℚ).length ∧
      ∀ n : ℕ, n < 2 →
        out[2 * n + 1]? = ([1, 5, 2, 6] : List ℚ)[2 * n + 1]? ∧
        ∃ s w, ([1, 5, 2, 6] : List ℚ)[2 * n]? = some s ∧ ([10, 20] : List ℚ)[n]? = some w ∧
          out[2 * n]? = some (s * w) :=
  apply_flattop_window_spec [1, 5, 2, 6] [10, 20] 2 (by norm_num) rfl rfl

theorem bitrev_testBit (p q i : ℕ) (hi : i < p) :
    (bitrev p q).testBit i = q.testBit (p - 1 - i) := by
  induction p generalizing q i with
  | zero => omega
  | succ p ih =>
    have hlt := bitrev_lt p (q / 2)
    have e : bitrev (p + 1) q = 2 ^ p * (q % 2) + bitrev p (q / 2) := by
      rw [bitrev, mul_comm]
    rw [e, Nat.testBit_mul_pow_two_add _ hlt]
    by_cases h : i < p
    · rw [if_pos h, ih (q / 2) i h]
      have e2 : p + 1 - 1 - i = (p - 1 - i) + 1 := by omega
      rw [e2, Nat.testBit_succ]
    · rw [if_neg h]
      have e2 : i = p := by omega
      subst e2
      have e3 : i + 1 - 1 - i = 0 := by omega
      rw [e3, Nat.sub_self, Nat.testBit_zero, Nat.testBit_zero, Nat.mod_mod]

/-- Claim C16. For `N = 2 ^ p` and every buffer of `2 * N` elements, after the
bit-reversal section of `real_fft` the pair at position `q` is the original pair
at position `bitrev p q`, for every `q < N`, where bit `i` of `bitrev p q` is bit
`p - 1 - i` of `q` for every `i < p` and `bitrev p q < 2 ^ p`. -/
theorem bit_reversal_section_spec (N p : ℕ) (hN : N = 2 ^ p) (buffer : List ℝ)
    (hlen : buffer.length = 2 * N) :
    ∃ out, bit_reversal_section buffer N = some out ∧ out.length = 2 * N ∧
      ∀ q : ℕ, q < N →
        bitrev p q < N ∧ (∀ i : ℕ, i < p → (bitrev p q).testBit i = q.testBit (p - 1 - i)) ∧
        out[2 * q]? = buffer[2 * bitrev p q]? ∧
        out[2 * q + 1]? = buffer[2 * bitrev p q + 1]? := by
  subst hN
  obtain ⟨out, h1, h2, h3⟩ := bit_reversal_spec p buffer hlen
  have hb : bit_reversal_section buffer (2 ^ p) = some out := by
    unfold bit_reversal_section
    simp only [shiftLeft_one_pow]
    exact h1
  refine ⟨out, hb, h2, fun q hq => ?_⟩
  have hr := bitrev_lt p q
  have hc := h3 q hq
  refine ⟨hr, fun i hi => bitrev_testBit p q i hi, ?_, ?_⟩
  · rw [getElem?_eq_getD (by omega), getElem?_eq_getD (by omega)]
    have := congrArg Complex.re hc
    rw [cbuf_re, cbuf_re] at this
    rw [this]
  · rw [getElem?_eq_getD (by omega), getElem?_eq_getD (by omega)]
    have := congrArg Complex.im hc
    rw [cbuf_im, cbuf_im] at this
    rw [this]

/-- Claim C16 at `N = 4`: the pairs `1` and `2` are exchanged. -/
theorem bit_reversal_section_spec_witness :
    ∃ out, bit_reversal_section ([0, 10, 1, 11, 2, 12, 3, 13] : List ℝ) 4 = some out ∧
      out.length = 2 * 4 ∧
      ∀ q : ℕ, q < 4 →
        bitrev 2 q < 4 ∧ (∀ i : ℕ, i < 2 → (bitrev 2 q).testBit i = q.testBit (2 - 1 - i)) ∧
        out[2 * q]? = ([0, 10, 1, 11, 2, 12, 3, 13] : List ℝ)[2 * bitrev 2 q]? ∧
        out[2 * q + 1]? = ([0, 10, 1, 11, 2, 12, 3, 13] : List ℝ)[2 * bitrev 2 q + 1]? :=
  bit_reversal_section_spec 4 2 (by norm_num) _ (by simp)

/-! ## The twiddle recurrence and the passes -/

theorem twiddle_for_succ {α : Type} [Field α] (n mmax istep : ℕ) (wpr wpi : α) (fuel m : ℕ)
    (wr wi : α) (data : List α) :
    twiddle_for n mmax istep wpr wpi (fuel + 1) m wr wi data =
      if m < mmax then
        (butterfly_for n mmax istep wr wi (n + 1) m data).bind (fun d =>
          twiddle_for n mmax istep wpr wpi fuel (m + 2)
            (twiddle_step wpr wpi (wr, wi)).1 (twiddle_step wpr wpi (wr, wi)).2 d)
      else some data := rfl

theorem twiddle_iterate (θ : ℝ) (t : ℕ) :
    (twiddle_step (-2.0 * Real.sin (0.5 * θ) * Real.sin (0.5 * θ)) (Real.sin θ))^[t] (1.0, 0.0)
      = (Real.cos (t * θ), Real.sin (t * θ)) := by
  induction t with
  | zero => norm_num
  | succ t ih =>
    rw [Function.iterate_succ_apply', ih]
    have h1 : θ = 2 * (0.5 * θ) := by norm_num; ring
    have h2 := Real.cos_two_mul (0.5 * θ)
    have h3 := Real.cos_sq' (0.5 * θ)
    rw [← h1] at h2
    have hwpr : -2.0 * Real.sin (0.5 * θ) * Real.sin (0.5 * θ) = Real.cos θ - 1 := by
      rw [h2, h3]; norm_num; ring
    have e : ((t + 1 : ℕ) : ℝ) * θ = t * θ + θ := by push_cast; ring
    rw [hwpr, e, Real.cos_add, Real.sin_add]
    unfold twiddle_step
    simp only [Prod.mk.injEq]
    constructor <;> ring

/-- Claim C17. In a pass of `real_fft` with block size `mmax` and
`theta = -2π / mmax`, the loop on `m` continues with the pair
`twiddle_step wpr wpi (wr, wi)`, that is `wr * wpr - wi * wpi + wr` and
`wi * wpr + wr * wpi + wi`, and with `wpr = -2 sin²(theta / 2)`,
`wpi = sin(theta)` the pair that starts at `(1, 0)` is
`(cos(t * theta), sin(t * theta))` after `t` updates, for every `t`. -/
theorem twiddle_recurrence (mmax t : ℕ) :
    (∀ (n istep fuel m : ℕ) (wpr wpi wr wi : ℝ) (data : List ℝ),
      twiddle_for n mmax istep wpr wpi (fuel + 1) m wr wi data =
        if m < mmax then
          (butterfly_for n mmax istep wr wi (n + 1) m data).bind (fun d =>
            twiddle_for n mmax istep wpr wpi fuel (m + 2)
              (wr * wpr - wi * wpi + wr) (wi * wpr + wr * wpi + wi) d)
        else some data) ∧
    (twiddle_step
        (-2.0 * realLibm.sin (0.5 * (-2.0 * realLibm.PI / (mmax : ℝ)))
          * realLibm.sin (0.5 * (-2.0 * realLibm.PI / (mmax : ℝ))))
        (realLibm.sin (-2.0 * realLibm.PI / (mmax : ℝ))))^[t] (1.0, 0.0)
      = (Real.cos (t * (-2 * Real.pi / (mmax : ℝ))), Real.sin (t * (-2 * Real.pi / (mmax : ℝ)))) := by
  refine ⟨fun n istep fuel m wpr wpi wr wi data => rfl, ?_⟩
  have h := twiddle_iterate (-2.0 * Real.pi / (mmax : ℝ)) t
  have e : (-2.0 : ℝ) = -2 := by norm_num
  rw [e] at h
  simp only [realLibm]
  rw [e]
  exact h

theorem danielson_lanczos_trace_fst {α : Type} [Field α] (sin : α → α) (c : α) (n fuel : ℕ) :
    ∀ (mmax : ℕ) (data : List α),
      (danielson_lanczos_trace sin c n fuel mmax data).map Prod.fst
        = danielson_lanczos sin c n fuel mmax data := by
  induction fuel with
  | zero => intro mmax data; rfl
  | succ fuel ih =>
    intro mmax data
    unfold danielson_lanczos_trace danielson_lanczos
    by_cases h : n > mmax
    · rw [if_pos h, if_pos h]
      simp only [Option.bind_eq_bind]
      rcases twiddle_for n mmax (mmax <<< 1) (-2.0 * sin (0.5 * (c / (mmax : α)))
          * sin (0.5 * (c / (mmax : α)))) (sin (c / (mmax : α))) (mmax + 1) 1 1.0 0.0 data
        with _ | d
      · rfl
      · simp only [Option.some_bind]
        rw [← ih (mmax <<< 1) d]
        rcases danielson_lanczos_trace sin c n fuel (mmax <<< 1) d with _ | ⟨a, b, e⟩
        · rfl
        · rfl
    · rw [if_neg h, if_neg h]
      rfl

theorem danielson_lanczos_trace_spec (c : ℝ) (p r : ℕ) :
    ∀ (s fuel : ℕ) (d : List ℝ), s + r = p → r < fuel → d.length = 2 * 2 ^ p →
    ∃ out, danielson_lanczos_trace Real.sin c (2 * 2 ^ p) fuel (2 * 2 ^ s) d
        = some (out, (List.range r).map (fun i => 2 * 2 ^ (s + i)), 2 * 2 ^ p) ∧
      out.length = 2 * 2 ^ p := by
  induction r with
  | zero =>
    intro s fuel d hs hf hlen
    obtain ⟨fuel, rfl⟩ : ∃ f, fuel = f + 1 := ⟨fuel - 1, by omega⟩
    have hsp : s = p := by omega
    subst hsp
    unfold danielson_lanczos_trace
    rw [if_neg (by omega)]
    exact ⟨d, rfl, hlen⟩
  | succ r ih =>
    intro s fuel d hs hf hlen
    obtain ⟨fuel, rfl⟩ : ∃ f, fuel = f + 1 := ⟨fuel - 1, by omega⟩
    have hp : 2 ^ p = 2 ^ s * (2 * 2 ^ r) := by
      rw [← hs, pow_add, pow_succ]; ring
    have hh : 0 < 2 ^ s := by positivity
    have hlt : 2 * 2 ^ p > 2 * 2 ^ s := by
      have : 0 < 2 ^ r := by positivity
      have : 2 ^ s * 1 < 2 ^ s * (2 * 2 ^ r) := Nat.mul_lt_mul_of_pos_left (by omega) hh
      omega
    obtain ⟨hwpr, hwpi⟩ := om_re_im c s
    obtain ⟨d1, hd1, hlen1, _⟩ := pass_spec (2 ^ s) (2 ^ r) hh (om c (s + 1)) _ _ hwpr hwpi d
      (by rw [← hp]; exact hlen)
    rw [← hp] at hd1 hlen1
    obtain ⟨out, hout, hlen'⟩ := ih (s + 1) fuel d1 (by omega) (by omega) hlen1
    unfold danielson_lanczos_trace
    rw [if_pos hlt]
    have esh : (2 * 2 ^ s) <<< 1 = 2 * (2 * 2 ^ s) := by
      simp [Nat.shiftLeft_eq]; ring
    have e10 : (1.0 : ℝ) = 1 := by norm_num
    have e00 : (0.0 : ℝ) = 0 := by norm_num
    simp only [Option.bind_eq_bind, esh, e10, e00, hd1, Option.some_bind]
    have e2 : 2 * (2 * 2 ^ s) = 2 * 2 ^ (s + 1) := by rw [pow_succ]; ring
    rw [e2, hout]
    refine ⟨out, ?_, hlen'⟩
    simp only [Option.some_bind, List.range_succ_eq_map, List.map_cons, List.map_map,
      add_zero]
    congr 4
    apply List.map_congr_left
    intro i _
    simp only [Function.comp_apply, Nat.succ_eq_add_one]
    congr 2
    omega

theorem fft_body_passes (c : ℝ) (p : ℕ) (buffer : List ℝ) (hlen : buffer.length = 2 * 2 ^ p) :
    ∃ d1 out, bit_reversal_section buffer (2 ^ p) = some d1 ∧
      danielson_lanczos_trace Real.sin c (2 ^ p <<< 1) (2 ^ p <<< 1 + 1) 2 d1
        = some (out, (List.range p).map (fun i => 2 ^ (i + 1)), 2 * 2 ^ p) ∧
      fft_body Real.sin c buffer (2 ^ p) = some out := by
  obtain ⟨d1, hd1, hlen1, _⟩ := bit_reversal_spec p buffer hlen
  have hb : bit_reversal_section buffer (2 ^ p) = some d1 := by
    unfold bit_reversal_section
    simp only [shiftLeft_one_pow]
    exact hd1
  obtain ⟨out, hout, _⟩ := danielson_lanczos_trace_spec c p p 0 (2 * 2 ^ p + 1) d1 (by omega)
    (by have := Nat.lt_two_pow p; omega) hlen1
  have hlist : (List.range p).map (fun i => 2 * 2 ^ (0 + i))
      = (List.range p).map (fun i => 2 ^ (i + 1)) := by
    apply List.map_congr_left
    intro i _
    rw [zero_add, pow_succ, mul_comm]
  rw [hlist] at hout
  have hout' : danielson_lanczos_trace Real.sin c (2 ^ p <<< 1) (2 ^ p <<< 1 + 1) 2 d1
      = some (out, (List.range p).map (fun i => 2 ^ (i + 1)), 2 * 2 ^ p) := by
    rw [shiftLeft_one_pow]
    simpa using hout
  refine ⟨d1, out, hb, hout', ?_⟩
  rw [fft_body_eq_sections, hb, Option.some_bind, ← danielson_lanczos_trace_fst, hout']
  rfl

/-- Claim C18. For `N = 2 ^ p` with `p ≥ 0`, `real_fft` terminates: its
Danielson-Lanczos loop executes exactly `p` passes, with `mmax` taking the values
`2, 4, ..., N`, and on exit `mmax` equals `2 * N`; this holds for the copy of
`calculatePhaseFromFFT_TEST_ME.c` and for the copy of `calculatePhaseFromFFT.c`. -/
theorem real_fft_passes (N p : ℕ) (hN : N = 2 ^ p) (buffer : List ℝ)
    (hlen : buffer.length = 2 * N) :
    (∃ d1 out, bit_reversal_section buffer N = some d1 ∧
      danielson_lanczos_trace realLibm.sin (-2.0 * realLibm.PI) (N <<< 1) (N <<< 1 + 1) 2 d1
        = some (out, (List.range p).map (fun i => 2 ^ (i + 1)), 2 * N) ∧
      real_fft realLibm buffer N = some out) ∧
    (∃ d1 out, bit_reversal_section buffer N = some d1 ∧
      danielson_lanczos_trace realLibm.sin (-6.283185307179586476925286766559) (N <<< 1)
          (N <<< 1 + 1) 2 d1
        = some (out, (List.range p).map (fun i => 2 ^ (i + 1)), 2 * N) ∧
      CalculatePhaseFromFFT.real_fft realLibm buffer N = some out) ∧
    ((List.range p).map (fun i => 2 ^ (i + 1))).length = p := by
  subst hN
  exact ⟨fft_body_passes _ p buffer hlen, fft_body_passes _ p buffer hlen, by simp⟩

/-- Claim C18 at `N = 4`: two passes, `mmax = 2, 4`, exit at `mmax = 8`. -/
theorem real_fft_passes_witness :
    ∃ d1 out, bit_reversal_section ([1, 0, 2, 0, 3, 0, 4, 0] : List ℝ) 4 = some d1 ∧
      danielson_lanczos_trace realLibm.sin (-2.0 * realLibm.PI) (4 <<< 1) (4 <<< 1 + 1) 2 d1
        = some (out, (List.range 2).map (fun i => 2 ^ (i + 1)), 2 * 4) ∧
      real_fft realLibm [1, 0, 2, 0, 3, 0, 4, 0] 4 = some out :=
  (real_fft_passes 4 2 (by norm_num) [1, 0, 2, 0, 3, 0, 4, 0] (by simp)).1

/-- Claim C19. The copies of `real_fft` in the three files compute the same
function: with `PI` the value of the macro, for every `nn` and every buffer the
`real_fft` of `calculatePhaseFromFFT.c`
(`theta = -6.283185307179586476925286766559 / mmax`), of
`calculatePhaseFromFFT_TEST_ME.c` and of `treceriTestPhaseComputing.c`
(`theta = -2.0 * PI / mmax`) return the same buffer. -/
theorem real_fft_copies_agree {α : Type} [LinearOrderedField α] (L : Libm α)
    (hPI : L.PI = PI_MACRO) (data : List α) (nn : ℕ) :
    CalculatePhaseFromFFT.real_fft L data nn = real_fft L data nn ∧
      TreceriTestPhaseComputing.real_fft L data nn = real_fft L data nn := by
  refine ⟨?_, rfl⟩
  unfold CalculatePhaseFromFFT.real_fft real_fft
  have e : (-6.283185307179586476925286766559 : α) = -2.0 * L.PI := by
    rw [hPI]
    unfold PI_MACRO
    norm_num
  rw [e]

/-- Claim C19 over the rationals, `PI` the value of the macro, buffer `[1, 0, 2, 0]`. -/
theorem real_fft_copies_agree_witness :
    CalculatePhaseFromFFT.real_fft
        (⟨PI_MACRO, PI_MACRO, 57.295779513082320876798154814105, fun x => x, fun x => x,
          fun y _ => y, fun x => x, fun x => x⟩ : Libm ℚ) [1, 0, 2, 0] 2
      = real_fft (⟨PI_MACRO, PI_MACRO, 57.295779513082320876798154814105, fun x => x, fun x => x,
          fun y _ => y, fun x => x, fun x => x⟩ : Libm ℚ) [1, 0, 2, 0] 2 ∧
    TreceriTestPhaseComputing.real_fft
        (⟨PI_MACRO, PI_MACRO, 57.295779513082320876798154814105, fun x => x, fun x => x,
          fun y _ => y, fun x => x, fun x => x⟩ : Libm ℚ) [1, 0, 2, 0] 2
      = real_fft (⟨PI_MACRO, PI_MACRO, 57.295779513082320876798154814105, fun x => x, fun x => x,
          fun y _ => y, fun x => x, fun x => x⟩ : Libm ℚ) [1, 0, 2, 0] 2 :=
  real_fft_copies_agree _ rfl [1, 0, 2, 0] 2

/-- Claim C21. With `N = 2048` and `sampleRate = 11718.75` as exact rationals, the
frequency of bin 9, `9 * sampleRate / N`, is `51.4984130859375` Hz, the phase
shift `360 * (fbin - 50) * N / sampleRate` over the observation window is
`94.272` degrees, and for every `φ` the corrected phase `(φ - 94.272 + 360) mod 360`
equals `(φ + 265.728) mod 360`. -/
theorem bin9_phase_correction :
    (TreceriTestPhaseComputing.bin_frequency 9 : ℚ) = 51.4984130859375 ∧
    (TreceriTestPhaseComputing.phase_shift_deg 9 : ℚ) = 94.272 ∧
    (TreceriTestPhaseComputing.phase_shift_deg 9 : ℝ) = 94.272 ∧
    ∀ φ : ℝ, mod360 (φ - TreceriTestPhaseComputing.phase_shift_deg 9 + 360)
      = mod360 (φ + 265.728) := by
  have h1 : (TreceriTestPhaseComputing.bin_frequency 9 : ℚ) = 51.4984130859375 := by
    unfold TreceriTestPhaseComputing.bin_frequency TreceriTestPhaseComputing.sample_rate
      TreceriTestPhaseComputing.num_points
    norm_num
  have h2 : (TreceriTestPhaseComputing.phase_shift_deg 9 : ℚ) = 94.272 := by
    unfold TreceriTestPhaseComputing.phase_shift_deg TreceriTestPhaseComputing.bin_frequency
      TreceriTestPhaseComputing.sample_rate TreceriTestPhaseComputing.num_points
      TreceriTestPhaseComputing.frequency
    norm_num
  have h3 : (TreceriTestPhaseComputing.phase_shift_deg 9 : ℝ) = 94.272 := by
    unfold TreceriTestPhaseComputing.phase_shift_deg TreceriTestPhaseComputing.bin_frequency
      TreceriTestPhaseComputing.sample_rate TreceriTestPhaseComputing.num_points
      TreceriTestPhaseComputing.frequency
    norm_num
  refine ⟨h1, h2, h3, fun φ => ?_⟩
  rw [h3]
  congr 1
  norm_num
  ring

/-! ## The transform of a complex signal -/

/-- Claim C22. The zeroed-imaginary precondition is not needed: for `N = 2 ^ p` and
every buffer of `2 * N` reals read as the complex numbers
`z[n] = buffer[2n] + i * buffer[2n+1]`, `real_fft` leaves in bin `k` the complex
transform `∑ z[n] * exp(-2πi k n / N)`, for every `k < N`. -/
theorem real_fft_complex_dft (N p : ℕ) (hN : N = 2 ^ p) (buffer : List ℝ)
    (hlen : buffer.length = 2 * N) :
    ∃ out, real_fft realLibm buffer N = some out ∧ out.length = 2 * N ∧
      ∀ k : ℕ, k < N →
        out[2 * k]? = some (dft N
          (fun n => (⟨buffer.getD (2 * n) 0, buffer.getD (2 * n + 1) 0⟩ : ℂ)) k).re ∧
        out[2 * k + 1]? = some (dft N
          (fun n => (⟨buffer.getD (2 * n) 0, buffer.getD (2 * n + 1) 0⟩ : ℂ)) k).im := by
  subst hN
  obtain ⟨out, h1, h2, h3⟩ := real_fft_spec p buffer hlen
  refine ⟨out, h1, h2, fun k hk => ?_⟩
  have hq := h3 k hk
  have e : (fun n => (⟨buffer.getD (2 * n) 0, buffer.getD (2 * n + 1) 0⟩ : ℂ)) = cbuf buffer := rfl
  rw [e, ← hq, getElem?_eq_getD (by omega), getElem?_eq_getD (by omega)]
  exact ⟨rfl, rfl⟩

/-- Claim C22 at `N = 2`, buffer `[1, 5, 2, 7]`. -/
theorem real_fft_complex_dft_witness :
    ∃ out, real_fft realLibm [1, 5, 2, 7] 2 = some out ∧ out.length = 2 * 2 ∧
      ∀ k : ℕ, k < 2 →
        out[2 * k]? = some (dft 2
          (fun n => (⟨([1, 5, 2, 7] : List ℝ).getD (2 * n) 0,
            ([1, 5, 2, 7] : List ℝ).getD (2 * n + 1) 0⟩ : ℂ)) k).re ∧
        out[2 * k + 1]? = some (dft 2
          (fun n => (⟨([1, 5, 2, 7] : List ℝ).getD (2 * n) 0,
            ([1, 5, 2, 7] : List ℝ).getD (2 * n + 1) 0⟩ : ℂ)) k).im :=
  real_fft_complex_dft 2 1 (by norm_num) [1, 5, 2, 7] (by simp)

theorem list_eq_of_cbuf_eq (N : ℕ) (u v : List ℝ) (hu : u.length = 2 * N)
    (hv : v.length = 2 * N) (h : ∀ q, q < N → cbuf u q = cbuf v q) : u = v := by
  apply List.ext_getElem?
  intro i
  by_cases hi : i < 2 * N
  · rw [getElem?_eq_getD (by omega), getElem?_eq_getD (by omega)]
    congr 1
    have hc := h (i / 2) (by omega)
    rcases Nat.mod_two_eq_zero_or_one i with h0 | h1
    · have e : i = 2 * (i / 2) := by omega
      have := congrArg Complex.re hc
      rw [cbuf_re, cbuf_re, ← e] at this
      exact this
    · have e : i = 2 * (i / 2) + 1 := by omega
      have := congrArg Complex.im hc
      rw [cbuf_im, cbuf_im, ← e] at this
      exact this
  · rw [List.getElem?_eq_none (by omega), List.getElem?_eq_none (by omega)]

theorem getD_zipWith_lin (a b : ℝ) (x y : List ℝ) (hxy : x.length = y.length) (i : ℕ) :
    (List.zipWith (fun u v => a * u + b * v) x y).getD i 0
      = a * x.getD i 0 + b * y.getD i 0 := by
  by_cases hi : i < x.length
  · have hy : i < y.length := by omega
    simp [List.getD, List.getElem?_zipWith, List.getElem?_eq_getElem hi,
      List.getElem?_eq_getElem hy]
  · have h1 : x.length ≤ i := by omega
    have h2 : y.length ≤ i := by omega
    simp [List.getD, List.getElem?_zipWith, List.getElem?_eq_none h1,
      List.getElem?_eq_none h2]

theorem cbuf_zipWith_lin (a b : ℝ) (x y : List ℝ) (hxy : x.length = y.length) (q : ℕ) :
    cbuf (List.zipWith (fun u v => a * u + b * v) x y) q
      = (a : ℂ) * cbuf x q + (b : ℂ) * cbuf y q := by
  apply Complex.ext
  · rw [cbuf_re, getD_zipWith_lin a b x y hxy, Complex.add_re, Complex.re_ofReal_mul,
      Complex.re_ofReal_mul, cbuf_re, cbuf_re]
  · rw [cbuf_im, getD_zipWith_lin a b x y hxy, Complex.add_im, Complex.im_ofReal_mul,
      Complex.im_ofReal_mul, cbuf_im, cbuf_im]

/-- Claim C23. The transform is linear: for `N = 2 ^ p`, all buffers `x`, `y` of
`2 * N` reals and all reals `a`, `b`,
`real_fft(a * x + b * y) = a * real_fft(x) + b * real_fft(y)` element by element. -/
theorem real_fft_linear (N p : ℕ) (hN : N = 2 ^ p) (x y : List ℝ) (a b : ℝ)
    (hx : x.length = 2 * N) (hy : y.length = 2 * N) :
    ∃ X Y, real_fft realLibm x N = some X ∧ real_fft realLibm y N = some Y ∧
      real_fft realLibm (List.zipWith (fun u v => a * u + b * v) x y) N
        = some (List.zipWith (fun u v => a * u + b * v) X Y) := by
  subst hN
  obtain ⟨X, hX, hXl, hXv⟩ := real_fft_spec p x hx
  obtain ⟨Y, hY, hYl, hYv⟩ := real_fft_spec p y hy
  obtain ⟨Z, hZ, hZl, hZv⟩ := real_fft_spec p (List.zipWith (fun u v => a * u + b * v) x y)
    (by simp [hx, hy])
  refine ⟨X, Y, hX, hY, ?_⟩
  rw [hZ]
  congr 1
  apply list_eq_of_cbuf_eq (2 ^ p) _ _ hZl (by simp [hXl, hYl])
  intro q hq
  rw [hZv q hq, cbuf_zipWith_lin a b X Y (by omega), hXv q hq, hYv q hq]
  unfold dft
  rw [mul_sum, mul_sum, ← sum_add_distrib]
  apply sum_congr rfl
  intro n _
  rw [cbuf_zipWith_lin a b x y (by omega)]
  ring

/-- Claim C23 at `N = 2`, with `x = [1, 5, 2, 7]`, `y = [0, 1, 3, 0]`, `a = 2`, `b = -1`. -/
theorem real_fft_linear_witness :
    ∃ X Y, real_fft realLibm [1, 5, 2, 7] 2 = some X ∧ real_fft realLibm [0, 1, 3, 0] 2 = some Y ∧
      real_fft realLibm
          (List.zipWith (fun u v => (2 : ℝ) * u + (-1) * v) [1, 5, 2, 7] [0, 1, 3, 0]) 2
        = some (List.zipWith (fun u v => (2 : ℝ) * u + (-1) * v) X Y) :=
  real_fft_linear 2 1 (by norm_num) [1, 5, 2, 7] [0, 1, 3, 0] 2 (-1) (by simp) (by simp)

/-! ## The reads of `myfftPhase` -/

/-- Claim C25. For `N = 2 ^ p` with `p ≥ 0` and every buffer of `2 * N` elements,
the bit-reversal section of `real_fft` applied twice returns the original buffer,
and each pair is moved as a unit: the pair at `q` of the output is the pair at
`bitrev p q` of the input, where `bitrev p` maps `[0, N)` to itself and is its
own inverse. -/
theorem bit_reversal_section_involution (N p : ℕ) (hN : N = 2 ^ p) (buffer : List ℝ)
    (hlen : buffer.length = 2 * N) :
    ∃ out, bit_reversal_section buffer N = some out ∧
      bit_reversal_section out N = some buffer ∧
      ∀ q : ℕ, q < N →
        bitrev p q < N ∧ bitrev p (bitrev p q) = q ∧
        out[2 * q]? = buffer[2 * bitrev p q]? ∧
        out[2 * q + 1]? = buffer[2 * bitrev p q + 1]? := by
  subst hN
  obtain ⟨d1, h1, l1, v1⟩ := bit_reversal_spec p buffer hlen
  obtain ⟨d2, h2, l2, v2⟩ := bit_reversal_spec p d1 l1
  have hb1 : bit_reversal_section buffer (2 ^ p) = some d1 := by
    unfold bit_reversal_section
    simp only [shiftLeft_one_pow]
    exact h1
  have hb2 : bit_reversal_section d1 (2 ^ p) = some d2 := by
    unfold bit_reversal_section
    simp only [shiftLeft_one_pow]
    exact h2
  have heq : d2 = buffer := by
    apply list_eq_of_cbuf_eq (2 ^ p) _ _ l2 hlen
    intro q hq
    rw [v2 q hq, v1 _ (bitrev_lt p q), bitrev_bitrev p q hq]
  rw [heq] at hb2
  refine ⟨d1, hb1, hb2, fun q hq => ?_⟩
  have hr := bitrev_lt p q
  have hc := v1 q hq
  refine ⟨hr, bitrev_bitrev p q hq, ?_, ?_⟩
  · rw [getElem?_eq_getD (by omega), getElem?_eq_getD (by omega)]
    have := congrArg Complex.re hc
    rw [cbuf_re, cbuf_re] at this
    rw [this]
  · rw [getElem?_eq_getD (by omega), getElem?_eq_getD (by omega)]
    have := congrArg Complex.im hc
    rw [cbuf_im, cbuf_im] at this
    rw [this]

/-- Claim C25 at `N = 4`. -/
theorem bit_reversal_section_involution_witness :
    ∃ out, bit_reversal_section ([0, 10, 1, 11, 2, 12, 3, 13] : List ℝ) 4 = some out ∧
      bit_reversal_section out 4 = some [0, 10, 1, 11, 2, 12, 3, 13] ∧
      ∀ q : ℕ, q < 4 →
        bitrev 2 q < 4 ∧ bitrev 2 (bitrev 2 q) = q ∧
        out[2 * q]? = ([0, 10, 1, 11, 2, 12, 3, 13] : List ℝ)[2 * bitrev 2 q]? ∧
        out[2 * q + 1]? = ([0, 10, 1, 11, 2, 12, 3, 13] : List ℝ)[2 * bitrev 2 q + 1]? :=
  bit_reversal_section_involution 4 2 (by norm_num) _ (by simp)

/-! ## Values of the window coefficients -/

theorem flat_top_coefficient_le (L n : ℕ) : flat_top_coefficient realLibm L n ≤ 4.636 := by
  unfold flat_top_coefficient
  simp only [realLibm]
  generalize 2 * Real.pi * (n : ℝ) / ((L - 1 : ℕ) : ℝ) = x
  have h1 := Real.neg_one_le_cos x
  have h2 := Real.cos_le_one (2 * x)
  have h3 := Real.neg_one_le_cos (3 * x)
  have h4 := Real.cos_le_one (4 * x)
  norm_num
  linarith

theorem flat_top_coefficient_zero (L : ℕ) : flat_top_coefficient realLibm L 0 = 0 := by
  unfold flat_top_coefficient
  simp only [realLibm]
  norm_num

theorem flat_top_coefficient_last (L : ℕ) (hL : 2 ≤ L) :
    flat_top_coefficient realLibm L (L - 1) = 0 := by
  unfold flat_top_coefficient
  simp only [realLibm]
  have h2 : ((L - 1 : ℕ) : ℝ) ≠ 0 := by
    have : 0 < L - 1 := by omega
    exact_mod_cast this.ne'
  have e : 2 * Real.pi * ((L - 1 : ℕ) : ℝ) / ((L - 1 : ℕ) : ℝ) = 2 * Real.pi := by
    rw [mul_div_assoc, div_self h2, mul_one]
  rw [e]
  have c2 := Real.cos_nat_mul_two_pi 2
  have c3 := Real.cos_nat_mul_two_pi 3
  have c4 := Real.cos_nat_mul_two_pi 4
  norm_num at c2 c3 c4
  rw [Real.cos_two_pi, c2, c3, c4]
  norm_num

theorem flat_top_coefficient_mid (L : ℕ) (hL : 2 ≤ L) (hodd : L % 2 = 1) :
    flat_top_coefficient realLibm L ((L - 1) / 2) = 4.636 := by
  unfold flat_top_coefficient
  simp only [realLibm]
  obtain ⟨m, hm⟩ : ∃ m, L - 1 = 2 * m := ⟨(L - 1) / 2, by omega⟩
  have hmpos : 0 < m := by omega
  have hm0 : (m : ℝ) ≠ 0 := by exact_mod_cast hmpos.ne'
  have e1 : (L - 1) / 2 = m := by omega
  rw [e1, hm]
  have e : 2 * Real.pi * (m : ℝ) / ((2 * m : ℕ) : ℝ) = Real.pi := by
    push_cast
    field_simp
    ring
  rw [e]
  have c2 : Real.cos (2 * Real.pi) = 1 := Real.cos_two_pi
  have c3 : Real.cos (3 * Real.pi) = -1 := by
    have : 3 * Real.pi = Real.pi + 2 * Real.pi := by ring
    rw [this, Real.cos_add_two_pi, Real.cos_pi]
  have c4 : Real.cos (4 * Real.pi) = 1 := by
    have := Real.cos_nat_mul_two_pi 2
    have e4 : ((2 : ℕ) : ℝ) * (2 * Real.pi) = 4 * Real.pi := by push_cast; ring
    rw [e4] at this
    exact this
  rw [Real.cos_pi, c2, c3, c4]
  norm_num

/-- Claim C30. For every length `L ≥ 2` and every `n < L` the Hann coefficient
stored by `generate_hanning_window` (over the reals, `M_PI = π`) lies in `[0, 1]`,
and it is `0` at both end points `n = 0` and `n = L - 1`. -/
theorem hanning_window_values (L : ℕ) (hL : 2 ≤ L) (buf : List ℝ) (hbuf : L ≤ buf.length) :
    ∃ w, generate_hanning_window realLibm buf L = some w ∧
      (∀ n : ℕ, n < L → ∃ v, w[n]? = some v ∧ 0 ≤ v ∧ v ≤ 1) ∧
      w[0]? = some 0 ∧ w[L - 1]? = some 0 := by
  obtain ⟨w, h1, _, h3⟩ := generate_hanning_window_spec realLibm L buf hbuf
  have hL1 : ((L - 1 : ℕ) : ℝ) ≠ 0 := by
    have : 0 < L - 1 := by omega
    exact_mod_cast this.ne'
  refine ⟨w, h1, ?_, ?_, ?_⟩
  · intro n hn
    refine ⟨_, by rw [h3, if_pos hn], ?_, ?_⟩
    · unfold hanning_coefficient
      have := Real.cos_le_one (realLibm.M_PI * 2 * (n : ℝ) / ((L - 1 : ℕ) : ℝ))
      have := Real.cos_le_one (2 * realLibm.M_PI * (n : ℝ) / ((L - 1 : ℕ) : ℝ))
      simp only [realLibm] at *
      norm_num
      linarith
    · unfold hanning_coefficient
      have := Real.neg_one_le_cos (2 * realLibm.M_PI * (n : ℝ) / ((L - 1 : ℕ) : ℝ))
      simp only [realLibm] at *
      norm_num
      linarith
  · rw [h3, if_pos (by omega)]
    unfold hanning_coefficient
    simp only [realLibm]
    norm_num
  · rw [h3, if_pos (by omega)]
    unfold hanning_coefficient
    simp only [realLibm]
    have e : 2 * Real.pi * ((L - 1 : ℕ) : ℝ) / ((L - 1 : ℕ) : ℝ) = 2 * Real.pi := by
      rw [mul_div_assoc, div_self hL1, mul_one]
    rw [e, Real.cos_two_pi]
    norm_num

/-- Claim C30 at `L = 4`. -/
theorem hanning_window_values_witness :
    ∃ w : List ℝ, generate_hanning_window realLibm [0, 0, 0, 0] 4 = some w ∧
      (∀ n : ℕ, n < 4 → ∃ v, w[n]? = some v ∧ 0 ≤ v ∧ v ≤ 1) ∧
      w[0]? = some 0 ∧ w[4 - 1]? = some 0 :=
  hanning_window_values 4 (by norm_num) [0, 0, 0, 0] (by simp)

/-! ## Serial output of an integer -/

theorem decimal_digits_of_lt {n : ℕ} (h : n < 10) : decimal_digits n = [n] := by
  unfold decimal_digits
  split_ifs with h0
  · rw [h0]
  · exact Nat.digits_of_lt 10 n h0 h

theorem decimal_digits_of_ge {n : ℕ} (h : 10 ≤ n) :
    decimal_digits n = (n % 10) :: decimal_digits (n / 10) := by
  unfold decimal_digits
  rw [if_neg (by omega), if_neg (by omega)]
  exact Nat.digits_def' (by norm_num) (by omega)

theorem decimal_digits_lt_ten {n d : ℕ} (h : d ∈ decimal_digits n) : d < 10 := by
  unfold decimal_digits at h
  split_ifs at h with h0
  · simp at h
    omega
  · exact Nat.digits_lt_base (by norm_num) h

theorem decimal_digits_length_pos (n : ℕ) : 1 ≤ (decimal_digits n).length := by
  by_cases h : n < 10
  · rw [decimal_digits_of_lt h]
    simp
  · rw [decimal_digits_of_ge (by omega)]
    simp

theorem lt_pow_decimal_digits_length (n : ℕ) : n < 10 ^ (decimal_digits n).length := by
  unfold decimal_digits
  split_ifs with h0
  · rw [h0]
    norm_num
  · exact Nat.lt_base_pow_length_digits (by norm_num)

theorem pow_decimal_digits_length_le {n : ℕ} (h : n ≠ 0) :
    10 ^ ((decimal_digits n).length - 1) ≤ n := by
  unfold decimal_digits
  rw [if_neg h]
  have h1 := Nat.base_pow_length_digits_le 10 n (by norm_num) h
  have h2 : 1 ≤ (Nat.digits 10 n).length := by
    rw [Nat.digits_def' (by norm_num) (Nat.pos_of_ne_zero h)]
    simp
  obtain ⟨k, hk⟩ : ∃ k, (Nat.digits 10 n).length = k + 1 := ⟨_, (Nat.sub_add_cancel h2).symm⟩
  rw [hk] at h1 ⊢
  rw [pow_succ] at h1
  simp only [Nat.add_sub_cancel]
  omega

theorem decimal_digits_length_le_iff (n k : ℕ) (hk : 1 ≤ k) :
    (decimal_digits n).length ≤ k ↔ n < 10 ^ k := by
  constructor
  · intro h
    exact lt_of_lt_of_le (lt_pow_decimal_digits_length n) (Nat.pow_le_pow_right (by norm_num) h)
  · intro h
    by_cases h0 : n = 0
    · rw [h0]
      unfold decimal_digits
      simpa using hk
    · have h1 := pow_decimal_digits_length_le h0
      have h2 : 10 ^ ((decimal_digits n).length - 1) < 10 ^ k := lt_of_le_of_lt h1 h
      have h3 := (Nat.pow_lt_pow_iff_right (by norm_num : 1 < 10)).mp h2
      omega

theorem toUChar_natCast {n : ℕ} (h : n < 256) : toUChar (n : Int) = n := by
  unfold toUChar
  omega

theorem tdiv_natCast_ten (n : ℕ) : (n : Int).tdiv 10 = ((n / 10 : ℕ) : Int) := rfl

theorem tmod_natCast_ten (n : ℕ) : (n : Int).tmod 10 = ((n % 10 : ℕ) : Int) := rfl

/-- The loop of `USART3_Print_Int` followed by the store `s[i] = number`, when
the array is long enough: the digits are stored from `s[i]` on. -/
theorem USART3_Print_Int_while_spec : ∀ (fuel n i : ℕ) (s : List ℕ), n < fuel →
    i + (decimal_digits n).length ≤ s.length →
    ∃ (m : ℕ) (s1 : List ℕ),
      USART3_Print_Int_while fuel (n : Int) i s
        = some ((m : Int), i + (decimal_digits n).length - 1, s1) ∧
      writeAt s1 (i + (decimal_digits n).length - 1) (toUChar (m : Int))
        = some (s.take i ++ decimal_digits n ++ s.drop (i + (decimal_digits n).length)) := by
  intro fuel
  induction fuel with
  | zero => intro n i s h; omega
  | succ fuel ih =>
    intro n i s hf hlen
    by_cases h10 : 10 ≤ n
    · have hd := decimal_digits_of_ge h10
      rw [hd] at hlen ⊢
      simp only [List.length_cons] at hlen ⊢
      have hi : i < s.length := by omega
      have hlen2 : (i + 1) + (decimal_digits (n / 10)).length ≤ (s.set i (n % 10)).length := by
        rw [List.length_set]; omega
      obtain ⟨m, s1, e1, e2⟩ := ih (n / 10) (i + 1) (s.set i (n % 10)) (by omega) hlen2
      refine ⟨m, s1, ?_, ?_⟩
      · unfold USART3_Print_Int_while
        rw [if_pos (by exact_mod_cast h10), tmod_natCast_ten, toUChar_natCast (by omega),
          writeAt_of_lt _ hi, tdiv_natCast_ten]
        simp only [Option.bind_eq_bind, Option.some_bind]
        rw [e1]
        congr 3
        omega
      · have e3 : i + ((decimal_digits (n / 10)).length + 1) - 1
            = i + 1 + (decimal_digits (n / 10)).length - 1 := by omega
        rw [e3, e2]
        congr 1
        rw [List.set_eq_take_append_cons_drop, if_pos hi]
        have ht : List.take (i + 1) (List.take i s ++ (n % 10) :: List.drop (i + 1) s)
            = List.take i s ++ [n % 10] := by
          rw [List.take_append_eq_append_take]
          simp [List.length_take, Nat.min_eq_left (le_of_lt hi)]
        have hdr : List.drop (i + 1 + (decimal_digits (n / 10)).length)
              (List.take i s ++ (n % 10) :: List.drop (i + 1) s)
            = List.drop (i + ((decimal_digits (n / 10)).length + 1)) s := by
          rw [List.drop_append_eq_append_drop]
          simp only [List.length_take, Nat.min_eq_left (le_of_lt hi)]
          have e4 : i + 1 + (decimal_digits (n / 10)).length - i
              = (decimal_digits (n / 10)).length + 1 := by omega
          rw [e4, List.drop_succ_cons, List.drop_drop]
          have e5 : List.drop (i + 1 + (decimal_digits (n / 10)).length) (List.take i s) = [] := by
            apply List.drop_eq_nil_of_le
            rw [List.length_take]
            omega
          rw [e5, List.nil_append]
          congr 1
          omega
        rw [ht, hdr]
        simp
    · have hn : n < 10 := by omega
      have hd := decimal_digits_of_lt hn
      rw [hd] at hlen ⊢
      simp only [List.length_singleton] at hlen ⊢
      have hi : i < s.length := by omega
      refine ⟨n, s, ?_, ?_⟩
      · unfold USART3_Print_Int_while
        rw [if_neg (by push_neg; exact_mod_cast hn), Nat.add_sub_cancel]
      · rw [Nat.add_sub_cancel, toUChar_natCast (by omega), writeAt_of_lt _ hi,
          List.set_eq_take_append_cons_drop, if_pos hi]
        simp

/-- The loop of `USART3_Print_Int` followed by the store `s[i] = number`, when
the array is too short: a store falls outside the array. -/
theorem USART3_Print_Int_while_fail : ∀ (fuel n i : ℕ) (s : List ℕ), n < fuel →
    s.length < i + (decimal_digits n).length →
    USART3_Print_Int_while fuel (n : Int) i s = none ∨
    ∃ (m : Int) (j : ℕ) (s1 : List ℕ),
      USART3_Print_Int_while fuel (n : Int) i s = some (m, j, s1) ∧
      writeAt s1 j (toUChar m) = none := by
  intro fuel
  induction fuel with
  | zero => intro n i s h; omega
  | succ fuel ih =>
    intro n i s hf hlen
    by_cases h10 : 10 ≤ n
    · have hd := decimal_digits_of_ge h10
      rw [hd] at hlen
      simp only [List.length_cons] at hlen
      by_cases hi : i < s.length
      · have hlen2 : (s.set i (n % 10)).length < (i + 1) + (decimal_digits (n / 10)).length := by
          rw [List.length_set]; omega
        have e : USART3_Print_Int_while (fuel + 1) (n : Int) i s
            = USART3_Print_Int_while fuel ((n / 10 : ℕ) : Int) (i + 1) (s.set i (n % 10)) := by
          conv_lhs => unfold USART3_Print_Int_while
          rw [if_pos (by exact_mod_cast h10), tmod_natCast_ten, toUChar_natCast (by omega),
            writeAt_of_lt _ hi, tdiv_natCast_ten]
          simp only [Option.bind_eq_bind, Option.some_bind]
        rw [e]
        exact ih (n / 10) (i + 1) (s.set i (n % 10)) (by omega) hlen2
      · left
        unfold USART3_Print_Int_while
        rw [if_pos (by exact_mod_cast h10), (writeAt_eq_none_iff s i _).mpr (by omega)]
        rfl
    · have hn : n < 10 := by omega
      have hd := decimal_digits_of_lt hn
      rw [hd] at hlen
      simp only [List.length_singleton] at hlen
      right
      refine ⟨n, i, s, ?_, ?_⟩
      · unfold USART3_Print_Int_while
        rw [if_neg (by push_neg; exact_mod_cast hn)]
      · exact (writeAt_eq_none_iff s i _).mpr (by omega)

/-- The part of `USART3_Print_Int` before the output loop, in terms of `|number|`. -/
theorem USART3_Print_Int_store_eq (s : List ℕ) (number : Int) :
    USART3_Print_Int_store s number =
      (USART3_Print_Int_while (number.natAbs + 1) (number.natAbs : Int) 1 s).bind
        (fun r => (writeAt r.2.2 r.2.1 (toUChar r.1)).bind
          (fun s2 => some (if number < 0 then [45] else [], r.2.1, s2))) := by
  unfold USART3_Print_Int_store
  by_cases hneg : number < 0
  · have e1 : -number = (number.natAbs : Int) := by omega
    have e2 : (-number).toNat = number.natAbs := by omega
    simp only [if_pos hneg, e2, e1]
    rfl
  · have e1 : number = (number.natAbs : Int) := by omega
    have e2 : number.toNat = number.natAbs := by omega
    simp only [if_neg hneg, e2]
    rw [← e1]
    rfl

theorem USART3_Print_Int_store_spec (s : List ℕ) (number : Int)
    (hlen : (decimal_digits number.natAbs).length < s.length) :
    USART3_Print_Int_store s number
      = some (if number < 0 then [45] else [], (decimal_digits number.natAbs).length,
          s.take 1 ++ decimal_digits number.natAbs
            ++ s.drop (1 + (decimal_digits number.natAbs).length)) := by
  obtain ⟨m, s1, e1, e2⟩ := USART3_Print_Int_while_spec (number.natAbs + 1) number.natAbs 1 s
    (by omega) (by omega)
  rw [USART3_Print_Int_store_eq, e1]
  simp only [Option.some_bind]
  rw [e2]
  simp only [Option.some_bind, Nat.add_sub_cancel_left]

theorem USART3_Print_Int_store_none (s : List ℕ) (number : Int)
    (hlen : s.length ≤ (decimal_digits number.natAbs).length) :
    USART3_Print_Int_store s number = none := by
  rw [USART3_Print_Int_store_eq]
  rcases USART3_Print_Int_while_fail (number.natAbs + 1) number.natAbs 1 s (by omega) (by omega)
    with e | ⟨m, j, s1, e1, e2⟩
  · rw [e]
    rfl
  · rw [e1]
    simp only [Option.some_bind]
    rw [e2]
    rfl

/-- The output loop of `USART3_Print_Int` sends `s[i]`, ..., `s[1]`. -/
theorem USART3_Print_Int_for_spec (s : List ℕ) : ∀ (i fuel : ℕ) (tx : List ℕ), i < fuel →
    i < s.length →
    USART3_Print_Int_for s fuel i tx
      = some (tx ++ (((s.drop 1).take i).reverse.map (fun c : ℕ => toUChar (48 + (c : Int))))) := by
  intro i
  induction i with
  | zero =>
    intro fuel tx hf _
    obtain ⟨f, rfl⟩ : ∃ f, fuel = f + 1 := ⟨fuel - 1, by omega⟩
    unfold USART3_Print_Int_for
    simp
  | succ i ih =>
    intro fuel tx hf hs
    obtain ⟨f, rfl⟩ : ∃ f, fuel = f + 1 := ⟨fuel - 1, by omega⟩
    unfold USART3_Print_Int_for
    rw [if_pos (by omega)]
    have hr : readAt s (i + 1) = some (s[i + 1]) := by
      unfold readAt
      exact List.getElem?_eq_getElem hs
    rw [hr]
    simp only [Option.bind_eq_bind, Option.some_bind, Nat.add_sub_cancel]
    rw [ih f _ (by omega) (by omega)]
    have ht : List.take (i + 1) (List.drop 1 s) = List.take i (List.drop 1 s) ++ [s[i + 1]] := by
      rw [List.take_succ]
      congr 1
      rw [List.getElem?_drop, Nat.add_comm 1 i, List.getElem?_eq_getElem hs]
      rfl
    rw [ht]
    simp [USART3_Putch]

theorem USART3_Print_Int_spec (s : List ℕ) (number : Int)
    (hlen : (decimal_digits number.natAbs).length < s.length) :
    USART3_Print_Int s number = some (spec_decimal_representation number) := by
  unfold USART3_Print_Int
  rw [USART3_Print_Int_store_spec s number hlen]
  simp only [Option.bind_eq_bind, Option.some_bind]
  have hpos := decimal_digits_length_pos number.natAbs
  rw [USART3_Print_Int_for_spec _ _ _ _ (by omega)
    (by simp only [List.length_append, List.length_take, List.length_drop]; omega)]
  unfold spec_decimal_representation
  congr 2
  have ht : List.take (decimal_digits number.natAbs).length
      (List.drop 1 (List.take 1 s ++ decimal_digits number.natAbs
        ++ List.drop (1 + (decimal_digits number.natAbs).length) s))
      = decimal_digits number.natAbs := by
    have h1 : (List.take 1 s).length = 1 := by
      rw [List.length_take]; omega
    rw [List.append_assoc, List.drop_append_eq_append_drop, h1]
    have h2 : List.drop 1 (List.take 1 s) = [] := by
      apply List.drop_eq_nil_of_le
      omega
    rw [h2]
    simp
  rw [ht]
  apply List.map_congr_left
  intro d hd
  have := decimal_digits_lt_ten (List.mem_reverse.mp hd)
  unfold toUChar
  omega

/-- Claim C27. For every `int number` with `|number| ≤ 9999` the function
`USART3_Print_Int`, whatever the initial contents of its local array
`unsigned char s[5]`, transmits exactly the decimal representation of `number`:
the code of `'-'` when `number < 0`, then the digits of `|number|`, most
significant first, without leading zeros (the single byte `'0'` for `0`). -/
theorem USART3_Print_Int_decimal (number : Int) (h : number.natAbs ≤ 9999)
    (s : List ℕ) (hs : s.length = 5) :
    USART3_Print_Int s number = some (spec_decimal_representation number) ∧
    spec_decimal_representation number =
      (if number < 0 then [45] else []) ++
        (if number = 0 then [48]
         else (Nat.digits 10 number.natAbs).reverse.map (fun d => 48 + d)) := by
  constructor
  · apply USART3_Print_Int_spec
    rw [hs]
    have := (decimal_digits_length_le_iff number.natAbs 4 (by norm_num)).mpr (by omega)
    omega
  · unfold spec_decimal_representation decimal_digits
    by_cases h0 : number = 0
    · rw [h0]
      rfl
    · rw [if_neg h0, if_neg (Int.natAbs_eq_zero.not.mpr h0)]

/-- Claim C27 at `number = -9999`: the bytes `-9999` are transmitted. -/
theorem USART3_Print_Int_decimal_witness :
    USART3_Print_Int [7, 7, 7, 7, 7] (-9999) = some (spec_decimal_representation (-9999)) ∧
    spec_decimal_representation (-9999) =
      (if (-9999 : Int) < 0 then [45] else []) ++
        (if (-9999 : Int) = 0 then [48]
         else (Nat.digits 10 (-9999 : Int).natAbs).reverse.map (fun d => 48 + d)) :=
  USART3_Print_Int_decimal (-9999) (by decide) [7, 7, 7, 7, 7] rfl

/-- Claim C28. In `USART3_Print_Int`, for every `int number` other than `INT_MIN`
(whose negation C leaves undefined), the stores go to `s[1]`, ..., `s[j]` where
`j`, the highest index written, is the number of decimal digits of `|number|`
(`|number| < 10 ^ j`, and `10 ^ (j - 1) ≤ |number|` unless `number = 0`): on an
array with more than `j` cells these cells receive the digits and the others are
left alone, and on an array with at most `j` cells a store falls outside it.
For the array `s[5]` all stores stay inside exactly when `|number| ≤ 9999`, and
for `number ≥ 10000` the cell `s[5]` past its end is written (`5 ≤ j`). -/
theorem USART3_Print_Int_highest_index (number : Int) (hlo : -2 ^ 31 < number)
    (hhi : number < 2 ^ 31) :
    number.natAbs < 10 ^ (decimal_digits number.natAbs).length ∧
    (number ≠ 0 → 10 ^ ((decimal_digits number.natAbs).length - 1) ≤ number.natAbs) ∧
    (∀ s : List ℕ, (decimal_digits number.natAbs).length < s.length →
      USART3_Print_Int_store s number
        = some (if number < 0 then [45] else [], (decimal_digits number.natAbs).length,
            s.take 1 ++ decimal_digits number.natAbs
              ++ s.drop (1 + (decimal_digits number.natAbs).length))) ∧
    (∀ s : List ℕ, s.length ≤ (decimal_digits number.natAbs).length →
      USART3_Print_Int_store s number = none) ∧
    (∀ s : List ℕ, s.length = 5 →
      ((USART3_Print_Int_store s number).isSome ↔ number.natAbs ≤ 9999)) ∧
    (10000 ≤ number → 5 ≤ (decimal_digits number.natAbs).length ∧
      ∀ s : List ℕ, s.length = 5 → USART3_Print_Int_store s number = none) := by
  have hiff := decimal_digits_length_le_iff number.natAbs 4 (by norm_num)
  refine ⟨lt_pow_decimal_digits_length _, ?_, ?_, ?_, ?_, ?_⟩
  · intro h0
    exact pow_decimal_digits_length_le (Int.natAbs_eq_zero.not.mpr h0)
  · intro s hs
    exact USART3_Print_Int_store_spec s number hs
  · intro s hs
    exact USART3_Print_Int_store_none s number hs
  · intro s hs
    constructor
    · intro h
      by_contra hgt
      have h5 : s.length ≤ (decimal_digits number.natAbs).length := by
        rw [hs]
        by_contra hlt
        exact hgt (by have := hiff.mp (by omega); omega)
      rw [USART3_Print_Int_store_none s number h5] at h
      simp at h
    · intro h
      have h4 : (decimal_digits number.natAbs).length ≤ 4 := hiff.mpr (by omega)
      rw [USART3_Print_Int_store_spec s number (by omega)]
      rfl
  · intro h
    have h5 : 5 ≤ (decimal_digits number.natAbs).length := by
      by_contra hlt
      have := hiff.mp (by omega)
      omega
    exact ⟨h5, fun s hs => USART3_Print_Int_store_none s number (by omega)⟩

/-- Claim C28 at `number = 10000`. -/
theorem USART3_Print_Int_highest_index_witness :
    (10000 : Int).natAbs < 10 ^ (decimal_digits (10000 : Int).natAbs).length ∧
    ((10000 : Int) ≠ 0 →
      10 ^ ((decimal_digits (10000 : Int).natAbs).length - 1) ≤ (10000 : Int).natAbs) ∧
    (∀ s : List ℕ, (decimal_digits (10000 : Int).natAbs).length < s.length →
      USART3_Print_Int_store s 10000
        = some (if (10000 : Int) < 0 then [45] else [],
            (decimal_digits (10000 : Int).natAbs).length,
            s.take 1 ++ decimal_digits (10000 : Int).natAbs
              ++ s.drop (1 + (decimal_digits (10000 : Int).natAbs).length))) ∧
    (∀ s : List ℕ, s.length ≤ (decimal_digits (10000 : Int).natAbs).length →
      USART3_Print_Int_store s 10000 = none) ∧
    (∀ s : List ℕ, s.length = 5 →
      ((USART3_Print_Int_store s 10000).isSome ↔ (10000 : Int).natAbs ≤ 9999)) ∧
    ((10000 : Int) ≤ 10000 → 5 ≤ (decimal_digits (10000 : Int).natAbs).length ∧
      ∀ s : List ℕ, s.length = 5 → USART3_Print_Int_store s 10000 = none) :=
  USART3_Print_Int_highest_index 10000 (by norm_num) (by norm_num)

/-! ## Serial output of a string -/

/-- The loop of `USART3_Print` from index `i`: the bytes of `s` from `i` up to
the first NUL or up to index 64 are appended. -/
theorem USART3_Print_while_spec (s : List ℕ) (hb : ∀ c ∈ s, c < 256) :
    ∀ (fuel i : ℕ) (tx : List ℕ), 64 - i < fuel → (0 ∈ s.drop i ∨ 64 ≤ s.length) →
    USART3_Print_while s fuel i tx
      = some (tx ++ (s.drop i).take (min (64 - i) ((s.drop i).indexOf 0))) := by
  intro fuel
  induction fuel with
  | zero => intro i tx h; omega
  | succ fuel ih =>
    intro i tx hf hs
    unfold USART3_Print_while
    by_cases hi : i < 64
    · rw [if_pos hi]
      have hlt : i < s.length := by
        rcases hs with h | h
        · by_contra hge
          rw [List.drop_eq_nil_of_le (by omega)] at h
          simp at h
        · omega
      have hdrop : s.drop i = s[i] :: s.drop (i + 1) := List.drop_eq_getElem_cons hlt
      have hr : readAt s i = some (s[i]) := by
        unfold readAt
        exact List.getElem?_eq_getElem hlt
      rw [hr, hdrop]
      simp only [Option.bind_eq_bind, Option.some_bind]
      by_cases hc : s[i] = 0
      · rw [if_pos hc, hc, List.indexOf_cons_self]
        simp
      · rw [if_neg hc, List.indexOf_cons_ne _ hc]
        have hs2 : 0 ∈ s.drop (i + 1) ∨ 64 ≤ s.length := by
          rcases hs with h | h
          · left
            rw [hdrop] at h
            rcases List.mem_cons.mp h with h0 | h0
            · exact absurd h0.symm hc
            · exact h0
          · right; exact h
        rw [ih (i + 1) _ (by omega) hs2]
        have hm : min (64 - i) (Nat.succ (List.indexOf 0 (List.drop (i + 1) s)))
            = min (64 - (i + 1)) (List.indexOf 0 (List.drop (i + 1) s)) + 1 := by
          omega
        rw [hm, List.take_succ_cons]
        have hbyte : toUChar ((s[i] : ℕ) : Int) = s[i] :=
          toUChar_natCast (hb _ (List.getElem_mem hlt))
        simp [USART3_Putch, hbyte]
    · rw [if_neg hi]
      have : 64 - i = 0 := by omega
      simp [this]

/-- The loop of `USART3_Print` reads only the first 64 cells of `s`. -/
theorem USART3_Print_while_take (s : List ℕ) : ∀ (fuel i : ℕ) (tx : List ℕ),
    USART3_Print_while (s.take 64) fuel i tx = USART3_Print_while s fuel i tx := by
  intro fuel
  induction fuel with
  | zero => intro i tx; rfl
  | succ fuel ih =>
    intro i tx
    unfold USART3_Print_while
    by_cases hi : i < 64
    · have hr : readAt (s.take 64) i = readAt s i := by
        unfold readAt
        rw [List.getElem?_take_of_lt hi]
      rw [if_pos hi, if_pos hi, hr]
      simp only [ih]
    · rw [if_neg hi, if_neg hi]

theorem getElem_ne_of_lt_indexOf (a : ℕ) : ∀ (l : List ℕ) (i : ℕ) (h : i < l.length),
    i < l.indexOf a → l[i] ≠ a := by
  intro l
  induction l with
  | nil => intro i h; simp at h
  | cons b l ih =>
    intro i h hi
    by_cases hb : b = a
    · rw [List.indexOf_cons_eq _ hb] at hi
      omega
    · rw [List.indexOf_cons_ne _ hb] at hi
      cases i with
      | zero => simpa using hb
      | succ i =>
        simp only [List.getElem_cons_succ]
        exact ih i (by simpa using h) (by omega)

/-- Claim C29. For every character array `s` (given by its bytes) that holds a
NUL or has at least 64 cells, `USART3_Print` transmits, in order, exactly the
bytes `s[0..m-1]` where `m = min(64, index of the first NUL)`: `m ≤ 64`, no byte
before `m` is NUL, and `s[m]` is NUL when `m < 64`.  It never reads `s` at an
index `≥ 64`: the checked run on the first 64 cells alone gives the same result. -/
theorem USART3_Print_sends_prefix (s : List ℕ) (hb : ∀ c ∈ s, c < 256)
    (hs : 0 ∈ s ∨ 64 ≤ s.length) :
    USART3_Print s = some (s.take (min 64 (s.indexOf 0))) ∧
    min 64 (s.indexOf 0) ≤ 64 ∧
    (∀ i : ℕ, i < min 64 (s.indexOf 0) → ∃ c, s[i]? = some c ∧ c ≠ 0) ∧
    (min 64 (s.indexOf 0) < 64 → s[min 64 (s.indexOf 0)]? = some 0) ∧
    USART3_Print (s.take 64) = USART3_Print s := by
  have main : ∀ t : List ℕ, (∀ c ∈ t, c < 256) → (0 ∈ t ∨ 64 ≤ t.length) →
      USART3_Print t = some (t.take (min 64 (t.indexOf 0))) := by
    intro t hbt hst
    unfold USART3_Print
    have := USART3_Print_while_spec t hbt 65 0 [] (by omega) (by simpa using hst)
    simpa using this
  have hle : s.indexOf 0 ≤ s.length := List.indexOf_le_length
  refine ⟨main s hb hs, Nat.min_le_left _ _, ?_, ?_, ?_⟩
  · intro i hi
    have hi2 : i < s.indexOf 0 := lt_of_lt_of_le hi (Nat.min_le_right _ _)
    have hil : i < s.length := lt_of_lt_of_le hi2 hle
    refine ⟨s[i], List.getElem?_eq_getElem hil, ?_⟩
    exact getElem_ne_of_lt_indexOf 0 s i hil hi2
  · intro hm
    have hidx : s.indexOf 0 < 64 := by
      by_contra h
      rw [Nat.min_eq_left (by omega)] at hm
      omega
    rw [Nat.min_eq_right (le_of_lt hidx)]
    have hmem : 0 ∈ s := by
      rcases hs with h | h
      · exact h
      · exact List.indexOf_lt_length.mp (by omega)
    have hlt : s.indexOf 0 < s.length := List.indexOf_lt_length.mpr hmem
    rw [List.getElem?_eq_getElem hlt, List.getElem_indexOf hlt]
  · unfold USART3_Print
    exact USART3_Print_while_take s 65 0 []

/-- Claim C29 on the four bytes `H`, `i`, NUL, `!`: the two bytes before the NUL are sent. -/
theorem USART3_Print_sends_prefix_witness :
    USART3_Print [72, 105, 0, 33]
      = some ([72, 105, 0, 33].take (min 64 ([72, 105, 0, 33].indexOf 0))) ∧
    min 64 ([72, 105, 0, 33].indexOf 0) ≤ 64 ∧
    (∀ i : ℕ, i < min 64 ([72, 105, 0, 33].indexOf 0) →
      ∃ c, [72, 105, 0, 33][i]? = some c ∧ c ≠ 0) ∧
    (min 64 ([72, 105, 0, 33].indexOf 0) < 64 →
      [72, 105, 0, 33][min 64 ([72, 105, 0, 33].indexOf 0)]? = some 0) ∧
    USART3_Print ([72, 105, 0, 33].take 64) = USART3_Print [72, 105, 0, 33] :=
  USART3_Print_sends_prefix [72, 105, 0, 33] (by decide) (Or.inl (by decide))

/-! ## Rounding to the floating types -/

theorem roundHalfEven_eq {x : ℝ} {m : ℤ} (h : |x - (m : ℝ)| < 1 / 2) : roundHalfEven x = m := by
  obtain ⟨h1, h2⟩ := abs_lt.mp h
  unfold roundHalfEven
  by_cases hm : (m : ℝ) ≤ x
  · have hf : ⌊x⌋ = m := by
      rw [Int.floor_eq_iff]
      constructor
      · exact hm
      · linarith
    simp only [hf]
    rw [if_pos h2]
  · have hf : ⌊x⌋ = m - 1 := by
      rw [Int.floor_eq_iff]
      push_cast
      constructor <;> linarith
    simp only [hf]
    push_cast
    rw [if_neg (by linarith), if_pos (by linarith)]
    ring

theorem abs_roundHalfEven_sub_le (x : ℝ) : |((roundHalfEven x : ℤ) : ℝ) - x| ≤ 1 / 2 := by
  have h1 := Int.floor_le x
  have h2 := Int.lt_floor_add_one x
  unfold roundHalfEven
  simp only
  split_ifs with a b c
  · rw [abs_le]; constructor <;> linarith
  · push_cast; rw [abs_le]; constructor <;> linarith
  · rw [abs_le]; constructor <;> linarith
  · push_cast; rw [abs_le]; constructor <;> linarith

theorem log_two_abs_eq {x : ℝ} {k : ℤ} (h1 : (2 : ℝ) ^ k ≤ |x|) (h2 : |x| < (2 : ℝ) ^ (k + 1)) :
    Int.log 2 |x| = k := by
  have hpos : 0 < |x| := lt_of_lt_of_le (by positivity) h1
  apply le_antisymm
  · have := (Int.lt_zpow_iff_log_lt (b := 2) (by norm_num) hpos (x := k + 1)).mp
      (by exact_mod_cast h2)
    omega
  · exact (Int.zpow_le_iff_le_log (b := 2) (by norm_num) hpos).mp (by exact_mod_cast h1)

/-- The value of a rounding: `x` lies in the binade of `2 ^ k` and is nearer than
half a unit in the last place to `m * 2 ^ (k - (p - 1))`. -/
theorem roundBinary_eq (p : ℕ) (emin : ℤ) (x : ℝ) (k m : ℤ)
    (hk : emin ≤ k - ((p : ℤ) - 1)) (h1 : (2 : ℝ) ^ k ≤ |x|) (h2 : |x| < (2 : ℝ) ^ (k + 1))
    (h3 : |x / (2 : ℝ) ^ (k - ((p : ℤ) - 1)) - (m : ℝ)| < 1 / 2) :
    roundBinary p emin x = (m : ℝ) * (2 : ℝ) ^ (k - ((p : ℤ) - 1)) := by
  unfold roundBinary
  simp only
  rw [log_two_abs_eq h1 h2, max_eq_left hk, roundHalfEven_eq h3]

theorem roundBinary_zero (p : ℕ) (emin : ℤ) : roundBinary p emin (0 : ℝ) = 0 := by
  unfold roundBinary roundHalfEven
  simp

/-- The error of a rounding is at most half a unit in the last place. -/
theorem abs_roundBinary_sub_le (p : ℕ) (emin : ℤ) (x : ℝ) (k0 k1 : ℤ)
    (hk : emin ≤ k0 - ((p : ℤ) - 1)) (h1 : (2 : ℝ) ^ k0 ≤ |x|) (h2 : |x| < (2 : ℝ) ^ (k1 + 1)) :
    |roundBinary p emin x - x| ≤ (2 : ℝ) ^ (k1 - (p : ℤ)) := by
  have hpos : 0 < |x| := lt_of_lt_of_le (by positivity) h1
  have hl0 : k0 ≤ Int.log 2 |x| :=
    (Int.zpow_le_iff_le_log (b := 2) (by norm_num) hpos).mp (by exact_mod_cast h1)
  have hl1 : Int.log 2 |x| ≤ k1 := by
    have := (Int.lt_zpow_iff_log_lt (b := 2) (by norm_num) hpos (x := k1 + 1)).mp
      (by exact_mod_cast h2)
    omega
  unfold roundBinary
  simp only
  rw [max_eq_left (by omega)]
  set e : ℤ := Int.log 2 |x| - ((p : ℤ) - 1) with he
  have hpe : (0 : ℝ) < (2 : ℝ) ^ e := by positivity
  have hr := abs_roundHalfEven_sub_le (x / (2 : ℝ) ^ e)
  have e1 : ((roundHalfEven (x / (2 : ℝ) ^ e) : ℤ) : ℝ) * (2 : ℝ) ^ e - x
      = (((roundHalfEven (x / (2 : ℝ) ^ e) : ℤ) : ℝ) - x / (2 : ℝ) ^ e) * (2 : ℝ) ^ e := by
    field_simp
  rw [e1, abs_mul, abs_of_pos hpe]
  have e2 : (2 : ℝ) ^ (k1 - (p : ℤ)) = (1 / 2) * (2 : ℝ) ^ (k1 - (p : ℤ) + 1) := by
    rw [zpow_add₀ (by norm_num : (2 : ℝ) ≠ 0)]
    norm_num
    ring
  rw [e2]
  have e3 : (2 : ℝ) ^ e ≤ (2 : ℝ) ^ (k1 - (p : ℤ) + 1) :=
    zpow_le_zpow_right₀ (by norm_num) (by omega)
  calc |((roundHalfEven (x / (2 : ℝ) ^ e) : ℤ) : ℝ) - x / (2 : ℝ) ^ e| * (2 : ℝ) ^ e
      ≤ (1 / 2) * (2 : ℝ) ^ e := by
        exact mul_le_mul_of_nonneg_right hr hpe.le
    _ ≤ (1 / 2) * (2 : ℝ) ^ (k1 - (p : ℤ) + 1) := by
        exact mul_le_mul_of_nonneg_left e3 (by norm_num)

/-- The value of a conversion to `float` in the normal range. -/
theorem binary32_eq (x : ℝ) (k m : ℤ) (hk : -126 ≤ k) (h1 : (2 : ℝ) ^ k ≤ |x|)
    (h2 : |x| < (2 : ℝ) ^ (k + 1)) (h3 : |x / (2 : ℝ) ^ (k - 23) - (m : ℝ)| < 1 / 2) :
    binary32 x = (m : ℝ) * (2 : ℝ) ^ (k - 23) := by
  unfold binary32
  have := roundBinary_eq 24 (-149) x k m (by push_cast; omega) h1 h2 (by simpa using h3)
  simpa using this

/-- The value of a rounding to `double` in the normal range. -/
theorem binary64_eq (x : ℝ) (k m : ℤ) (hk : -1022 ≤ k) (h1 : (2 : ℝ) ^ k ≤ |x|)
    (h2 : |x| < (2 : ℝ) ^ (k + 1)) (h3 : |x / (2 : ℝ) ^ (k - 52) - (m : ℝ)| < 1 / 2) :
    binary64 x = (m : ℝ) * (2 : ℝ) ^ (k - 52) := by
  unfold binary64
  have := roundBinary_eq 53 (-1074) x k m (by push_cast; omega) h1 h2 (by simpa using h3)
  simpa using this

theorem binary32_zero : binary32 (0 : ℝ) = 0 := roundBinary_zero 24 (-149)

theorem binary64_zero : binary64 (0 : ℝ) = 0 := roundBinary_zero 53 (-1074)

theorem abs_binary64_sub_le (x : ℝ) (k0 k1 : ℤ) (hk : -1022 ≤ k0) (h1 : (2 : ℝ) ^ k0 ≤ |x|)
    (h2 : |x| < (2 : ℝ) ^ (k1 + 1)) : |binary64 x - x| ≤ (2 : ℝ) ^ (k1 - 53) := by
  unfold binary64
  have := abs_roundBinary_sub_le 53 (-1074) x k0 k1 (by push_cast; omega) h1 h2
  simpa using this

theorem binary32_of_pos (x : ℝ) (k m : ℤ) (hk : -126 ≤ k) (h1 : (2 : ℝ) ^ k ≤ x)
    (h2 : x < (2 : ℝ) ^ (k + 1)) (h3 : (m : ℝ) - 1 / 2 < x / (2 : ℝ) ^ (k - 23))
    (h4 : x / (2 : ℝ) ^ (k - 23) < (m : ℝ) + 1 / 2) :
    binary32 x = (m : ℝ) * (2 : ℝ) ^ (k - 23) := by
  have hx : 0 < x := lt_of_lt_of_le (by positivity) h1
  apply binary32_eq x k m hk
  · rwa [abs_of_pos hx]
  · rwa [abs_of_pos hx]
  · rw [abs_lt]; constructor <;> linarith

theorem binary32_of_neg (x : ℝ) (k m : ℤ) (hk : -126 ≤ k) (h1 : (2 : ℝ) ^ k ≤ -x)
    (h2 : -x < (2 : ℝ) ^ (k + 1)) (h3 : (m : ℝ) - 1 / 2 < x / (2 : ℝ) ^ (k - 23))
    (h4 : x / (2 : ℝ) ^ (k - 23) < (m : ℝ) + 1 / 2) :
    binary32 x = (m : ℝ) * (2 : ℝ) ^ (k - 23) := by
  have hx : x < 0 := by
    have : (0 : ℝ) < (2 : ℝ) ^ k := by positivity
    linarith
  apply binary32_eq x k m hk
  · rwa [abs_of_neg hx]
  · rwa [abs_of_neg hx]
  · rw [abs_lt]; constructor <;> linarith

theorem binary64_of_pos (x : ℝ) (k m : ℤ) (hk : -1022 ≤ k) (h1 : (2 : ℝ) ^ k ≤ x)
    (h2 : x < (2 : ℝ) ^ (k + 1)) (h3 : (m : ℝ) - 1 / 2 < x / (2 : ℝ) ^ (k - 52))
    (h4 : x / (2 : ℝ) ^ (k - 52) < (m : ℝ) + 1 / 2) :
    binary64 x = (m : ℝ) * (2 : ℝ) ^ (k - 52) := by
  have hx : 0 < x := lt_of_lt_of_le (by positivity) h1
  apply binary64_eq x k m hk
  · rwa [abs_of_pos hx]
  · rwa [abs_of_pos hx]
  · rw [abs_lt]; constructor <;> linarith

theorem binary64_of_neg (x : ℝ) (k m : ℤ) (hk : -1022 ≤ k) (h1 : (2 : ℝ) ^ k ≤ -x)
    (h2 : -x < (2 : ℝ) ^ (k + 1)) (h3 : (m : ℝ) - 1 / 2 < x / (2 : ℝ) ^ (k - 52))
    (h4 : x / (2 : ℝ) ^ (k - 52) < (m : ℝ) + 1 / 2) :
    binary64 x = (m : ℝ) * (2 : ℝ) ^ (k - 52) := by
  have hx : x < 0 := by
    have : (0 : ℝ) < (2 : ℝ) ^ k := by positivity
    linarith
  apply binary64_eq x k m hk
  · rwa [abs_of_neg hx]
  · rwa [abs_of_neg hx]
  · rw [abs_lt]; constructor <;> linarith

theorem binary64_offset : binary64 (137.1126 : ℝ) = 4824220736467186 / 2 ^ 45 := by
  rw [binary64_of_pos 137.1126 7 4824220736467186 (by norm_num) (by norm_num) (by norm_num)
    (by norm_num) (by norm_num)]
  norm_num

theorem binary32_offset : binary32 (4824220736467186 / 2 ^ 45 : ℝ) = 8985811 / 65536 := by
  rw [binary32_of_pos _ 7 8985811 (by norm_num) (by norm_num) (by norm_num)
    (by norm_num) (by norm_num)]
  norm_num

/-! ## Bounds on the sine and on an angle -/

theorem sum_exp_im (t : ℝ) :
    (∑ m in range 12, ((t : ℂ) * Complex.I) ^ m / (m.factorial : ℂ)).im
      = t - t ^ 3 / 6 + t ^ 5 / 120 - t ^ 7 / 5040 + t ^ 9 / 362880 - t ^ 11 / 39916800 := by
  have h : (∑ m in range 12, ((t : ℂ) * Complex.I) ^ m / (m.factorial : ℂ))
      = ((1 - t ^ 2 / 2 + t ^ 4 / 24 - t ^ 6 / 720 + t ^ 8 / 40320 - t ^ 10 / 3628800 : ℝ) : ℂ)
        + ((t - t ^ 3 / 6 + t ^ 5 / 120 - t ^ 7 / 5040 + t ^ 9 / 362880
          - t ^ 11 / 39916800 : ℝ) : ℂ) * Complex.I := by
    simp only [Finset.sum_range_succ, Finset.sum_range_zero, Nat.factorial, mul_pow]
    have i2 : Complex.I ^ 2 = -1 := Complex.I_sq
    have i3 : Complex.I ^ 3 = -Complex.I := by rw [pow_succ, i2]; ring
    have i4 : Complex.I ^ 4 = 1 := Complex.I_pow_four
    have i5 : Complex.I ^ 5 = Complex.I := by rw [pow_succ, i4]; ring
    have i6 : Complex.I ^ 6 = -1 := by rw [pow_succ, i5]; exact Complex.I_mul_I
    have i7 : Complex.I ^ 7 = -Complex.I := by rw [pow_succ, i6]; ring
    have i8 : Complex.I ^ 8 = 1 := by rw [pow_succ, i7]; simp
    have i9 : Complex.I ^ 9 = Complex.I := by rw [pow_succ, i8]; ring
    have i10 : Complex.I ^ 10 = -1 := by rw [pow_succ, i9]; exact Complex.I_mul_I
    have i11 : Complex.I ^ 11 = -Complex.I := by rw [pow_succ, i10]; ring
    rw [i2, i3, i4, i5, i6, i7, i8, i9, i10, i11]
    push_cast
    ring
  rw [h, Complex.add_im, Complex.ofReal_im, Complex.im_ofReal_mul, Complex.I_im]
  ring

theorem sin_series_bound (t : ℝ) (ht : |t| ≤ 1) :
    |Real.sin t - (t - t ^ 3 / 6 + t ^ 5 / 120 - t ^ 7 / 5040 + t ^ 9 / 362880
      - t ^ 11 / 39916800)| ≤ |t| ^ 12 * (13 / (479001600 * 12)) := by
  have hx : Complex.abs ((t : ℂ) * Complex.I) ≤ 1 := by
    simpa using ht
  have hb := Complex.exp_bound hx (n := 12) (by norm_num)
  have him := Complex.abs_im_le_abs
    (Complex.exp ((t : ℂ) * Complex.I) - ∑ m in range 12, ((t : ℂ) * Complex.I) ^ m / (m.factorial : ℂ))
  rw [Complex.sub_im, Complex.exp_ofReal_mul_I_im, sum_exp_im] at him
  have e : Complex.abs ((t : ℂ) * Complex.I) = |t| := by simp
  rw [e] at hb
  calc _ ≤ _ := him
    _ ≤ _ := hb
    _ = _ := by norm_num [Nat.factorial]

theorem arg_failing_bin :
    (-4901 / 2048 : ℝ) < Complex.arg ⟨-10000000, -9288475⟩ ∧
      Complex.arg ⟨-10000000, -9288475⟩ < -4901 / 2048 + 1 / 10000000 := by
  have hpi1 := Real.pi_gt_d20
  have hpi2 := Real.pi_lt_d20
  have harg := Complex.arg_of_re_neg_of_im_neg (x := (⟨-10000000, -9288475⟩ : ℂ))
    (by norm_num) (by norm_num)
  have habs : Complex.abs (⟨-10000000, -9288475⟩ : ℂ) = Real.sqrt 186275767825625 := by
    rw [Complex.abs_apply, Complex.normSq_mk]
    norm_num
  have him : (-(⟨-10000000, -9288475⟩ : ℂ)).im = 9288475 := by
    simp
  rw [habs, him] at harg
  have hsq : (0 : ℝ) < Real.sqrt 186275767825625 := Real.sqrt_pos.mpr (by norm_num)
  have hb1 := sin_series_bound 0.74852625 (by rw [abs_of_pos] <;> norm_num)
  have hb2 := sin_series_bound 0.7485263 (by rw [abs_of_pos] <;> norm_num)
  rw [abs_of_pos (by norm_num : (0 : ℝ) < 0.74852625)] at hb1
  rw [abs_of_pos (by norm_num : (0 : ℝ) < 0.7485263)] at hb2
  have hu := (abs_le.mp hb1).2
  have hv := (abs_le.mp hb2).1
  have h1 : (0.74852625 : ℝ) < Real.arcsin (9288475 / Real.sqrt 186275767825625) := by
    rw [Real.lt_arcsin_iff_sin_lt' ⟨by linarith, by linarith⟩, lt_div_iff₀ hsq]
    have hU : (0 : ℝ) < 0.6805596938 := by norm_num
    have hs : Real.sin 0.74852625 < 0.6805596938 := by
      have : (0.74852625 - 0.74852625 ^ 3 / 6 + 0.74852625 ^ 5 / 120 - 0.74852625 ^ 7 / 5040
          + 0.74852625 ^ 9 / 362880 - 0.74852625 ^ 11 / 39916800 : ℝ)
          + 0.74852625 ^ 12 * (13 / (479001600 * 12)) < 0.6805596938 := by norm_num
      linarith
    have hq : Real.sqrt 186275767825625 < 9288475 / 0.6805596938 := by
      rw [Real.sqrt_lt' (by positivity)]
      norm_num
    have hsin0 : 0 < Real.sin 0.74852625 :=
      Real.sin_pos_of_pos_of_lt_pi (by norm_num) (by linarith)
    calc Real.sin 0.74852625 * Real.sqrt 186275767825625
        < 0.6805596938 * Real.sqrt 186275767825625 := by
          exact mul_lt_mul_of_pos_right hs hsq
      _ < 0.6805596938 * (9288475 / 0.6805596938) := by
          exact mul_lt_mul_of_pos_left hq hU
      _ = 9288475 := by norm_num
  have h2 : Real.arcsin (9288475 / Real.sqrt 186275767825625) < (0.7485263 : ℝ) := by
    rw [Real.arcsin_lt_iff_lt_sin' ⟨by linarith, by linarith⟩, div_lt_iff₀ hsq]
    have hV : (0 : ℝ) < 0.6805597302 := by norm_num
    have hs : 0.6805597302 < Real.sin 0.7485263 := by
      have : (0.6805597302 : ℝ) < (0.7485263 - 0.7485263 ^ 3 / 6 + 0.7485263 ^ 5 / 120
          - 0.7485263 ^ 7 / 5040 + 0.7485263 ^ 9 / 362880 - 0.7485263 ^ 11 / 39916800 : ℝ)
          - 0.7485263 ^ 12 * (13 / (479001600 * 12)) := by norm_num
      linarith
    have hq : 9288475 / 0.6805597302 < Real.sqrt 186275767825625 := by
      rw [Real.lt_sqrt (by positivity)]
      norm_num
    calc (9288475 : ℝ) = 0.6805597302 * (9288475 / 0.6805597302) := by norm_num
      _ < 0.6805597302 * Real.sqrt 186275767825625 := by
          exact mul_lt_mul_of_pos_left hq hV
      _ < Real.sin 0.7485263 * Real.sqrt 186275767825625 := by
          exact mul_lt_mul_of_pos_right hs hsq
  rw [harg]
  constructor
  · have : (-4901 / 2048 : ℝ) < 0.74852625 - 3.14159265358979323847 := by norm_num
    linarith
  · have : (0.7485263 : ℝ) - 3.14159265358979323846 < -4901 / 2048 + 1 / 10000000 := by norm_num
    linarith

/-! ## `myfftPhase` in IEEE 754 arithmetic -/

theorem binary64_epsilon : binary64 (1e-8 : ℝ) = 6044629098073146 / 2 ^ 79 := by
  rw [binary64_of_pos 1e-8 (-27) 6044629098073146 (by norm_num) (by norm_num) (by norm_num)
    (by norm_num) (by norm_num)]
  norm_num

theorem binary64_rad2deg :
    binary64 (57.295779513082320876798154814105 : ℝ) = 1007958012753983 / 17592186044416 := by
  rw [binary64_of_pos _ 5 8063664102031864 (by norm_num) (by norm_num) (by norm_num)
    (by norm_num) (by norm_num)]
  norm_num

theorem binary64_137 : binary64 (137.1126 : ℝ) = 2412110368233593 / 17592186044416 := by
  rw [binary64_offset]
  norm_num

/-- The `float` `angle_rad` of the bin `(-10000000, -9288475)`. -/
theorem angle_rad_failing_bin :
    binary32 (binary64 (Complex.arg ⟨-10000000, -9288475⟩)) = -4901 / 2048 := by
  obtain ⟨h1, h2⟩ := arg_failing_bin
  set a := Complex.arg ⟨-10000000, -9288475⟩ with ha
  have hneg : a < 0 := by linarith
  have hb := abs_binary64_sub_le a 1 1 (by norm_num)
    (by rw [abs_of_neg hneg]; norm_num; linarith)
    (by rw [abs_of_neg hneg]; norm_num; linarith)
  obtain ⟨hb1, hb2⟩ := abs_le.mp hb
  have e52 : ((2 : ℝ) ^ ((1 : ℤ) - 53)) = 1 / 4503599627370496 := by norm_num
  rw [e52] at hb1 hb2
  rw [binary32_of_neg (binary64 a) 1 (-10037248) (by norm_num)
    (by norm_num; linarith) (by norm_num; linarith)
    (by norm_num; linarith) (by norm_num; linarith)]
  norm_num

theorem angle_deg_failing_bin :
    binary32 (binary64 ((-4901 / 2048 : ℝ) * (1007958012753983 / 17592186044416)))
      = -2246453 / 16384 := by
  have e1 : binary64 ((-4901 / 2048 : ℝ) * (1007958012753983 / 17592186044416))
      = -1206055229616033 / 8796093022208 := by
    rw [binary64_of_neg _ 7 (-4824220918464132) (by norm_num) (by norm_num) (by norm_num)
      (by norm_num) (by norm_num)]
    norm_num
  rw [e1, binary32_of_neg _ 7 (-8985812) (by norm_num) (by norm_num) (by norm_num)
    (by norm_num) (by norm_num)]
  norm_num

theorem angle_deg_offset_failing_bin :
    binary32 (binary64 ((-2246453 / 16384 : ℝ) + 2412110368233593 / 17592186044416))
      = -1355599 / 137438953472 := by
  have e1 : binary64 ((-2246453 / 16384 : ℝ) + 2412110368233593 / 17592186044416)
      = -173516679 / 17592186044416 := by
    rw [binary64_of_neg _ (-17) (-5822253606371328) (by norm_num) (by norm_num) (by norm_num)
      (by norm_num) (by norm_num)]
    norm_num
  rw [e1, binary32_of_neg _ (-17) (-10844792) (by norm_num) (by norm_num) (by norm_num)
    (by norm_num) (by norm_num)]
  norm_num

/-- The rounding that produces `360.0f`: the `float` nearest to
`360 - 1355599 / 2 ^ 37` (about `359.99999014`) is `360`, the `float` below it
being `360 - 2 ^ -15`. -/
theorem angle_deg_normalised_failing_bin :
    binary32 (binary64 ((-1355599 / 137438953472 : ℝ) + 360.0)) = 360 := by
  have e1 : binary64 ((-1355599 / 137438953472 : ℝ) + 360.0)
      = 49478021894321 / 137438953472 := by
    rw [binary64_of_pos _ 8 6333186802473088 (by norm_num) (by norm_num) (by norm_num)
      (by norm_num) (by norm_num)]
    norm_num
  rw [e1, binary32_of_pos _ 8 11796480 (by norm_num) (by norm_num) (by norm_num)
    (by norm_num) (by norm_num)]
  norm_num

theorem readAtInt_zero_one (a b c d : ℝ) :
    readAtInt [a, b, c, d] (2 * 0) = some a ∧ readAtInt [a, b, c, d] (2 * 0 + 1) = some b := by
  constructor <;> simp [readAtInt]

theorem toULong_zero : toULong 0 = 0 := by
  unfold toULong
  simp

theorem myfftPhase_ieee_failing_bin :
    myfftPhase ieeeLibm [-10000000, -9288475, 0, 0] 2 0 = some 360 := by
  obtain ⟨r1, r2⟩ := readAtInt_zero_one (-10000000) (-9288475) 0 0
  unfold myfftPhase
  rw [if_neg (by rw [toULong_zero]; norm_num), r1, r2]
  simp only [Option.bind_eq_bind, Option.some_bind, ieeeLibm, EPSILON]
  rw [binary64_epsilon, if_neg (by norm_num [abs_of_neg])]
  rw [angle_rad_failing_bin, binary64_rad2deg, angle_deg_failing_bin, binary64_137,
    angle_deg_offset_failing_bin, if_pos (by norm_num), angle_deg_normalised_failing_bin]

/-! ## The flat-top window in IEEE 754 arithmetic -/

theorem binary64_bounds_pos (x lo hi err : ℝ) (k0 k1 : ℤ) (hk : -1022 ≤ k0) (hlo : lo ≤ x)
    (hhi : x ≤ hi) (h0 : (2 : ℝ) ^ k0 ≤ lo) (h1 : hi < (2 : ℝ) ^ (k1 + 1))
    (herr : (2 : ℝ) ^ (k1 - 53) ≤ err) :
    lo - err ≤ binary64 x ∧ binary64 x ≤ hi + err := by
  have hx : 0 < x := lt_of_lt_of_le (by positivity) (le_trans h0 hlo)
  have hb := abs_binary64_sub_le x k0 k1 hk (by rw [abs_of_pos hx]; linarith)
    (by rw [abs_of_pos hx]; linarith)
  obtain ⟨hb1, hb2⟩ := abs_le.mp hb
  constructor <;> linarith

theorem binary64_bounds_neg (x lo hi err : ℝ) (k0 k1 : ℤ) (hk : -1022 ≤ k0) (hlo : lo ≤ x)
    (hhi : x ≤ hi) (h0 : (2 : ℝ) ^ k0 ≤ -hi) (h1 : -lo < (2 : ℝ) ^ (k1 + 1))
    (herr : (2 : ℝ) ^ (k1 - 53) ≤ err) :
    lo - err ≤ binary64 x ∧ binary64 x ≤ hi + err := by
  have hx : x < 0 := by
    have : (0 : ℝ) < (2 : ℝ) ^ k0 := by positivity
    linarith
  have hb := abs_binary64_sub_le x k0 k1 hk (by rw [abs_of_neg hx]; linarith)
    (by rw [abs_of_neg hx]; linarith)
  obtain ⟨hb1, hb2⟩ := abs_le.mp hb
  constructor <;> linarith

theorem binary64_one : binary64 (1 : ℝ) = 1 := by
  rw [binary64_of_pos 1 0 4503599627370496 (by norm_num) (by norm_num) (by norm_num)
    (by norm_num) (by norm_num)]
  norm_num

/-- The `const float` objects `a0`, ..., `a4` of `generate_flat_top_window`. -/
theorem flat_top_constants :
    binary32 (binary64 (1.0 : ℝ)) = 1 ∧
    binary32 (binary64 (1.93 : ℝ)) = 16190013 / 8388608 ∧
    binary32 (binary64 (1.29 : ℝ)) = 1352663 / 1048576 ∧
    binary32 (binary64 (0.388 : ℝ)) = 813695 / 2097152 ∧
    binary32 (binary64 (0.028 : ℝ)) = 7516193 / 268435456 := by
  refine ⟨?_, ?_, ?_, ?_, ?_⟩
  · have e : (1.0 : ℝ) = 1 := by norm_num
    rw [e, binary64_one, binary32_of_pos 1 0 8388608 (by norm_num) (by norm_num) (by norm_num)
      (by norm_num) (by norm_num)]
    norm_num
  · have e : binary64 (1.93 : ℝ) = 8691947280825057 / 4503599627370496 := by
      rw [binary64_of_pos _ 0 8691947280825057 (by norm_num) (by norm_num) (by norm_num)
        (by norm_num) (by norm_num)]
      norm_num
    rw [e, binary32_of_pos _ 0 16190013 (by norm_num) (by norm_num) (by norm_num)
      (by norm_num) (by norm_num)]
    norm_num
  · have e : binary64 (1.29 : ℝ) = 1452410879826985 / 1125899906842624 := by
      rw [binary64_of_pos _ 0 5809643519307940 (by norm_num) (by norm_num) (by norm_num)
        (by norm_num) (by norm_num)]
      norm_num
    rw [e, binary32_of_pos _ 0 10821304 (by norm_num) (by norm_num) (by norm_num)
      (by norm_num) (by norm_num)]
    norm_num
  · have e : binary64 (0.388 : ℝ) = 3494793310839505 / 9007199254740992 := by
      rw [binary64_of_pos _ (-2) 6989586621679010 (by norm_num) (by norm_num) (by norm_num)
        (by norm_num) (by norm_num)]
      norm_num
    rw [e, binary32_of_pos _ (-2) 13019120 (by norm_num) (by norm_num) (by norm_num)
      (by norm_num) (by norm_num)]
    norm_num
  · have e : binary64 (0.028 : ℝ) = 8070450532247929 / 288230376151711744 := by
      rw [binary64_of_pos _ (-6) 8070450532247929 (by norm_num) (by norm_num) (by norm_num)
        (by norm_num) (by norm_num)]
      norm_num
    rw [e, binary32_of_pos _ (-6) 15032386 (by norm_num) (by norm_num) (by norm_num)
      (by norm_num) (by norm_num)]
    norm_num

/-- The sum `a0 - a1 + a2 - a3 + a4` of the `float` constants, computed in
`double` and stored as a `float`: every step is exact and the result is `2 ^ -28`. -/
theorem flat_top_endpoint_sum :
    binary32 (binary64 (binary64 (binary64 (binary64
      ((1 : ℝ) - binary64 (16190013 / 8388608 * 1))
        + binary64 (1352663 / 1048576 * 1))
        - binary64 (813695 / 2097152 * 1))
        + binary64 (7516193 / 268435456 * 1))) = 1 / 2 ^ 28 := by
  have t1 : binary64 (16190013 / 8388608 * 1 : ℝ) = 16190013 / 8388608 := by
    rw [binary64_of_pos _ 0 8691947044601856 (by norm_num) (by norm_num) (by norm_num)
      (by norm_num) (by norm_num)]
    norm_num
  have t2 : binary64 (1352663 / 1048576 * 1 : ℝ) = 1352663 / 1048576 := by
    rw [binary64_of_pos _ 0 5809643347509248 (by norm_num) (by norm_num) (by norm_num)
      (by norm_num) (by norm_num)]
    norm_num
  have t3 : binary64 (813695 / 2097152 * 1 : ℝ) = 813695 / 2097152 := by
    rw [binary64_of_pos _ (-2) 6989586827837440 (by norm_num) (by norm_num) (by norm_num)
      (by norm_num) (by norm_num)]
    norm_num
  have t4 : binary64 (7516193 / 268435456 * 1 : ℝ) = 7516193 / 268435456 := by
    rw [binary64_of_pos _ (-6) 8070450781356032 (by norm_num) (by norm_num) (by norm_num)
      (by norm_num) (by norm_num)]
    norm_num
  have s1 : binary64 ((1 : ℝ) - 16190013 / 8388608) = -7801405 / 8388608 := by
    rw [binary64_of_neg _ (-1) (-8376694834462720) (by norm_num) (by norm_num) (by norm_num)
      (by norm_num) (by norm_num)]
    norm_num
  have s2 : binary64 ((-7801405 / 8388608 : ℝ) + 1352663 / 1048576) = 3019899 / 8388608 := by
    rw [binary64_of_pos _ (-2) 6485183721111552 (by norm_num) (by norm_num) (by norm_num)
      (by norm_num) (by norm_num)]
    norm_num
  have s3 : binary64 ((3019899 / 8388608 : ℝ) - 813695 / 2097152) = -234881 / 8388608 := by
    rw [binary64_of_neg _ (-6) (-8070449707614208) (by norm_num) (by norm_num) (by norm_num)
      (by norm_num) (by norm_num)]
    norm_num
  have s4 : binary64 ((-234881 / 8388608 : ℝ) + 7516193 / 268435456) = 1 / 268435456 := by
    rw [binary64_of_pos _ (-28) 4503599627370496 (by norm_num) (by norm_num) (by norm_num)
      (by norm_num) (by norm_num)]
    norm_num
  rw [t1, t2, t3, t4, s1, s2, s3, s4,
    binary32_of_pos _ (-28) 8388608 (by norm_num) (by norm_num) (by norm_num)
      (by norm_num) (by norm_num)]
  norm_num

/-- In IEEE 754 arithmetic the first coefficient of the flat-top window is
`2 ^ -28`, for every length `L ≥ 2`. -/
theorem flat_top_coefficient_ieee_zero (L : ℕ) (_hL : 2 ≤ L) :
    flat_top_coefficient ieeeLibm L 0 = 1 / 2 ^ 28 := by
  obtain ⟨c0, c1, c2, c3, c4⟩ := flat_top_constants
  unfold flat_top_coefficient
  simp only [ieeeLibm, Nat.cast_zero, mul_zero, zero_div, binary64_zero, binary32_zero,
    Real.cos_zero, binary64_one]
  rw [c0, c1, c2, c3, c4]
  exact flat_top_endpoint_sum

theorem cos_near_pi (x d : ℝ) (h : |x - Real.pi| ≤ d) :
    -1 ≤ Real.cos x ∧ Real.cos x ≤ -1 + d ^ 2 / 2 := by
  have h1 := Real.one_sub_sq_div_two_le_cos (x := x - Real.pi)
  rw [Real.cos_sub_pi] at h1
  have h2 : (x - Real.pi) ^ 2 ≤ d ^ 2 := by
    rw [← sq_abs (x - Real.pi)]
    exact pow_le_pow_left₀ (abs_nonneg _) h 2
  exact ⟨Real.neg_one_le_cos x, by linarith⟩

theorem cos_near_two_pi (x d : ℝ) (n : ℕ) (h : |x - (n : ℝ) * (2 * Real.pi)| ≤ d) :
    1 - d ^ 2 / 2 ≤ Real.cos x ∧ Real.cos x ≤ 1 := by
  have h1 := Real.one_sub_sq_div_two_le_cos (x := x - (n : ℝ) * (2 * Real.pi))
  rw [Real.cos_sub_nat_mul_two_pi] at h1
  have h2 : (x - (n : ℝ) * (2 * Real.pi)) ^ 2 ≤ d ^ 2 := by
    rw [← sq_abs (x - (n : ℝ) * (2 * Real.pi))]
    exact pow_le_pow_left₀ (abs_nonneg _) h 2
  exact ⟨by linarith, Real.cos_le_one x⟩

theorem cos_near_three_pi (x d : ℝ) (h : |x - 3 * Real.pi| ≤ d) :
    -1 ≤ Real.cos x ∧ Real.cos x ≤ -1 + d ^ 2 / 2 := by
  have e : Real.cos x = Real.cos (x - 2 * Real.pi) := (Real.cos_sub_two_pi x).symm
  rw [e]
  apply cos_near_pi
  have : x - 2 * Real.pi - Real.pi = x - 3 * Real.pi := by ring
  rw [this]
  exact h

/-- The cosines of the middle coefficient for `num_points = 3`: `factor` is the
`float` nearest to `π`, and `3 * factor` is rounded to `float`. -/
theorem flat_top_cosines_mid :
    (-1 ≤ Real.cos (13176795 / 4194304) ∧ Real.cos (13176795 / 4194304) ≤ -1 + 1 / 10 ^ 11) ∧
    (1 - 1 / 10 ^ 11 ≤ Real.cos (13176795 / 2097152) ∧ Real.cos (13176795 / 2097152) ≤ 1) ∧
    (-1 ≤ Real.cos (2470649 / 262144) ∧ Real.cos (2470649 / 262144) ≤ -1 + 1 / 10 ^ 11) ∧
    (1 - 1 / 10 ^ 11 ≤ Real.cos (13176795 / 1048576) ∧ Real.cos (13176795 / 1048576) ≤ 1) := by
  have hpi1 := Real.pi_gt_d6
  have hpi2 := Real.pi_lt_d6
  refine ⟨?_, ?_, ?_, ?_⟩
  · have h := cos_near_pi (13176795 / 4194304) (1 / 10 ^ 6)
      (by rw [abs_le]; constructor <;> norm_num <;> linarith)
    exact ⟨h.1, by have := h.2; norm_num at this ⊢; linarith⟩
  · have h := cos_near_two_pi (13176795 / 2097152) (2 / 10 ^ 6) 1
      (by rw [abs_le]; constructor <;> norm_num <;> linarith)
    exact ⟨by have := h.1; norm_num at this ⊢; linarith, h.2⟩
  · have h := cos_near_three_pi (2470649 / 262144) (2 / 10 ^ 6)
      (by rw [abs_le]; constructor <;> norm_num <;> linarith)
    exact ⟨h.1, by have := h.2; norm_num at this ⊢; linarith⟩
  · have h := cos_near_two_pi (13176795 / 1048576) (4 / 10 ^ 6) 2
      (by rw [abs_le]; constructor <;> norm_num <;> linarith)
    exact ⟨by have := h.1; norm_num at this ⊢; linarith, h.2⟩

/-- The `float` `factor` for `num_points = 3`, `n = 1`, and its multiples. -/
theorem flat_top_factor_mid :
    binary64 (PI_MACRO : ℝ) = 884279719003555 / 281474976710656 ∧
    binary32 (binary64 (binary64 (binary64 ((2 : ℝ) * (884279719003555 / 281474976710656)) * 1)
      / 2)) = 13176795 / 4194304 ∧
    binary32 ((2 : ℝ) * (13176795 / 4194304)) = 13176795 / 2097152 ∧
    binary32 ((3 : ℝ) * (13176795 / 4194304)) = 2470649 / 262144 ∧
    binary32 ((4 : ℝ) * (13176795 / 4194304)) = 13176795 / 1048576 := by
  refine ⟨?_, ?_, ?_, ?_, ?_⟩
  · unfold PI_MACRO
    rw [binary64_of_pos _ 1 7074237752028440 (by norm_num) (by norm_num) (by norm_num)
      (by norm_num) (by norm_num)]
    norm_num
  · have e1 : binary64 ((2 : ℝ) * (884279719003555 / 281474976710656))
        = 884279719003555 / 140737488355328 := by
      rw [binary64_of_pos _ 2 7074237752028440 (by norm_num) (by norm_num) (by norm_num)
        (by norm_num) (by norm_num)]
      norm_num
    have e2 : binary64 ((884279719003555 / 140737488355328 : ℝ) * 1)
        = 884279719003555 / 140737488355328 := by
      rw [binary64_of_pos _ 2 7074237752028440 (by norm_num) (by norm_num) (by norm_num)
        (by norm_num) (by norm_num)]
      norm_num
    have e3 : binary64 ((884279719003555 / 140737488355328 : ℝ) / 2)
        = 884279719003555 / 281474976710656 := by
      rw [binary64_of_pos _ 1 7074237752028440 (by norm_num) (by norm_num) (by norm_num)
        (by norm_num) (by norm_num)]
      norm_num
    rw [e1, e2, e3, binary32_of_pos _ 1 13176795 (by norm_num) (by norm_num) (by norm_num)
      (by norm_num) (by norm_num)]
    norm_num
  · rw [binary32_of_pos _ 2 13176795 (by norm_num) (by norm_num) (by norm_num)
      (by norm_num) (by norm_num)]
    norm_num
  · rw [binary32_of_pos _ 3 9882596 (by norm_num) (by norm_num) (by norm_num)
      (by norm_num) (by norm_num)]
    norm_num
  · rw [binary32_of_pos _ 3 13176795 (by norm_num) (by norm_num) (by norm_num)
      (by norm_num) (by norm_num)]
    norm_num

/-- The products `a_i * cos(...)` of the middle coefficient for `num_points = 3`,
computed in `double` from cosines within `10 ^ -11` of `-1, 1, -1, 1`. -/
theorem flat_top_mid_products (c1 c2 c3 c4 : ℝ)
    (h1 : -1 ≤ c1 ∧ c1 ≤ -1 + 1 / 10 ^ 11) (h2 : 1 - 1 / 10 ^ 11 ≤ c2 ∧ c2 ≤ 1)
    (h3 : -1 ≤ c3 ∧ c3 ≤ -1 + 1 / 10 ^ 11) (h4 : 1 - 1 / 10 ^ 11 ≤ c4 ∧ c4 ≤ 1) :
    (-(16190013 / 8388608) - 2 / 10 ^ 14 ≤ binary64 (16190013 / 8388608 * binary64 c1) ∧
      binary64 (16190013 / 8388608 * binary64 c1) ≤ -(16190013 / 8388608) + 3 / 10 ^ 11) ∧
    (1352663 / 1048576 - 3 / 10 ^ 11 ≤ binary64 (1352663 / 1048576 * binary64 c2) ∧
      binary64 (1352663 / 1048576 * binary64 c2) ≤ 1352663 / 1048576 + 2 / 10 ^ 14) ∧
    (-(813695 / 2097152) - 2 / 10 ^ 14 ≤ binary64 (813695 / 2097152 * binary64 c3) ∧
      binary64 (813695 / 2097152 * binary64 c3) ≤ -(813695 / 2097152) + 2 / 10 ^ 11) ∧
    (7516193 / 268435456 - 2 / 10 ^ 11 ≤ binary64 (7516193 / 268435456 * binary64 c4) ∧
      binary64 (7516193 / 268435456 * binary64 c4) ≤ 7516193 / 268435456 + 2 / 10 ^ 14) := by
  have d1 := binary64_bounds_neg c1 (-1) (-1 + 1 / 10 ^ 11) (1 / 10 ^ 15) (-1) 0 (by norm_num)
    h1.1 h1.2 (by norm_num) (by norm_num) (by norm_num)
  have d2 := binary64_bounds_pos c2 (1 - 1 / 10 ^ 11) 1 (1 / 10 ^ 15) (-1) 0 (by norm_num)
    h2.1 h2.2 (by norm_num) (by norm_num) (by norm_num)
  have d3 := binary64_bounds_neg c3 (-1) (-1 + 1 / 10 ^ 11) (1 / 10 ^ 15) (-1) 0 (by norm_num)
    h3.1 h3.2 (by norm_num) (by norm_num) (by norm_num)
  have d4 := binary64_bounds_pos c4 (1 - 1 / 10 ^ 11) 1 (1 / 10 ^ 15) (-1) 0 (by norm_num)
    h4.1 h4.2 (by norm_num) (by norm_num) (by norm_num)
  generalize binary64 c1 = b1 at d1 ⊢
  generalize binary64 c2 = b2 at d2 ⊢
  generalize binary64 c3 = b3 at d3 ⊢
  generalize binary64 c4 = b4 at d4 ⊢
  have p1 := binary64_bounds_neg (16190013 / 8388608 * b1)
    (-(16190013 / 8388608) - 1 / 10 ^ 14) (-(16190013 / 8388608) + 2 / 10 ^ 11) (1 / 10 ^ 15)
    0 0 (by norm_num) (by linarith [d1.1]) (by linarith [d1.2]) (by norm_num) (by norm_num)
    (by norm_num)
  have p2 := binary64_bounds_pos (1352663 / 1048576 * b2)
    (1352663 / 1048576 - 2 / 10 ^ 11) (1352663 / 1048576 + 1 / 10 ^ 14) (1 / 10 ^ 15)
    0 0 (by norm_num) (by linarith [d2.1]) (by linarith [d2.2]) (by norm_num) (by norm_num)
    (by norm_num)
  have p3 := binary64_bounds_neg (813695 / 2097152 * b3)
    (-(813695 / 2097152) - 1 / 10 ^ 14) (-(813695 / 2097152) + 1 / 10 ^ 11) (1 / 10 ^ 15)
    (-2) (-2) (by norm_num) (by linarith [d3.1]) (by linarith [d3.2]) (by norm_num)
    (by norm_num) (by norm_num)
  have p4 := binary64_bounds_pos (7516193 / 268435456 * b4)
    (7516193 / 268435456 - 1 / 10 ^ 11) (7516193 / 268435456 + 1 / 10 ^ 14) (1 / 10 ^ 15)
    (-6) (-6) (by norm_num) (by linarith [d4.1]) (by linarith [d4.2]) (by norm_num)
    (by norm_num) (by norm_num)
  refine ⟨⟨?_, ?_⟩, ⟨?_, ?_⟩, ⟨?_, ?_⟩, ⟨?_, ?_⟩⟩
  · linarith [p1.1]
  · linarith [p1.2]
  · linarith [p2.1]
  · linarith [p2.2]
  · linarith [p3.1]
  · linarith [p3.2]
  · linarith [p4.1]
  · linarith [p4.2]

/-- The first two sums of the middle coefficient for `num_points = 3`, computed
in `double`. -/
theorem flat_top_mid_first_sums (t1 t2 : ℝ)
    (p1 : -(16190013 / 8388608) - 2 / 10 ^ 14 ≤ t1 ∧ t1 ≤ -(16190013 / 8388608) + 3 / 10 ^ 11)
    (p2 : 1352663 / 1048576 - 3 / 10 ^ 11 ≤ t2 ∧ t2 ≤ 1352663 / 1048576 + 2 / 10 ^ 14) :
    1 + 16190013 / 8388608 + 1352663 / 1048576 - 1 / 10 ^ 10
        ≤ binary64 (binary64 (1 - t1) + t2) ∧
      binary64 (binary64 (1 - t1) + t2)
        ≤ 1 + 16190013 / 8388608 + 1352663 / 1048576 + 1 / 10 ^ 13 := by
  have q1 := binary64_bounds_pos (1 - t1) (1 + 16190013 / 8388608 - 3 / 10 ^ 11)
    (1 + 16190013 / 8388608 + 2 / 10 ^ 14) (1 / 10 ^ 15) 1 1 (by norm_num)
    (by linarith [p1.2]) (by linarith [p1.1]) (by norm_num) (by norm_num) (by norm_num)
  generalize binary64 (1 - t1) = s1 at q1 ⊢
  have q2 := binary64_bounds_pos (s1 + t2)
    (1 + 16190013 / 8388608 + 1352663 / 1048576 - 7 / 10 ^ 11)
    (1 + 16190013 / 8388608 + 1352663 / 1048576 + 5 / 10 ^ 14) (1 / 10 ^ 15) 2 2
    (by norm_num) (by linarith [p2.1, q1.1]) (by linarith [p2.2, q1.2]) (by norm_num)
    (by norm_num) (by norm_num)
  constructor
  · linarith [q2.1]
  · linarith [q2.2]

/-- The middle coefficient for `num_points = 3` from the products: the sum,
computed in `double`, is within `10 ^ -9` of
`a0 + a1 + a2 + a3 + a4 = 1244466753 / 2 ^ 28` (about `4.63599992`), and the
`float` nearest to it is `9722397 / 2 ^ 21` (about `4.63600016`). -/
theorem flat_top_mid_total (s2 t3 t4 : ℝ)
    (q2 : 1 + 16190013 / 8388608 + 1352663 / 1048576 - 1 / 10 ^ 10 ≤ s2 ∧
      s2 ≤ 1 + 16190013 / 8388608 + 1352663 / 1048576 + 1 / 10 ^ 13)
    (p3 : -(813695 / 2097152) - 2 / 10 ^ 14 ≤ t3 ∧ t3 ≤ -(813695 / 2097152) + 2 / 10 ^ 11)
    (p4 : 7516193 / 268435456 - 2 / 10 ^ 11 ≤ t4 ∧ t4 ≤ 7516193 / 268435456 + 2 / 10 ^ 14) :
    binary32 (binary64 (binary64 (s2 - t3) + t4)) = 9722397 / 2097152 := by
  have q3 := binary64_bounds_pos (s2 - t3)
    (1 + 16190013 / 8388608 + 1352663 / 1048576 + 813695 / 2097152 - 2 / 10 ^ 10)
    (1 + 16190013 / 8388608 + 1352663 / 1048576 + 813695 / 2097152 + 2 / 10 ^ 13)
    (1 / 10 ^ 15) 2 2
    (by norm_num) (by linarith [p3.2, q2.1]) (by linarith [p3.1, q2.2]) (by norm_num)
    (by norm_num) (by norm_num)
  generalize binary64 (s2 - t3) = s3 at q3 ⊢
  have q4 := binary64_bounds_pos (s3 + t4)
    (1244466753 / 268435456 - 3 / 10 ^ 10) (1244466753 / 268435456 + 3 / 10 ^ 13)
    (1 / 10 ^ 15) 2 2
    (by norm_num) (by linarith [p4.1, q3.1]) (by linarith [p4.2, q3.2]) (by norm_num)
    (by norm_num) (by norm_num)
  generalize binary64 (s3 + t4) = s4 at q4 ⊢
  rw [binary32_of_pos s4 2 9722397 (by norm_num) (by norm_num; linarith [q4.1])
    (by norm_num; linarith [q4.2]) (by norm_num; linarith [q4.1])
    (by norm_num; linarith [q4.2])]
  norm_num

/-- In IEEE 754 arithmetic the middle coefficient of the flat-top window of
length `3` is `9722397 / 2 ^ 21`, about `4.63600016`. -/
theorem flat_top_coefficient_ieee_mid :
    flat_top_coefficient ieeeLibm 3 1 = 9722397 / 2097152 := by
  obtain ⟨c0, c1, c2, c3, c4⟩ := flat_top_constants
  obtain ⟨f0, f1, f2, f3, f4⟩ := flat_top_factor_mid
  obtain ⟨k1, k2, k3, k4⟩ := flat_top_cosines_mid
  unfold flat_top_coefficient
  simp only [ieeeLibm, Nat.cast_one]
  have e2 : ((3 - 1 : ℕ) : ℝ) = 2 := by norm_num
  rw [e2, c0, c1, c2, c3, c4, f0, f1, f2, f3, f4]
  obtain ⟨p1, p2, p3, p4⟩ := flat_top_mid_products _ _ _ _ k1 k2 k3 k4
  exact flat_top_mid_total _ _ _ (flat_top_mid_first_sums _ _ p1 p2) p3 p4

/-! ## The claims that depend on the rounding -/

/-- Claim C2 fails on the code. In IEEE 754 arithmetic, on the buffer
`[-10000000, -9288475, 0, 0]` with `nn = 2` and `k = 0` the function `myfftPhase`
(the `+ 137.1126` variant) returns `360`, which is not `< 360`: `angle_rad` is
`-4901 / 2048`, `angle_deg` is `-2246453 / 16384`, after `+= 137.1126` it is
`-1355599 / 2 ^ 37` (about `-9.86e-6`), which is negative, and the `float`
nearest to `360` plus this value is `360`. -/
theorem myfftPhase_returns_360 :
    myfftPhase ieeeLibm [-10000000, -9288475, 0, 0] 2 0 = some 360 ∧
      ¬ ((360 : ℝ) < 360) :=
  ⟨myfftPhase_ieee_failing_bin, lt_irrefl _⟩

theorem atan2_zero_one_exact : realLibm.atan2 0 1 = 0 := by
  have h : (⟨1, 0⟩ : ℂ) = 1 := rfl
  simp only [realLibm]
  rw [h, Complex.arg_one]

/-- Claim C5 fails as stated. In IEEE 754 arithmetic, on the bin `(1, 0)` (raw
angle `0`) `myfftPhase` returns the `float` nearest to `137.1126`, which is
`8985811 / 65536` (about `137.11259460`), and not `137.1126`, the value of
`atan2(im, re) * 180 / π + 137.1126` reduced modulo 360. -/
theorem myfftPhase_float_not_exact :
    myfftPhase ieeeLibm [1, 0, 0, 0] 2 0 = some (8985811 / 65536) ∧
      mod360 (realLibm.atan2 0 1 * (180 / Real.pi) + 137.1126) = 137.1126 ∧
      (8985811 / 65536 : ℝ) ≠ 137.1126 := by
  refine ⟨?_, ?_, by norm_num⟩
  · obtain ⟨r1, r2⟩ := readAtInt_zero_one 1 0 0 0
    unfold myfftPhase
    rw [if_neg (by rw [toULong_zero]; norm_num), r1, r2]
    simp only [Option.bind_eq_bind, Option.some_bind, ieeeLibm, EPSILON]
    have h : (⟨1, 0⟩ : ℂ) = 1 := rfl
    rw [binary64_epsilon, if_neg (by norm_num), h, Complex.arg_one, binary64_zero,
      binary32_zero, zero_mul, binary64_zero, binary32_zero, zero_add, binary64_137]
    have e1 : binary64 (2412110368233593 / 17592186044416 : ℝ)
        = 2412110368233593 / 17592186044416 := by
      rw [binary64_of_pos _ 7 4824220736467186 (by norm_num) (by norm_num) (by norm_num)
        (by norm_num) (by norm_num)]
      norm_num
    have e2 : binary32 (2412110368233593 / 17592186044416 : ℝ) = 8985811 / 65536 := by
      rw [binary32_of_pos _ 7 8985811 (by norm_num) (by norm_num) (by norm_num)
        (by norm_num) (by norm_num)]
      norm_num
    rw [e1, e2, if_neg (by norm_num)]
  · rw [atan2_zero_one_exact, zero_mul, zero_add,
      ← add360_eq_mod360 _ (by norm_num) (by norm_num)]
    unfold add360_if_negative
    rw [if_neg (by norm_num)]

/-- Claim C26 fails as stated. In IEEE 754 arithmetic the flat-top window of
length `3` is `2 ^ -28` at its first point, not `0` (the `const float`
constants are not the decimals they are written with), and `9722397 / 2 ^ 21`
(about `4.63600016`) at its middle, which is more than `4.636`. -/
theorem flat_top_window_float_values :
    ∃ w : List ℝ, generate_flat_top_window ieeeLibm [0, 0, 0] 3 = some w ∧
      w[0]? = some (1 / 2 ^ 28) ∧ (1 / 2 ^ 28 : ℝ) ≠ 0 ∧
      w[(3 - 1) / 2]? = some (9722397 / 2097152) ∧ (4.636 : ℝ) < 9722397 / 2097152 := by
  obtain ⟨w, h1, _, h3⟩ := generate_flat_top_window_spec ieeeLibm 3 [0, 0, 0] (by simp)
  refine ⟨w, h1, ?_, by norm_num, ?_, by norm_num⟩
  · rw [h3, if_pos (by norm_num), flat_top_coefficient_ieee_zero 3 (by norm_num)]
  · rw [h3, if_pos (by norm_num)]
    exact congrArg some flat_top_coefficient_ieee_mid

/-- Claim C26, amended. For every length `L ≥ 2`: in exact arithmetic (`realLibm`:
no rounding, the constants as written in decimal, `PI = π`) the flat-top window
stored by `generate_flat_top_window` is `0` at both end points,
`w[0] = w[L-1] = a0 - a1 + a2 - a3 + a4 = 0`, every coefficient is at most
`a0 + a1 + a2 + a3 + a4 = 4.636`, and this value is taken at the middle
`n = (L - 1) / 2` when `L` is odd; in IEEE 754 arithmetic the first point is
`w[0] = 2 ^ -28`. -/
theorem flat_top_window_values (L : ℕ) (hL : 2 ≤ L) (buf : List ℝ) (hbuf : L ≤ buf.length) :
    (∃ w, generate_flat_top_window realLibm buf L = some w ∧
      w[0]? = some 0 ∧ w[L - 1]? = some 0 ∧
      (1.0 - 1.93 + 1.29 - 0.388 + 0.028 : ℝ) = 0 ∧
      (1.0 + 1.93 + 1.29 + 0.388 + 0.028 : ℝ) = 4.636 ∧
      (∀ n : ℕ, n < L → ∃ v, w[n]? = some v ∧ v ≤ 4.636) ∧
      (L % 2 = 1 → w[(L - 1) / 2]? = some (4.636 : ℝ))) ∧
    (∃ w, generate_flat_top_window ieeeLibm buf L = some w ∧ w[0]? = some (1 / 2 ^ 28)) := by
  constructor
  · obtain ⟨w, h1, _, h3⟩ := generate_flat_top_window_spec realLibm L buf hbuf
    refine ⟨w, h1, ?_, ?_, by norm_num, by norm_num, ?_, ?_⟩
    · rw [h3, if_pos (by omega), flat_top_coefficient_zero]
    · rw [h3, if_pos (by omega), flat_top_coefficient_last L hL]
    · intro n hn
      exact ⟨_, by rw [h3, if_pos hn], flat_top_coefficient_le L n⟩
    · intro hodd
      rw [h3, if_pos (by omega), flat_top_coefficient_mid L hL hodd]
  · obtain ⟨w, h1, _, h3⟩ := generate_flat_top_window_spec ieeeLibm L buf hbuf
    exact ⟨w, h1, by rw [h3, if_pos (by omega), flat_top_coefficient_ieee_zero L hL]⟩

/-- Claim C26, amended, at `L = 5`. -/
theorem flat_top_window_values_witness :
    (∃ w : List ℝ, generate_flat_top_window realLibm [0, 0, 0, 0, 0] 5 = some w ∧
      w[0]? = some 0 ∧ w[5 - 1]? = some 0 ∧
      (1.0 - 1.93 + 1.29 - 0.388 + 0.028 : ℝ) = 0 ∧
      (1.0 + 1.93 + 1.29 + 0.388 + 0.028 : ℝ) = 4.636 ∧
      (∀ n : ℕ, n < 5 → ∃ v, w[n]? = some v ∧ v ≤ 4.636) ∧
      (5 % 2 = 1 → w[(5 - 1) / 2]? = some (4.636 : ℝ))) ∧
    (∃ w : List ℝ, generate_flat_top_window ieeeLibm [0, 0, 0, 0, 0] 5 = some w ∧
      w[0]? = some (1 / 2 ^ 28)) :=
  flat_top_window_values 5 (by norm_num) [0, 0, 0, 0, 0] (by simp)

end SistemTreceri
